import Mathlib

/-!
# Buffer cache (`kernel/bio.c`) and page allocator (`kernel/kalloc.c`)

A sequential model of the two resource managers.

* The intrusive circular lists `hashbucket[i]` are represented by the sequence of buffer
  indices met when walking `next` from the head node: the first element is `head.next`
  (most recently used), the last is `head.prev` (least recently used).  A walk through
  `prev` visits the reversed sequence.
* The page allocator is modelled at the level of its pointers: a state holds the pointer
  `kmems[i].freelist` of every core and the word `next` stored in every page, since a
  free page is itself the node of its list.  The sequence of pages of a free list is
  read off a state by walking `next` from `freelist` up to the null pointer (`IsList`,
  `Repr`); it is not part of the state, so that a call on a page that is already on a
  list does to the lists what the code does.
* Spin-locks and sleep-locks only order the accesses of concurrent callers; they carry
  no state in a sequential model.  The one place where a lock is inspected for a
  decision, the `holdingsleep` test of `brelse`, takes the answer as an argument.
-/

namespace Bio

/-- Modelled from the spec: `NBUF` is a constant of `param.h`, which is not among the
sources; the spec gives the capacity as 30 buffer slots. -/
def NBUF : Nat := 30

/-- `#define NBUCKETS 13` -/
def NBUCKETS : Nat := 13

/-- Modelled from the spec: `struct buf` is declared in `buf.h`, which is not among the
sources.  The fields are the ones `bio.c` reads and writes: the validity flag, the cache
key `(dev, blockno)`, the reference count and the block content (abstracted to one
value).  The reference count is only ever incremented, decremented and compared with 0;
it is an integer here, so that a decrement is exact. -/
structure Buf where
  valid : Bool
  dev : Nat
  blockno : Nat
  refcnt : Int
  data : Nat

/-- The global `bcache`: the buffer array `buf[NBUF]` and, for every bucket, the list
linked from `hashbucket[i]`. -/
structure Bcache where
  buf : Nat → Buf
  hashbucket : Nat → List Nat

/-- `int CalcHash(uint blockno) { return blockno % NBUCKETS; }` -/
def CalcHash (blockno : Nat) : Nat := blockno % NBUCKETS

/-- `b->next->prev = b->prev; b->prev->next = b->next;` takes `b` out of the list it
is linked in. -/
def unlink (hb : Nat → List Nat) (b : Nat) : Nat → List Nat :=
  fun i => (hb i).erase b

/-- `b->next = head.next; b->prev = &head; head.next->prev = b; head.next = b;` puts
`b` right after the head node of bucket `h`. -/
def linkHead (hb : Nat → List Nat) (h b : Nat) : Nat → List Nat :=
  Function.update hb h (b :: hb h)

/-- Static storage is zero-initialised: the state of `bcache` before `binit`. -/
def bcacheZero : Bcache where
  buf := fun _ => { valid := false, dev := 0, blockno := 0, refcnt := 0, data := 0 }
  hashbucket := fun _ => []

/-- `binit`: every head node is linked to itself, then buffer `b` is put at the head of
bucket `b % NBUCKETS`, for `b = 0, ..., NBUF - 1`.  The fields of the buffers are not
written. -/
def binit (s : Bcache) : Bcache :=
  (List.range NBUF).foldl
    (fun t b => { t with hashbucket := linkHead t.hashbucket (b % NBUCKETS) b })
    { s with hashbucket := fun _ => [] }

/-- `b->dev == dev && b->blockno == blockno` -/
def isKey (s : Bcache) (dev blockno b : Nat) : Bool :=
  (s.buf b).dev == dev && (s.buf b).blockno == blockno

/-- `b->refcnt == 0` -/
def isFree (s : Bcache) (b : Nat) : Bool :=
  (s.buf b).refcnt == 0

/-- The loop `for(b = head.next; b != &head; b = b->next)` of `bget`, which stops at the
first buffer with the key. -/
def lookup (s : Bcache) (hashIndex dev blockno : Nat) : Option Nat :=
  (s.hashbucket hashIndex).find? (isKey s dev blockno)

/-- The loop `for(b = head.prev; b != &head; b = b->prev)` of `bget`, which stops at the
first buffer with `refcnt == 0` met from the least recently used end. -/
def lruFree (s : Bcache) (i : Nat) : Option Nat :=
  (s.hashbucket i).reverse.find? (isFree s)

/-- `b->refcnt++` -/
def incref (s : Bcache) (b : Nat) : Bcache :=
  { s with buf := Function.update s.buf b { (s.buf b) with refcnt := (s.buf b).refcnt + 1 } }

/-- `b->dev = dev; b->blockno = blockno; b->valid = 0; b->refcnt = 1;` -/
def recycle (s : Bcache) (b dev blockno : Nat) : Bcache :=
  { s with buf := Function.update s.buf b (
      { (s.buf b) with dev := dev, blockno := blockno, valid := false, refcnt := 1 }) }

/-- The relinking of the cross-bucket path of `bget`: `b` leaves its list and is put at
the head of bucket `hashIndex`. -/
def relink (s : Bcache) (hashIndex b : Nat) : Bcache :=
  { s with hashbucket := linkHead (unlink s.hashbucket b) hashIndex b }

/-- The loop `for(int i = 0; i < NBUCKETS; i++)` of `bget` over the buckets still to
visit; `none` is the fall-through to `panic("bget: no buffers")`. -/
def bgetSteal (s : Bcache) (hashIndex dev blockno : Nat) : List Nat → Option (Bcache × Nat)
  | [] => none
  | i :: rest =>
    if i = hashIndex then bgetSteal s hashIndex dev blockno rest
    else
      match lruFree s i with
      | some b => some (recycle (relink s hashIndex b) b dev blockno, b)
      | none => bgetSteal s hashIndex dev blockno rest

/-- `bget(dev, blockno)`: the new cache state and the buffer returned, or `none` for
`panic("bget: no buffers")`. -/
def bget (s : Bcache) (dev blockno : Nat) : Option (Bcache × Nat) :=
  let hashIndex := CalcHash blockno
  match lookup s hashIndex dev blockno with
  | some b => some (incref s b, b)
  | none =>
    -- the second look under the eviction lock
    match lookup s hashIndex dev blockno with
    | some b => some (incref s b, b)
    | none =>
      match lruFree s hashIndex with
      | some b => some (recycle s b dev blockno, b)
      | none => bgetSteal s hashIndex dev blockno (List.range NBUCKETS)

/-- Modelled from the spec: `virtio_disk_rw(b, 0)` belongs to the disk driver, which is
not among the sources; it transfers the content of block `(b->dev, b->blockno)` of the
device into the buffer.  `disk` is the content of the devices. -/
def virtio_disk_read (disk : Nat → Nat → Nat) (s : Bcache) (b : Nat) : Bcache :=
  { s with buf := Function.update s.buf b (
      { (s.buf b) with data := disk (s.buf b).dev (s.buf b).blockno }) }

/-- The body of `bread(dev, blockno)`: the cache and the buffer returned, and with them
the requests the call passes to `virtio_disk_rw(b, 0)`, each recorded as the block
`(b->dev, b->blockno)` it asks the device for.  `none` is the panic of `bget`. -/
def breadTraced (disk : Nat → Nat → Nat) (s : Bcache) (dev blockno : Nat) :
    Option ((Bcache × Nat) × List (Nat × Nat)) :=
  match bget s dev blockno with
  | none => none
  | some (s1, b) =>
    if !(s1.buf b).valid then
      let s2 := virtio_disk_read disk s1 b
      some (({ s2 with buf := Function.update s2.buf b { (s2.buf b) with valid := true } }, b),
        [((s1.buf b).dev, (s1.buf b).blockno)])
    else some ((s1, b), [])

/-- `bread(dev, blockno)`: the cache and the buffer that `breadTraced` returns. -/
def bread (disk : Nat → Nat → Nat) (s : Bcache) (dev blockno : Nat) : Option (Bcache × Nat) :=
  (breadTraced disk s dev blockno).map Prod.fst

/-- `b->refcnt--` -/
def decref (s : Bcache) (b : Nat) : Bcache :=
  { s with buf := Function.update s.buf b { (s.buf b) with refcnt := (s.buf b).refcnt - 1 } }

/-- `brelse(b)`; `holding` is the answer of `holdingsleep(&b->lock)`, and `none` is
`panic("brelse")`. -/
def brelse (holding : Bool) (s : Bcache) (b : Nat) : Option Bcache :=
  if !holding then none
  else
    let hashIndex := CalcHash (s.buf b).blockno
    let s1 := decref s b
    if (s1.buf b).refcnt = 0 then
      some { s1 with hashbucket := linkHead (unlink s1.hashbucket b) hashIndex b }
    else some s1

/-- `bpin(b)` -/
def bpin (s : Bcache) (b : Nat) : Bcache := incref s b

/-- `bunpin(b)` -/
def bunpin (s : Bcache) (b : Nat) : Bcache := decref s b

/-- Every one of the `NBUF` buffers is linked in exactly one of the `NBUCKETS` lists,
exactly once. -/
def WF (s : Bcache) : Prop :=
  (∀ i, i < NBUCKETS → (s.hashbucket i).Nodup) ∧
  (∀ i, i < NBUCKETS → ∀ j ∈ s.hashbucket i, j < NBUF) ∧
  (∀ j, j < NBUF → ∃ i, i < NBUCKETS ∧ j ∈ s.hashbucket i) ∧
  (∀ i₁, i₁ < NBUCKETS → ∀ i₂, i₂ < NBUCKETS →
    ∀ j ∈ s.hashbucket i₁, j ∈ s.hashbucket i₂ → i₁ = i₂)

instance (s : Bcache) : Decidable (WF s) := by
  unfold WF; infer_instance

/-- Two buffers carry the same cache key. -/
def SameKey (s : Bcache) (a c : Nat) : Prop :=
  (s.buf a).dev = (s.buf c).dev ∧ (s.buf a).blockno = (s.buf c).blockno

/-- The order kept in every bucket list: a buffer that comes after a buffer with the same
key is not valid. -/
def Ordered (s : Bcache) (a c : Nat) : Prop :=
  SameKey s a c → (s.buf c).valid = false

/-- The sequential callers of the cache: the cache itself and the buffers whose
sleep-lock a caller holds, that is the buffers handed out by `bread` and not yet given
back with `brelse`. -/
structure Sys where
  cache : Bcache
  held : List Nat

/-- One call of the interface.  `brelse` is called on a buffer the caller holds (the
`holdingsleep` test is answered from `held`), `bpin` and `bunpin` on a buffer with
`refcnt >= 1`. -/
inductive Step (disk : Nat → Nat → Nat) : Sys → Sys → Prop
  | callBread (t : Sys) (dev blockno : Nat) (s : Bcache) (b : Nat) :
      bread disk t.cache dev blockno = some (s, b) →
      Step disk t { cache := s, held := b :: t.held }
  | callBrelse (t : Sys) (b : Nat) (s : Bcache) :
      b ∈ t.held → brelse (decide (b ∈ t.held)) t.cache b = some s →
      Step disk t { cache := s, held := t.held.erase b }
  | callBpin (t : Sys) (b : Nat) :
      b < NBUF → 1 ≤ (t.cache.buf b).refcnt →
      Step disk t { cache := bpin t.cache b, held := t.held }
  | callBunpin (t : Sys) (b : Nat) :
      b < NBUF → 1 ≤ (t.cache.buf b).refcnt →
      Step disk t { cache := bunpin t.cache b, held := t.held }

/-- The states reached from `binit` by a sequence of calls. -/
inductive Reachable (disk : Nat → Nat → Nat) : Sys → Prop
  | init : Reachable disk { cache := binit bcacheZero, held := [] }
  | step (t u : Sys) : Reachable disk t → Step disk t u → Reachable disk u

/-- The invariant of the reachable states: the lists are well formed, a valid buffer is
linked in the bucket of its block number, a held buffer is valid, and every bucket list
is ordered. -/
def Inv (t : Sys) : Prop :=
  WF t.cache ∧
  (∀ j, (t.cache.buf j).valid = true →
    j ∈ t.cache.hashbucket (CalcHash (t.cache.buf j).blockno)) ∧
  (∀ j ∈ t.held, (t.cache.buf j).valid = true) ∧
  (∀ i, i < NBUCKETS → (t.cache.hashbucket i).Pairwise (Ordered t.cache))

/-- A cycle `bread` then `brelse` on every block of `blocks` in turn, on device `dev`;
`none` when one of the calls panics. -/
def cycles (disk : Nat → Nat → Nat) (dev : Nat) : List Nat → Bcache → Option Bcache
  | [], s => some s
  | blockno :: rest, s =>
    match bread disk s dev blockno with
    | none => none
    | some (s1, b) =>
      match brelse true s1 b with
      | none => none
      | some s2 => cycles disk dev rest s2

/-- The blocks `bread(dev, blockno)` asks the device for, in the order of its calls of
`virtio_disk_rw(b, 0)`: the requests that `breadTraced` returns (none when `bget` panics). -/
def breadReads (disk : Nat → Nat → Nat) (s : Bcache) (dev blockno : Nat) : List (Nat × Nat) :=
  match breadTraced disk s dev blockno with
  | none => []
  | some r => r.2

/-- A call of the interface of the cache. -/
inductive Op where
  | bread (dev blockno : Nat)
  | brelse (b : Nat)
  | bpin (b : Nat)
  | bunpin (b : Nat)

/-- The effect of one call on the cache and on the buffers held; `none` when the call
panics.  `bread` hands its buffer to the caller; the `holdingsleep` test of `brelse` is
answered from the buffers held. -/
def call (disk : Nat → Nat → Nat) (t : Sys) : Op → Option Sys
  | Op.bread dev blockno =>
    match bread disk t.cache dev blockno with
    | none => none
    | some (s, b) => some { cache := s, held := b :: t.held }
  | Op.brelse b =>
    match brelse (decide (b ∈ t.held)) t.cache b with
    | none => none
    | some s => some { cache := s, held := t.held.erase b }
  | Op.bpin b => some { cache := bpin t.cache b, held := t.held }
  | Op.bunpin b => some { cache := bunpin t.cache b, held := t.held }

/-- A sequence of calls, in order; `none` when one of them panics. -/
def calls (disk : Nat → Nat → Nat) : List Op → Sys → Option Sys
  | [], t => some t
  | op :: rest, t =>
    match call disk t op with
    | none => none
    | some u => calls disk rest u

/-- The state right after `binit`, with no buffer held. -/
def sysInit : Sys := { cache := binit bcacheZero, held := [] }

/-- The call `bget(dev, blockno)` in state `s` misses and recycles buffer `b`. -/
def Reclaims (s : Bcache) (dev blockno b : Nat) : Prop :=
  lookup s (CalcHash blockno) dev blockno = none ∧
    (bget s dev blockno).map Prod.snd = some b

instance (s : Bcache) (dev blockno b : Nat) : Decidable (Reclaims s dev blockno b) := by
  unfold Reclaims; infer_instance

/-- The call `op` made in state `s` is not a `bread` whose `bget` recycles buffer `b`. -/
def KeepsOp (s : Bcache) (b : Nat) : Op → Prop
  | Op.bread dev blockno => ¬ Reclaims s dev blockno b
  | _ => True

instance (s : Bcache) (b : Nat) : (op : Op) → Decidable (KeepsOp s b op)
  | Op.bread dev blockno => by unfold KeepsOp; infer_instance
  | Op.brelse _ => isTrue trivial
  | Op.bpin _ => isTrue trivial
  | Op.bunpin _ => isTrue trivial

/-- No `bread` of the sequence of calls run from `t` recycles buffer `b`. -/
def Keeps (disk : Nat → Nat → Nat) (b : Nat) : List Op → Sys → Prop
  | [], _ => True
  | op :: rest, t =>
    KeepsOp t.cache b op ∧
    (match call disk t op with
      | none => True
      | some u => Keeps disk b rest u)

/-- The test of `Keeps`, call by call. -/
def keepsDec (disk : Nat → Nat → Nat) (b : Nat) :
    (ops : List Op) → (t : Sys) → Decidable (Keeps disk b ops t)
  | [], _ => isTrue trivial
  | op :: rest, t =>
    match hc : call disk t op with
    | none => decidable_of_iff (KeepsOp t.cache b op) (by simp [Keeps, hc])
    | some u =>
      have := keepsDec disk b rest u
      decidable_of_iff (KeepsOp t.cache b op ∧ Keeps disk b rest u) (by simp [Keeps, hc])

instance (disk : Nat → Nat → Nat) (b : Nat) (ops : List Op) (t : Sys) :
    Decidable (Keeps disk b ops t) := keepsDec disk b ops t

/-- The sum of the lengths of the bucket lists. -/
def linkedCount (s : Bcache) : Nat :=
  ((List.range NBUCKETS).map (fun i => (s.hashbucket i).length)).sum

/-- The locks of the cache: the spin-lock of a bucket, the eviction lock, the sleep-lock
of a buffer. -/
inductive Lock where
  | bucket (i : Nat)
  | eviction
  | sleep (b : Nat)
  deriving DecidableEq

/-- A call of `acquire` / `acquiresleep` or of `release` on a lock. -/
inductive LockEvent where
  | acquire (l : Lock)
  | release (l : Lock)
  deriving DecidableEq

/-- The locks held after a sequence of lock calls, the last acquired first, starting
with the locks `held`. -/
def locksHeld (held : List Lock) : List LockEvent → List Lock
  | [] => held
  | LockEvent.acquire l :: rest => locksHeld (l :: held) rest
  | LockEvent.release l :: rest => locksHeld (held.erase l) rest

/-- The lock calls of the loop `for(int i = 0; i < NBUCKETS; i++)` of `bget` over the
buckets still to visit. -/
def bgetStealLocks (s : Bcache) (hashIndex : Nat) : List Nat → List LockEvent
  | [] => [LockEvent.release Lock.eviction]
  | i :: rest =>
    if i = hashIndex then bgetStealLocks s hashIndex rest
    else
      match lruFree s i with
      | some b =>
        [LockEvent.acquire (Lock.bucket i), LockEvent.acquire (Lock.bucket hashIndex),
         LockEvent.release (Lock.bucket i), LockEvent.release (Lock.bucket hashIndex),
         LockEvent.release Lock.eviction, LockEvent.acquire (Lock.sleep b)]
      | none =>
        LockEvent.acquire (Lock.bucket i) :: LockEvent.release (Lock.bucket i) ::
          bgetStealLocks s hashIndex rest

/-- The lock calls of `bget(dev, blockno)`, in order. -/
def bgetLocks (s : Bcache) (dev blockno : Nat) : List LockEvent :=
  let hashIndex := CalcHash blockno
  LockEvent.acquire (Lock.bucket hashIndex) ::
  match lookup s hashIndex dev blockno with
  | some b => [LockEvent.release (Lock.bucket hashIndex), LockEvent.acquire (Lock.sleep b)]
  | none =>
    LockEvent.release (Lock.bucket hashIndex) :: LockEvent.acquire Lock.eviction ::
    LockEvent.acquire (Lock.bucket hashIndex) ::
    match lookup s hashIndex dev blockno with
    | some b =>
      [LockEvent.release (Lock.bucket hashIndex), LockEvent.release Lock.eviction,
       LockEvent.acquire (Lock.sleep b)]
    | none =>
      match lruFree s hashIndex with
      | some b =>
        [LockEvent.release (Lock.bucket hashIndex), LockEvent.release Lock.eviction,
         LockEvent.acquire (Lock.sleep b)]
      | none =>
        LockEvent.release (Lock.bucket hashIndex) ::
          bgetStealLocks s hashIndex (List.range NBUCKETS)

/-! ### Sample states -/

/-- A sample disk: block `blockno` of device `dev` holds `100 * dev + blockno`. -/
def exDisk : Nat → Nat → Nat := fun dev blockno => 100 * dev + blockno

/-- The cache state of a result of `bget` or `bread`; `s` when the call panicked. -/
def stateOf (r : Option (Bcache × Nat)) (s : Bcache) : Bcache :=
  match r with
  | some (s', _) => s'
  | none => s

/-- The cache after `binit` and `bread(1, 5)`: buffer 5 is held. -/
def exS1 : Bcache := stateOf (bread exDisk (binit bcacheZero) 1 5) (binit bcacheZero)

/-- The cache after `binit`, `bread(1, 5)` and `bread(1, 18)`: the two buffers of bucket
5 are held. -/
def exS2 : Bcache := stateOf (bread exDisk exS1 1 18) exS1

/-- The cache `exS2` after `bget(1, 31)`. -/
def exS3 : Bcache := stateOf (bget exS2 1 31) exS2

/-- The calls made after the first `bread(1, 5)` in the sample run. -/
def exOps : List Op := [Op.brelse 5, Op.bread 1 18, Op.bpin 18, Op.brelse 18]

/-- The state of the sample run after `bread(1, 5)` and the calls `exOps`. -/
def exU : Sys := (calls exDisk exOps { cache := exS1, held := [5] }).getD sysInit

/-- The state after `binit` and `bpin` on buffer 1. -/
def exPinned : Sys := (calls exDisk [Op.bpin 1] sysInit).getD sysInit

/-- A cache in which every buffer is referenced. -/
def exFull : Bcache where
  buf := fun _ => { valid := false, dev := 0, blockno := 0, refcnt := 1, data := 0 }
  hashbucket := (binit bcacheZero).hashbucket

end Bio

namespace Kalloc

/-- Modelled from the spec: `PGSIZE` is a constant of `riscv.h`, which is not among the
sources; the spec gives the page size as 4096 bytes. -/
def PGSIZE : Nat := 4096

/-- The array `kmems[NCPU]` and the memory the allocator reads through `struct run`.
A free page is itself the node of its list: `freelist i` is the pointer
`kmems[i].freelist` and `next a` is the word `((struct run*)a)->next` stored at address
`a`; the address 0 is the null pointer.  `NCPU` is a constant of `param.h`, which is not
among the sources; it is an argument of the functions that loop over the cores.  Of the
bytes of a page only the `next` word is part of the state: the allocator reads nothing
else of a page. -/
structure Kmems where
  freelist : Nat → Nat
  next : Nat → Nat

/-- The word that `memset((char*)r, 5, PGSIZE)` leaves in `r->next`: eight bytes 5. -/
def JUNK : Nat := 0x0505050505050505

/-- `kfree_bycpu(pa, cpu_id)`; `none` is `panic("kfree")`.  `kend` is the linker symbol
`end` and `PHYSTOP` a constant of `memlayout.h`; both are arguments.  The bytes 1 that
`memset(pa, 1, PGSIZE)` puts in `r->next` are overwritten by `r->next = ...`. -/
def kfree_bycpu (kend PHYSTOP : Nat) (m : Kmems) (pa cpu_id : Nat) : Option Kmems :=
  if pa % PGSIZE ≠ 0 ∨ pa < kend ∨ pa ≥ PHYSTOP then none
  else some { freelist := Function.update m.freelist cpu_id pa,
              next := Function.update m.next pa (m.freelist cpu_id) }

/-- `kfree(pa)` on the core `cpuid`. -/
def kfree (kend PHYSTOP : Nat) (m : Kmems) (pa cpuid : Nat) : Option Kmems :=
  kfree_bycpu kend PHYSTOP m pa cpuid

/-- The statements `kmems[i].freelist = r->next; ... memset((char*)r, 5, PGSIZE);` of
`kalloc` for `r = kmems[i].freelist`. -/
def kallocPop (m : Kmems) (i : Nat) : Kmems :=
  { freelist := Function.update m.freelist i (m.next (m.freelist i)),
    next := Function.update m.next (m.freelist i) JUNK }

/-- The loop `for (int i = 0; i < NCPU; i++)` of `kalloc` over the cores still to visit;
the value 0 is the fall-through to `return 0`. -/
def kallocSteal (m : Kmems) (cpu_id : Nat) : List Nat → Kmems × Nat
  | [] => (m, 0)
  | i :: rest =>
    if i = cpu_id then kallocSteal m cpu_id rest
    else if m.freelist i ≠ 0 then (kallocPop m i, m.freelist i)
    else kallocSteal m cpu_id rest

/-- `kalloc()` on the core `cpu_id`: the new state and the address returned. -/
def kalloc (NCPU : Nat) (m : Kmems) (cpu_id : Nat) : Kmems × Nat :=
  if m.freelist cpu_id ≠ 0 then (kallocPop m cpu_id, m.freelist cpu_id)
  else kallocSteal m cpu_id (List.range NCPU)

/-- The cores whose `freelist` the loop of `kalloc` reads, in the order of the reads. -/
def kallocStealReads (m : Kmems) (cpu_id : Nat) : List Nat → List Nat
  | [] => []
  | i :: rest =>
    if i = cpu_id then kallocStealReads m cpu_id rest
    else if m.freelist i ≠ 0 then [i]
    else i :: kallocStealReads m cpu_id rest

/-- The cores whose `freelist` a call of `kalloc` on `cpu_id` reads, in the order of the
reads. -/
def kallocReads (NCPU : Nat) (m : Kmems) (cpu_id : Nat) : List Nat :=
  if m.freelist cpu_id ≠ 0 then [cpu_id]
  else cpu_id :: kallocStealReads m cpu_id (List.range NCPU)

/-- Modelled from the spec: `PGROUNDUP` is a macro of `riscv.h`, which is not among the
sources; it rounds a 64-bit address up to the next multiple of the page size. -/
def PGROUNDUP (sz : Nat) : Nat :=
  (sz + PGSIZE - 1) % 2 ^ 64 / PGSIZE * PGSIZE

/-- The inner loop `for (uint64 j = 0; j < real_pagenums; j++)` of `freerange` with `n`
rounds to go: the allocator state and the pointer `p`. -/
def freerangePages (kend PHYSTOP cpu_id : Nat) : Nat → Kmems × Nat → Option (Kmems × Nat)
  | 0, st => some st
  | n + 1, (m, p) =>
    match kfree_bycpu kend PHYSTOP m p cpu_id with
    | none => none
    | some m' => freerangePages kend PHYSTOP cpu_id n (m', (p + PGSIZE) % 2 ^ 64)

/-- The outer loop `for (int i = 0; i < NCPU; i++)` of `freerange` over the cores still
to visit, with the current `extra_pagenums`. -/
def freerangeCores (kend PHYSTOP single_cpu_pagenums : Nat) :
    List Nat → Nat → Kmems × Nat → Option (Kmems × Nat)
  | [], _, st => some st
  | i :: rest, extra_pagenums, st =>
    let real_pagenums :=
      if extra_pagenums > 0 then single_cpu_pagenums + 1 else single_cpu_pagenums
    let extra := if extra_pagenums > 0 then extra_pagenums - 1 else extra_pagenums
    match freerangePages kend PHYSTOP i real_pagenums st with
    | none => none
    | some st' => freerangeCores kend PHYSTOP single_cpu_pagenums rest extra st'

/-- `freerange(pa_start, pa_end)`; `none` when a `kfree_bycpu` panics. -/
def freerange (NCPU kend PHYSTOP : Nat) (m : Kmems) (pa_start pa_end : Nat) :
    Option Kmems :=
  let p := PGROUNDUP pa_start
  let total_size := (pa_end + 2 ^ 64 - pa_start) % 2 ^ 64
  let total_page_numbers := total_size / PGSIZE
  let single_cpu_pagenums := total_page_numbers / NCPU
  let extra_pagenums := total_page_numbers % NCPU
  (freerangeCores kend PHYSTOP single_cpu_pagenums (List.range NCPU) extra_pagenums
    (m, p)).map Prod.fst

/-- `kinit()`: the pointers `freelist` of static storage are null, then
`freerange(end, (void*)PHYSTOP)`.  `mem` is the content of the memory at that moment. -/
def kinit (NCPU kend PHYSTOP : Nat) (mem : Nat → Nat) : Option Kmems :=
  freerange NCPU kend PHYSTOP { freelist := fun _ => 0, next := mem } kend PHYSTOP

/-- The free lists as sequences of pages, one for every core, the head first. -/
abbrev FreeLists := Nat → List Nat

/-- The chain of `next` pointers that starts at the pointer `p` is the sequence `l` of
pages and ends with the null pointer. -/
def IsList (next : Nat → Nat) : Nat → List Nat → Prop
  | p, [] => p = 0
  | p, r :: t => p = r ∧ r ≠ 0 ∧ IsList next (next r) t

instance instDecidableIsList (next : Nat → Nat) :
    (p : Nat) → (l : List Nat) → Decidable (IsList next p l)
  | p, [] => by unfold IsList; infer_instance
  | p, r :: t =>
    have := instDecidableIsList next (next r) t
    by unfold IsList; infer_instance

/-- The free list of every core `i < NCPU` in the state `m` is the sequence `s i`. -/
def Repr (NCPU : Nat) (m : Kmems) (s : FreeLists) : Prop :=
  ∀ i, i < NCPU → IsList m.next (m.freelist i) (s i)

instance (NCPU : Nat) (m : Kmems) (s : FreeLists) : Decidable (Repr NCPU m s) := by
  unfold Repr; infer_instance

/-- The pages met on the walk `r = p; r = r->next; ...` up to the null pointer, cut after
`fuel` pages (a chain that runs into itself has no end). -/
def walkNext (next : Nat → Nat) : Nat → Nat → List Nat
  | 0, _ => []
  | fuel + 1, p => if p = 0 then [] else p :: walkNext next fuel (next p)

/-- The free list of core `i` as the walk reads it off the state `m`, cut after `fuel`
pages. -/
def freeList (m : Kmems) (i : Nat) (fuel : Nat) : List Nat :=
  walkNext m.next fuel (m.freelist i)

/-- No page is twice on the free lists of the cores `0, ..., NCPU - 1`: every list is
free of duplicates and no two lists share a page. -/
def Distinct (NCPU : Nat) (s : FreeLists) : Prop :=
  (∀ i, i < NCPU → (s i).Nodup) ∧
  ∀ i, i < NCPU → ∀ j, j < NCPU → ∀ a ∈ s i, a ∈ s j → i = j

instance (NCPU : Nat) (s : FreeLists) : Decidable (Distinct NCPU s) := by
  unfold Distinct; infer_instance

/-- The sum of the lengths of the free lists of the cores `0, ..., NCPU - 1`. -/
def freePages (NCPU : Nat) (s : FreeLists) : Nat :=
  ((List.range NCPU).map (fun i => (s i).length)).sum

/-- The allocator and its callers: the state of the allocator and the pages returned by
`kalloc` and not yet freed. -/
structure Sys where
  kmems : Kmems
  allocated : List Nat

/-- One step of the allocator and its callers: `kalloc` on a core, `kfree` on a core of
a page that is allocated, or a store of a caller to a word `a` of memory that is not the
`next` word of a free page. -/
inductive Step (NCPU kend PHYSTOP : Nat) : Sys → Sys → Prop
  | callKalloc (t : Sys) (c : Nat) :
      c < NCPU →
      Step NCPU kend PHYSTOP t
        { kmems := (kalloc NCPU t.kmems c).1,
          allocated := if (kalloc NCPU t.kmems c).2 = 0 then t.allocated
                       else (kalloc NCPU t.kmems c).2 :: t.allocated }
  | callKfree (t : Sys) (pa c : Nat) (m : Kmems) :
      c < NCPU → pa ∈ t.allocated → kfree kend PHYSTOP t.kmems pa c = some m →
      Step NCPU kend PHYSTOP t { kmems := m, allocated := t.allocated.erase pa }
  | store (t : Sys) (a v : Nat) (s : FreeLists) :
      Repr NCPU t.kmems s → (∀ i, i < NCPU → a ∉ s i) →
      Step NCPU kend PHYSTOP t
        { kmems := { freelist := t.kmems.freelist, next := Function.update t.kmems.next a v },
          allocated := t.allocated }

/-- The states reached from the state `m0` left by the initialization, with no page
allocated, by a sequence of steps. -/
inductive Reachable (NCPU kend PHYSTOP : Nat) (m0 : Kmems) : Sys → Prop
  | init : Reachable NCPU kend PHYSTOP m0 { kmems := m0, allocated := [] }
  | step (t u : Sys) :
      Reachable NCPU kend PHYSTOP m0 t → Step NCPU kend PHYSTOP t u →
      Reachable NCPU kend PHYSTOP m0 u

/-- The invariant of the allocator and its callers: the free lists are sequences `s` on
which no page is twice, the allocated pages are distinct, none of them is null or on a
free list, and the count of free and allocated pages is `n`. -/
def Conserved (NCPU n : Nat) (t : Sys) (s : FreeLists) : Prop :=
  Repr NCPU t.kmems s ∧ Distinct NCPU s ∧ t.allocated.Nodup ∧ 0 ∉ t.allocated ∧
  (∀ i, i < NCPU → ∀ a ∈ s i, a ∉ t.allocated) ∧
  freePages NCPU s + t.allocated.length = n

/-- The state of the free lists at the moment `kfree_bycpu(pa, cpu_id)` stops, by
`panic("kfree")` or by return. -/
def kfree_bycpu_lists (kend PHYSTOP : Nat) (m : Kmems) (pa cpu_id : Nat) : Kmems :=
  if pa % PGSIZE ≠ 0 ∨ pa < kend ∨ pa ≥ PHYSTOP then m
  else { freelist := Function.update m.freelist cpu_id pa,
         next := Function.update m.next pa (m.freelist cpu_id) }

/-- A call of `acquire` or of `release` on the lock `kmems[i].lock`. -/
inductive LockEvent where
  | acquire (i : Nat)
  | release (i : Nat)
  deriving DecidableEq

/-- The locks held after a sequence of lock calls, the last acquired first, starting
with the locks `held`. -/
def locksHeld (held : List Nat) : List LockEvent → List Nat
  | [] => held
  | LockEvent.acquire i :: rest => locksHeld (i :: held) rest
  | LockEvent.release i :: rest => locksHeld (held.erase i) rest

/-- The lock calls of the loop `for (int i = 0; i < NCPU; i++)` of `kalloc` over the cores
still to visit, up to the return. -/
def kallocStealLocks (m : Kmems) (cpu_id : Nat) : List Nat → List LockEvent
  | [] => [LockEvent.release cpu_id]
  | i :: rest =>
    if i = cpu_id then kallocStealLocks m cpu_id rest
    else if m.freelist i ≠ 0 then
      [LockEvent.acquire i, LockEvent.release i, LockEvent.release cpu_id]
    else LockEvent.acquire i :: LockEvent.release i :: kallocStealLocks m cpu_id rest

/-- The lock calls of `kalloc()` on the core `cpu_id`, in order. -/
def kallocLocks (NCPU : Nat) (m : Kmems) (cpu_id : Nat) : List LockEvent :=
  LockEvent.acquire cpu_id ::
  if m.freelist cpu_id ≠ 0 then [LockEvent.release cpu_id]
  else kallocStealLocks m cpu_id (List.range NCPU)

/-- The calls `kfree_bycpu(p, cpu_id)` of the inner loop of `freerange` with `n` rounds to
go from the pointer `p`, when none of them panics, and the pointer after the loop. -/
def freerangePagesArgs (cpu_id : Nat) : Nat → Nat → List (Nat × Nat) × Nat
  | 0, p => ([], p)
  | n + 1, p =>
    let r := freerangePagesArgs cpu_id n ((p + PGSIZE) % 2 ^ 64)
    ((p, cpu_id) :: r.1, r.2)

/-- The calls `kfree_bycpu(p, i)` of the outer loop of `freerange` over the cores still to
visit, when none of them panics. -/
def freerangeCoresArgs (single_cpu_pagenums : Nat) : List Nat → Nat → Nat → List (Nat × Nat)
  | [], _, _ => []
  | i :: rest, extra_pagenums, p =>
    let real_pagenums :=
      if extra_pagenums > 0 then single_cpu_pagenums + 1 else single_cpu_pagenums
    let extra := if extra_pagenums > 0 then extra_pagenums - 1 else extra_pagenums
    let r := freerangePagesArgs i real_pagenums p
    r.1 ++ freerangeCoresArgs single_cpu_pagenums rest extra r.2

/-- The arguments `(p, i)` of the calls of `kfree_bycpu` that `freerange(pa_start, pa_end)`
makes, in order, when none of them panics (a panic cuts the sequence short). -/
def freerangeArgs (NCPU pa_start pa_end : Nat) : List (Nat × Nat) :=
  let p := PGROUNDUP pa_start
  let total_size := (pa_end + 2 ^ 64 - pa_start) % 2 ^ 64
  let total_page_numbers := total_size / PGSIZE
  let single_cpu_pagenums := total_page_numbers / NCPU
  let extra_pagenums := total_page_numbers % NCPU
  freerangeCoresArgs single_cpu_pagenums (List.range NCPU) extra_pagenums p

/-! ### Sample states -/

/-- A state with every pointer null. -/
def kmemZero : Kmems where
  freelist := fun _ => 0
  next := fun _ => 0

/-- The state after `kinit` with 2 cores and 5 pages between `end = 4096` and
`PHYSTOP = 24576`. -/
def exK0 : Kmems := (kinit 2 4096 24576 (fun _ => 0)).getD kmemZero

/-- The free lists of `exK0`. -/
def exL0 : FreeLists := fun i =>
  if i = 0 then [12288, 8192, 4096] else if i = 1 then [20480, 16384] else []

/-- The state `exK0` after `kfree(4096)` on core 1, of a page that is on the free list of
core 0. -/
def exK0free : Kmems := (kfree 4096 24576 exK0 4096 1).getD kmemZero

/-- The free lists of `exK0free`. -/
def exL0free : FreeLists := fun i =>
  if i = 0 then [12288, 8192, 4096, 20480, 16384]
  else if i = 1 then [4096, 20480, 16384] else []

/-- The state after `freerange` on 4 cores and the 100 pages from 4096 up to 413696,
starting from null pointers. -/
def exK100 : Kmems := (freerange 4 4096 413696 kmemZero 4096 413696).getD kmemZero

/-- The allocator `exK0` after `kalloc` on core 1. -/
def exT1 : Sys where
  kmems := (kalloc 2 exK0 1).1
  allocated := [20480]

/-- The free lists of `exT1`. -/
def exLT1 : FreeLists := fun i =>
  if i = 0 then [12288, 8192, 4096] else if i = 1 then [16384] else []

/-- The allocator `exT1` after `kfree(20480)` on core 0. -/
def exT2 : Sys where
  kmems := (kfree 4096 24576 exT1.kmems 20480 0).getD kmemZero
  allocated := []

/-- The free lists of `exT2`. -/
def exLT2 : FreeLists := fun i =>
  if i = 0 then [20480, 12288, 8192, 4096] else if i = 1 then [16384] else []

/-- A state of 2 cores: page 4096 on the list of core 0, pages 12288 and 8192 on the list
of core 1. -/
def exK2 : Kmems where
  freelist := fun i => if i = 0 then 4096 else if i = 1 then 12288 else 0
  next := fun a => if a = 12288 then 8192 else 0

/-- The free lists of `exK2`. -/
def exL2 : FreeLists := fun i => if i = 0 then [4096] else if i = 1 then [12288, 8192] else []

/-- The state `exK2` after `kfree_bycpu(12288, 0)`, of the page that heads the list of
core 1. -/
def exK2free : Kmems := (kfree_bycpu 4096 16384 exK2 12288 0).getD kmemZero

/-- The free lists of `exK2free`. -/
def exL2free : FreeLists := fun i =>
  if i = 0 then [12288, 4096] else if i = 1 then [12288, 4096] else []

end Kalloc

namespace Bio

/-! ## The scans of `bget` -/

theorem find?_first {α : Type} (p : α → Bool) (l : List α) (h : ∃ a ∈ l, p a = true) :
    ∃ pre b post, l = pre ++ b :: post ∧ p b = true ∧ (∀ a ∈ pre, p a = false) ∧
      l.find? p = some b := by
  induction l with
  | nil => obtain ⟨a, ha, _⟩ := h; cases ha
  | cons x xs ih =>
    by_cases hx : p x = true
    · exact ⟨[], x, xs, rfl, hx, by simp, by simp [List.find?, hx]⟩
    · have hx' : p x = false := by simpa using hx
      have : ∃ a ∈ xs, p a = true := by
        obtain ⟨a, ha, hpa⟩ := h
        rcases List.mem_cons.1 ha with rfl | ha
        · exact absurd hpa hx
        · exact ⟨a, ha, hpa⟩
      obtain ⟨pre, b, post, he, hb, hpre, hf⟩ := ih this
      refine ⟨x :: pre, b, post, by simp [he], hb, ?_, ?_⟩
      · intro a ha
        rcases List.mem_cons.1 ha with rfl | ha
        · exact hx'
        · exact hpre a ha
      · simp [List.find?, hx', hf]

theorem find?_last {α : Type} (p : α → Bool) (l : List α) (h : ∃ a ∈ l, p a = true) :
    ∃ pre b post, l = pre ++ b :: post ∧ p b = true ∧ (∀ a ∈ post, p a = false) ∧
      l.reverse.find? p = some b := by
  have h' : ∃ a ∈ l.reverse, p a = true := by
    obtain ⟨a, ha, hpa⟩ := h
    exact ⟨a, List.mem_reverse.2 ha, hpa⟩
  obtain ⟨pre, b, post, he, hb, hpre, hf⟩ := find?_first p l.reverse h'
  refine ⟨post.reverse, b, pre.reverse, ?_, hb, ?_, hf⟩
  · have := congrArg List.reverse he
    simpa using this
  · intro a ha
    exact hpre a (List.mem_reverse.1 ha)

theorem lookup_eq_none {s : Bcache} {h dev blockno : Nat} :
    lookup s h dev blockno = none ↔
      ∀ a ∈ s.hashbucket h, ¬ ((s.buf a).dev = dev ∧ (s.buf a).blockno = blockno) := by
  simp [lookup, isKey]

theorem lruFree_eq_none {s : Bcache} {i : Nat} :
    lruFree s i = none ↔ ∀ a ∈ s.hashbucket i, (s.buf a).refcnt ≠ 0 := by
  simp [lruFree, isFree]

/-- C7. When bucket `CalcHash blockno` holds a buffer with the key `(dev, blockno)`,
`bget` returns the first such buffer `b` of the list (walking from `head.next`), and the
new state is the old one with `b.refcnt` increased by one: no other field of `b`, no
other buffer and no bucket list changes. -/
theorem bget_hit (s : Bcache) (dev blockno : Nat)
    (hkey : ∃ a ∈ s.hashbucket (CalcHash blockno),
      (s.buf a).dev = dev ∧ (s.buf a).blockno = blockno) :
    ∃ pre b post, s.hashbucket (CalcHash blockno) = pre ++ b :: post ∧
      ((s.buf b).dev = dev ∧ (s.buf b).blockno = blockno) ∧
      (∀ a ∈ pre, ¬ ((s.buf a).dev = dev ∧ (s.buf a).blockno = blockno)) ∧
      bget s dev blockno =
        some ({ buf := Function.update s.buf b
                  { valid := (s.buf b).valid, dev := (s.buf b).dev,
                    blockno := (s.buf b).blockno, refcnt := (s.buf b).refcnt + 1,
                    data := (s.buf b).data },
                hashbucket := s.hashbucket }, b) := by
  have h : ∃ a ∈ s.hashbucket (CalcHash blockno), isKey s dev blockno a = true := by
    obtain ⟨a, ha, hk⟩ := hkey
    exact ⟨a, ha, by simp [isKey, hk]⟩
  obtain ⟨pre, b, post, he, hb, hpre, hf⟩ := find?_first _ _ h
  refine ⟨pre, b, post, he, by simpa [isKey] using hb, ?_, ?_⟩
  · intro a ha
    have := hpre a ha
    simpa [isKey] using this
  · simp only [bget, lookup, hf, incref]

/-- C8. When bucket `CalcHash blockno` holds no buffer with the key but holds a buffer
with `refcnt = 0`, `bget` returns the last buffer `b` of the list with `refcnt = 0` (the
one nearest `head.prev`), and the new state is the old one with `b.dev`, `b.blockno` set
to the key, `b.valid` to 0 and `b.refcnt` to 1: no other buffer and no bucket list
changes. -/
theorem bget_recycle_local (s : Bcache) (dev blockno : Nat)
    (hmiss : ∀ a ∈ s.hashbucket (CalcHash blockno),
      ¬ ((s.buf a).dev = dev ∧ (s.buf a).blockno = blockno))
    (hfree : ∃ a ∈ s.hashbucket (CalcHash blockno), (s.buf a).refcnt = 0) :
    ∃ pre b post, s.hashbucket (CalcHash blockno) = pre ++ b :: post ∧
      (s.buf b).refcnt = 0 ∧ (∀ a ∈ post, (s.buf a).refcnt ≠ 0) ∧
      bget s dev blockno =
        some ({ buf := Function.update s.buf b
                  { valid := false, dev := dev, blockno := blockno, refcnt := 1,
                    data := (s.buf b).data },
                hashbucket := s.hashbucket }, b) := by
  have h : ∃ a ∈ s.hashbucket (CalcHash blockno), isFree s a = true := by
    obtain ⟨a, ha, hk⟩ := hfree
    exact ⟨a, ha, by simp [isFree, hk]⟩
  obtain ⟨pre, b, post, he, hb, hpost, hf⟩ := find?_last _ _ h
  refine ⟨pre, b, post, he, by simpa [isFree] using hb, ?_, ?_⟩
  · intro a ha
    have := hpost a ha
    simpa [isFree] using this
  · have hl : lookup s (CalcHash blockno) dev blockno = none := lookup_eq_none.2 hmiss
    simp only [bget, hl, lruFree, hf, recycle]

theorem range_split (n i : Nat) (h : i < n) :
    ∃ rest, List.range n = List.range i ++ i :: rest := by
  induction n with
  | zero => omega
  | succ n ih =>
    rcases Nat.lt_succ_iff_lt_or_eq.1 h with hlt | rfl
    · obtain ⟨rest, hr⟩ := ih hlt
      exact ⟨rest ++ [n], by rw [List.range_succ, hr]; simp⟩
    · exact ⟨[], by rw [List.range_succ]⟩

theorem bgetSteal_skip (s : Bcache) (h dev blockno : Nat) (l₁ l₂ : List Nat)
    (hskip : ∀ i ∈ l₁, i = h ∨ lruFree s i = none) :
    bgetSteal s h dev blockno (l₁ ++ l₂) = bgetSteal s h dev blockno l₂ := by
  induction l₁ with
  | nil => rfl
  | cons i rest ih =>
    have ih' := ih (fun k hk => hskip k (List.mem_cons_of_mem _ hk))
    rcases hskip i (List.mem_cons_self _ _) with hi | hi
    · simp [bgetSteal, hi, ih']
    · by_cases hih : i = h
      · simp [bgetSteal, hih, ih']
      · simp [bgetSteal, hih, hi, ih']

theorem bgetSteal_eq_none (s : Bcache) (h dev blockno : Nat) (l : List Nat) :
    bgetSteal s h dev blockno l = none ↔ ∀ i ∈ l, i = h ∨ lruFree s i = none := by
  induction l with
  | nil => simp [bgetSteal]
  | cons i rest ih =>
    by_cases hih : i = h
    · simp [bgetSteal, hih, ih]
    · cases hl : lruFree s i with
      | none => simp [bgetSteal, hih, hl, ih]
      | some b => simp [bgetSteal, hih, hl]

theorem CalcHash_lt (blockno : Nat) : CalcHash blockno < NBUCKETS :=
  Nat.mod_lt _ (by decide)

theorem erase_split {l pre post : List Nat} {b : Nat} (hnd : l.Nodup)
    (he : l = pre ++ b :: post) : l.erase b = pre ++ post := by
  subst he
  have hb : b ∉ pre := by
    intro hmem
    have := List.nodup_append.1 hnd
    exact this.2.2 hmem (List.mem_cons_self _ _)
  rw [List.erase_append_right _ hb, List.erase_cons_head]

/-- C9. When bucket `h = CalcHash blockno` holds neither a buffer with the key nor a
buffer with `refcnt = 0`, and some other bucket holds a buffer with `refcnt = 0`: `bget`
takes the last buffer `b` with `refcnt = 0` of the lowest-numbered such bucket `i`,
removes it from the list of bucket `i` (the rest keeps its order), puts it at the head
of the list of bucket `h`, sets its key to `(dev, blockno)`, `valid` to 0 and `refcnt`
to 1, and changes no other buffer and no other bucket. -/
theorem bget_steal (s : Bcache) (dev blockno : Nat) (hwf : WF s)
    (hmiss : ∀ a ∈ s.hashbucket (CalcHash blockno),
      ¬ ((s.buf a).dev = dev ∧ (s.buf a).blockno = blockno))
    (hbusy : ∀ a ∈ s.hashbucket (CalcHash blockno), (s.buf a).refcnt ≠ 0)
    (hother : ∃ i, i < NBUCKETS ∧ i ≠ CalcHash blockno ∧
      ∃ a ∈ s.hashbucket i, (s.buf a).refcnt = 0) :
    ∃ i pre b post s', i < NBUCKETS ∧ i ≠ CalcHash blockno ∧
      (∀ k, k < i → k ≠ CalcHash blockno → ∀ a ∈ s.hashbucket k, (s.buf a).refcnt ≠ 0) ∧
      s.hashbucket i = pre ++ b :: post ∧
      (s.buf b).refcnt = 0 ∧ (∀ a ∈ post, (s.buf a).refcnt ≠ 0) ∧
      bget s dev blockno = some (s', b) ∧
      s'.buf = Function.update s.buf b
        { valid := false, dev := dev, blockno := blockno, refcnt := 1,
          data := (s.buf b).data } ∧
      s'.hashbucket i = pre ++ post ∧
      s'.hashbucket (CalcHash blockno) = b :: s.hashbucket (CalcHash blockno) ∧
      (∀ k, k < NBUCKETS → k ≠ i → k ≠ CalcHash blockno →
        s'.hashbucket k = s.hashbucket k) := by
  classical
  obtain ⟨hnd, _, _, hdisj⟩ := hwf
  have hex : ∃ i, i < NBUCKETS ∧ i ≠ CalcHash blockno ∧
      ∃ a ∈ s.hashbucket i, (s.buf a).refcnt = 0 := hother
  let i := Nat.find hex
  have hi : i < NBUCKETS ∧ i ≠ CalcHash blockno ∧
      ∃ a ∈ s.hashbucket i, (s.buf a).refcnt = 0 := Nat.find_spec hex
  have hmin : ∀ k, k < i → k ≠ CalcHash blockno →
      ∀ a ∈ s.hashbucket k, (s.buf a).refcnt ≠ 0 := by
    intro k hk hkh a ha h0
    exact Nat.find_min hex hk ⟨lt_trans hk hi.1, hkh, a, ha, h0⟩
  have hfree : ∃ a ∈ s.hashbucket i, isFree s a = true := by
    obtain ⟨a, ha, hk⟩ := hi.2.2
    exact ⟨a, ha, by simp [isFree, hk]⟩
  obtain ⟨pre, b, post, he, hb, hpost, hf⟩ := find?_last _ _ hfree
  obtain ⟨rest, hr⟩ := range_split NBUCKETS i hi.1
  have hskip : ∀ k ∈ List.range i, k = CalcHash blockno ∨ lruFree s k = none := by
    intro k hk
    by_cases hkh : k = CalcHash blockno
    · exact Or.inl hkh
    · exact Or.inr (lruFree_eq_none.2 (hmin k (List.mem_range.1 hk) hkh))
  have hbi : b ∈ s.hashbucket i := by rw [he]; simp
  have hbh : b ∉ s.hashbucket (CalcHash blockno) := by
    intro hmem
    exact hi.2.1 (hdisj i hi.1 _ (CalcHash_lt blockno) b hbi hmem)
  refine ⟨i, pre, b, post, recycle (relink s (CalcHash blockno) b) b dev blockno,
    hi.1, hi.2.1, hmin, he, by simpa [isFree] using hb, ?_, ?_, ?_, ?_, ?_, ?_⟩
  · intro a ha
    have := hpost a ha
    simpa [isFree] using this
  · have hl : lookup s (CalcHash blockno) dev blockno = none := lookup_eq_none.2 hmiss
    have hl2 : lruFree s (CalcHash blockno) = none := lruFree_eq_none.2 hbusy
    have hfi : lruFree s i = some b := hf
    simp only [bget, hl, hl2]
    rw [hr, bgetSteal_skip _ _ _ _ _ _ hskip]
    simp [bgetSteal, hi.2.1, hfi]
  · simp [recycle, relink]
  · simp only [recycle, relink, linkHead, unlink]
    rw [Function.update_noteq hi.2.1]
    exact erase_split (hnd i hi.1) he
  · simp only [recycle, relink, linkHead, unlink, Function.update_same]
    rw [List.erase_of_not_mem hbh]
  · intro k hk hki hkh
    simp only [recycle, relink, linkHead, unlink]
    rw [Function.update_noteq hkh]
    apply List.erase_of_not_mem
    intro hmem
    exact hki (hdisj k hk i hi.1 b hmem hbi)

/-- C10. For a buffer `b` whose sleep-lock the caller holds, with `refcnt >= 1` and
linked in bucket `h = CalcHash b.blockno`, `brelse b` returns, and the new state is the
old one with `b.refcnt` decreased by one (so `dev`, `blockno` and `valid` of every
buffer are kept); when the new count is 0, `b` is the first element of the list of
bucket `h` and the other buffers of that list keep their order; when it is not 0, that
list is unchanged; the lists of the other buckets are unchanged. -/
theorem brelse_spec (s : Bcache) (b : Nat) (hwf : WF s)
    (_href : 1 ≤ (s.buf b).refcnt)
    (hin : b ∈ s.hashbucket (CalcHash (s.buf b).blockno)) :
    ∃ s', brelse true s b = some s' ∧
      s'.buf = Function.update s.buf b
        { valid := (s.buf b).valid, dev := (s.buf b).dev, blockno := (s.buf b).blockno,
          refcnt := (s.buf b).refcnt - 1, data := (s.buf b).data } ∧
      ((s.buf b).refcnt - 1 = 0 →
        ∀ pre post, s.hashbucket (CalcHash (s.buf b).blockno) = pre ++ b :: post →
          s'.hashbucket (CalcHash (s.buf b).blockno) = b :: (pre ++ post)) ∧
      ((s.buf b).refcnt - 1 ≠ 0 →
        s'.hashbucket (CalcHash (s.buf b).blockno) =
          s.hashbucket (CalcHash (s.buf b).blockno)) ∧
      (∀ k, k < NBUCKETS → k ≠ CalcHash (s.buf b).blockno →
        s'.hashbucket k = s.hashbucket k) := by
  obtain ⟨hnd, _, _, hdisj⟩ := hwf
  have hh := CalcHash_lt (s.buf b).blockno
  by_cases h0 : (s.buf b).refcnt - 1 = 0
  · refine ⟨{ decref s b with
        hashbucket := linkHead (unlink (decref s b).hashbucket b)
          (CalcHash (s.buf b).blockno) b }, ?_, ?_, ?_, ?_, ?_⟩
    · simp [brelse, decref, h0]
    · simp [decref]
    · intro _ pre post he
      simp only [decref, linkHead, unlink, Function.update_same]
      rw [erase_split (hnd _ hh) he]
    · intro hne
      exact absurd h0 hne
    · intro k hk hkh
      simp only [decref, linkHead, unlink]
      rw [Function.update_noteq hkh]
      apply List.erase_of_not_mem
      intro hmem
      exact hkh (hdisj k hk _ hh b hmem hin)
  · refine ⟨decref s b, ?_, ?_, ?_, ?_, ?_⟩
    · simp [brelse, decref, h0]
    · simp [decref]
    · intro h
      exact absurd h h0
    · intro _
      simp [decref]
    · intro k _ _
      simp [decref]

/-! ## The four ways through `bget` -/

theorem lookup_some {s : Bcache} {h dev blockno b : Nat}
    (hl : lookup s h dev blockno = some b) :
    b ∈ s.hashbucket h ∧ (s.buf b).dev = dev ∧ (s.buf b).blockno = blockno := by
  refine ⟨List.mem_of_find?_eq_some hl, ?_⟩
  have := List.find?_some hl
  simpa [isKey] using this

theorem lruFree_some {s : Bcache} {i b : Nat} (hl : lruFree s i = some b) :
    b ∈ s.hashbucket i ∧ (s.buf b).refcnt = 0 := by
  refine ⟨List.mem_reverse.1 (List.mem_of_find?_eq_some hl), ?_⟩
  have := List.find?_some hl
  simpa [isFree] using this

theorem bgetSteal_cases (s : Bcache) (h dev blockno : Nat) (l : List Nat) :
    (bgetSteal s h dev blockno l = none ∧ ∀ i ∈ l, i = h ∨ lruFree s i = none) ∨
    (∃ i b, i ∈ l ∧ i ≠ h ∧ lruFree s i = some b ∧
      bgetSteal s h dev blockno l = some (recycle (relink s h b) b dev blockno, b)) := by
  induction l with
  | nil => left; simp [bgetSteal]
  | cons i rest ih =>
    by_cases hih : i = h
    · rcases ih with ⟨hn, hall⟩ | ⟨k, b, hk, hkh, hf, hb⟩
      · left
        refine ⟨by simp [bgetSteal, hih, hn], ?_⟩
        intro k hk
        rcases List.mem_cons.1 hk with rfl | hk
        · exact Or.inl hih
        · exact hall k hk
      · right
        exact ⟨k, b, List.mem_cons_of_mem _ hk, hkh, hf, by simp [bgetSteal, hih, hb]⟩
    · cases hl : lruFree s i with
      | some b =>
        right
        exact ⟨i, b, List.mem_cons_self _ _, hih, hl, by simp [bgetSteal, hih, hl]⟩
      | none =>
        rcases ih with ⟨hn, hall⟩ | ⟨k, b, hk, hkh, hf, hb⟩
        · left
          refine ⟨by simp [bgetSteal, hih, hl, hn], ?_⟩
          intro k hk
          rcases List.mem_cons.1 hk with rfl | hk
          · exact Or.inr hl
          · exact hall k hk
        · right
          exact ⟨k, b, List.mem_cons_of_mem _ hk, hkh, hf, by simp [bgetSteal, hih, hl, hb]⟩

theorem bget_cases (s : Bcache) (dev blockno : Nat) :
    (∃ b, lookup s (CalcHash blockno) dev blockno = some b ∧
      bget s dev blockno = some (incref s b, b)) ∨
    (lookup s (CalcHash blockno) dev blockno = none ∧
      ∃ b, lruFree s (CalcHash blockno) = some b ∧
        bget s dev blockno = some (recycle s b dev blockno, b)) ∨
    (lookup s (CalcHash blockno) dev blockno = none ∧
      lruFree s (CalcHash blockno) = none ∧
      ∃ i b, i < NBUCKETS ∧ i ≠ CalcHash blockno ∧ lruFree s i = some b ∧
        bget s dev blockno =
          some (recycle (relink s (CalcHash blockno) b) b dev blockno, b)) ∨
    (lookup s (CalcHash blockno) dev blockno = none ∧
      (∀ i, i < NBUCKETS → lruFree s i = none) ∧ bget s dev blockno = none) := by
  cases hl : lookup s (CalcHash blockno) dev blockno with
  | some b => left; exact ⟨b, rfl, by simp [bget, hl]⟩
  | none =>
    right
    cases hf : lruFree s (CalcHash blockno) with
    | some b => left; exact ⟨rfl, b, rfl, by simp [bget, hl, hf]⟩
    | none =>
      right
      rcases bgetSteal_cases s (CalcHash blockno) dev blockno (List.range NBUCKETS) with
        ⟨hn, hall⟩ | ⟨i, b, hi, hih, hfi, hb⟩
      · right
        refine ⟨rfl, ?_, by simp [bget, hl, hf, hn]⟩
        intro i hi
        rcases hall i (List.mem_range.2 hi) with rfl | h
        · exact hf
        · exact h
      · left
        exact ⟨rfl, rfl, i, b, List.mem_range.1 hi, hih, hfi, by simp [bget, hl, hf, hb]⟩

/-! ## Moving a buffer to the head of a bucket -/

theorem WF_of_hashbucket_eq {s s' : Bcache} (h : s'.hashbucket = s.hashbucket)
    (hwf : WF s) : WF s' := by
  unfold WF at *
  rw [h]
  exact hwf

theorem mem_move {hb : Nat → List Nat} {b h j k : Nat} (hnd : (hb k).Nodup) :
    j ∈ linkHead (unlink hb b) h b k ↔ (j = b ∧ k = h) ∨ (j ≠ b ∧ j ∈ hb k) := by
  unfold linkHead unlink
  by_cases hk : k = h
  · subst hk
    simp [Function.update_same, hnd.mem_erase_iff]
  · rw [Function.update_noteq hk]
    simp only [hnd.mem_erase_iff]
    constructor
    · intro h1
      exact Or.inr h1
    · rintro (h1 | h1)
      · exact absurd h1.2 hk
      · exact h1

theorem nodup_move {hb : Nat → List Nat} {b h k : Nat} (hnd : (hb k).Nodup) :
    (linkHead (unlink hb b) h b k).Nodup := by
  unfold linkHead unlink
  by_cases hk : k = h
  · subst hk
    simp only [Function.update_same]
    exact List.nodup_cons.2 ⟨hnd.not_mem_erase, hnd.erase b⟩
  · rw [Function.update_noteq hk]
    exact hnd.erase b

theorem WF_move {s s' : Bcache} {b h : Nat} (hwf : WF s) (hb : b < NBUF)
    (hh : h < NBUCKETS) (hs : s'.hashbucket = linkHead (unlink s.hashbucket b) h b) :
    WF s' := by
  obtain ⟨hnd, hlt, hall, hdisj⟩ := hwf
  unfold WF
  rw [hs]
  refine ⟨fun i hi => nodup_move (hnd i hi), ?_, ?_, ?_⟩
  · intro i hi j hj
    rcases (mem_move (hnd i hi)).1 hj with ⟨rfl, _⟩ | ⟨_, hj'⟩
    · exact hb
    · exact hlt i hi j hj'
  · intro j hj
    by_cases hjb : j = b
    · exact ⟨h, hh, (mem_move (hnd h hh)).2 (Or.inl ⟨hjb, rfl⟩)⟩
    · obtain ⟨i, hi, hji⟩ := hall j hj
      exact ⟨i, hi, (mem_move (hnd i hi)).2 (Or.inr ⟨hjb, hji⟩)⟩
  · intro i₁ h₁ i₂ h₂ j hj₁ hj₂
    rcases (mem_move (hnd i₁ h₁)).1 hj₁ with ⟨hjb, hk₁⟩ | ⟨hjb, hj₁'⟩
    · rcases (mem_move (hnd i₂ h₂)).1 hj₂ with ⟨_, hk₂⟩ | ⟨hjb', _⟩
      · rw [hk₁, hk₂]
      · exact absurd hjb hjb'
    · rcases (mem_move (hnd i₂ h₂)).1 hj₂ with ⟨hjb', _⟩ | ⟨_, hj₂'⟩
      · exact absurd hjb' hjb
      · exact hdisj i₁ h₁ i₂ h₂ j hj₁' hj₂'

/-! ## The ways through `bread` -/

theorem bread_eq (disk : Nat → Nat → Nat) (s : Bcache) (dev blockno : Nat) :
    bread disk s dev blockno =
      match bget s dev blockno with
      | none => none
      | some (s1, b) =>
        if !(s1.buf b).valid then
          let s2 := virtio_disk_read disk s1 b
          some ({ s2 with buf := Function.update s2.buf b { (s2.buf b) with valid := true } }, b)
        else some (s1, b) := by
  unfold bread breadTraced
  cases bget s dev blockno with
  | none => rfl
  | some r =>
    obtain ⟨s1, b⟩ := r
    simp only
    split <;> rfl

theorem bread_cases (disk : Nat → Nat → Nat) (s s' : Bcache) (dev blockno b : Nat)
    (h : bread disk s dev blockno = some (s', b)) :
    (∀ j, j ≠ b → s'.buf j = s.buf j) ∧ (s'.buf b).valid = true ∧
    (s'.buf b).dev = dev ∧ (s'.buf b).blockno = blockno ∧
    ((s'.hashbucket = s.hashbucket ∧ (s'.buf b).refcnt = (s.buf b).refcnt + 1 ∧
        ((s.buf b).dev = dev ∧ (s.buf b).blockno = blockno) ∧
        ∃ pre post, s.hashbucket (CalcHash blockno) = pre ++ b :: post ∧
          ∀ a ∈ pre, ¬ ((s.buf a).dev = dev ∧ (s.buf a).blockno = blockno)) ∨
      (s'.hashbucket = s.hashbucket ∧ (s'.buf b).refcnt = 1 ∧ (s.buf b).refcnt = 0 ∧
        b ∈ s.hashbucket (CalcHash blockno) ∧
        ∀ a ∈ s.hashbucket (CalcHash blockno),
          ¬ ((s.buf a).dev = dev ∧ (s.buf a).blockno = blockno)) ∨
      (s'.hashbucket = linkHead (unlink s.hashbucket b) (CalcHash blockno) b ∧
        (s'.buf b).refcnt = 1 ∧ (s.buf b).refcnt = 0 ∧
        (∃ i, i < NBUCKETS ∧ i ≠ CalcHash blockno ∧ b ∈ s.hashbucket i) ∧
        ∀ a ∈ s.hashbucket (CalcHash blockno),
          ¬ ((s.buf a).dev = dev ∧ (s.buf a).blockno = blockno))) := by
  rcases bget_cases s dev blockno with ⟨b', hl, hg⟩ | ⟨hl, b', hf, hg⟩ |
    ⟨hl, hf, i, b', hi, hih, hfi, hg⟩ | ⟨_, _, hg⟩
  · obtain ⟨hmem, hkey⟩ := lookup_some hl
    obtain ⟨_, pre, post, he, hpre⟩ := List.find?_eq_some.1 hl
    rw [bread_eq] at h
    simp only [hg, incref, virtio_disk_read] at h
    split at h <;> simp only [Option.some.injEq, Prod.mk.injEq] at h <;>
      obtain ⟨rfl, rfl⟩ := h
    · refine ⟨fun j hj => by simp [Function.update_noteq hj], by simp, by simp [hkey.1],
        by simp [hkey.2], Or.inl ⟨rfl, by simp, hkey, pre, post, he, ?_⟩⟩
      intro a ha hk
      have := hpre a ha
      simp [isKey, hk.1, hk.2] at this
    · rename_i hv
      refine ⟨fun j hj => by simp [Function.update_noteq hj], by simpa using hv,
        by simp [hkey.1], by simp [hkey.2], Or.inl ⟨rfl, by simp, hkey, pre, post, he, ?_⟩⟩
      intro a ha hk
      have := hpre a ha
      simp [isKey, hk.1, hk.2] at this
  · obtain ⟨hmem, h0⟩ := lruFree_some hf
    rw [bread_eq] at h
    simp only [hg, recycle, virtio_disk_read] at h
    simp only [Function.update_same, Bool.not_false, ↓reduceIte, Option.some.injEq,
      Prod.mk.injEq] at h
    obtain ⟨rfl, rfl⟩ := h
    exact ⟨fun j hj => by simp [Function.update_noteq hj], by simp, by simp, by simp,
      Or.inr (Or.inl ⟨rfl, by simp, h0, hmem, lookup_eq_none.1 hl⟩)⟩
  · obtain ⟨hmem, h0⟩ := lruFree_some hfi
    rw [bread_eq] at h
    simp only [hg, recycle, relink, virtio_disk_read] at h
    simp only [Function.update_same, Bool.not_false, ↓reduceIte, Option.some.injEq,
      Prod.mk.injEq] at h
    obtain ⟨rfl, rfl⟩ := h
    exact ⟨fun j hj => by simp [Function.update_noteq hj], by simp, by simp, by simp,
      Or.inr (Or.inr ⟨rfl, by simp, h0, ⟨i, hi, hih, hmem⟩, lookup_eq_none.1 hl⟩)⟩
  · rw [bread_eq] at h
    simp [hg] at h

theorem bread_of_bget (disk : Nat → Nat → Nat) {s s₁ : Bcache} {dev blockno b : Nat}
    (h : bget s dev blockno = some (s₁, b)) :
    ∃ s', bread disk s dev blockno = some (s', b) := by
  rw [bread_eq]
  simp only [h]
  split
  · exact ⟨_, rfl⟩
  · exact ⟨_, rfl⟩

theorem bget_eq_none_iff (s : Bcache) (dev blockno : Nat) :
    bget s dev blockno = none ↔
      (∀ a ∈ s.hashbucket (CalcHash blockno),
        ¬ ((s.buf a).dev = dev ∧ (s.buf a).blockno = blockno)) ∧
      ∀ i, i < NBUCKETS → ∀ a ∈ s.hashbucket i, (s.buf a).refcnt ≠ 0 := by
  constructor
  · intro hn
    rcases bget_cases s dev blockno with ⟨b, _, hg⟩ | ⟨_, b, _, hg⟩ |
      ⟨_, _, i, b, _, _, _, hg⟩ | ⟨hl, hall, _⟩
    · rw [hn] at hg; cases hg
    · rw [hn] at hg; cases hg
    · rw [hn] at hg; cases hg
    · exact ⟨lookup_eq_none.1 hl, fun i hi => lruFree_eq_none.1 (hall i hi)⟩
  · rintro ⟨hmiss, hbusy⟩
    rcases bget_cases s dev blockno with ⟨b, hl, _⟩ | ⟨_, b, hf, _⟩ |
      ⟨_, _, i, b, hi, _, hf, _⟩ | ⟨_, _, hg⟩
    · rw [lookup_eq_none.2 hmiss] at hl; cases hl
    · rw [lruFree_eq_none.2 (hbusy _ (CalcHash_lt blockno))] at hf; cases hf
    · rw [lruFree_eq_none.2 (hbusy i hi)] at hf; cases hf
    · exact hg

theorem bread_WF {disk : Nat → Nat → Nat} {s s' : Bcache} {dev blockno b : Nat}
    (hwf : WF s) (h : bread disk s dev blockno = some (s', b)) :
    WF s' ∧ b < NBUF ∧ b ∈ s'.hashbucket (CalcHash blockno) := by
  obtain ⟨_, _, _, _, hc⟩ := bread_cases disk s s' dev blockno b h
  have hh := CalcHash_lt blockno
  rcases hc with ⟨hs, _, _, pre, post, he, _⟩ | ⟨hs, _, _, hmem, _⟩ |
    ⟨hs, _, _, ⟨i, hi, _, hmem⟩, _⟩
  · have hmem : b ∈ s.hashbucket (CalcHash blockno) := by rw [he]; simp
    exact ⟨WF_of_hashbucket_eq hs hwf, hwf.2.1 _ hh b hmem, by rw [hs]; exact hmem⟩
  · exact ⟨WF_of_hashbucket_eq hs hwf, hwf.2.1 _ hh b hmem, by rw [hs]; exact hmem⟩
  · have hb : b < NBUF := hwf.2.1 i hi b hmem
    refine ⟨WF_move hwf hb hh hs, hb, ?_⟩
    rw [hs]
    exact (mem_move (hwf.1 _ hh)).2 (Or.inl ⟨rfl, rfl⟩)

theorem cycle_step (disk : Nat → Nat → Nat) (s : Bcache) (dev blockno : Nat) (hwf : WF s)
    (hfree : ∀ j, (s.buf j).refcnt = 0) :
    ∃ s₁ b s₂, bread disk s dev blockno = some (s₁, b) ∧ brelse true s₁ b = some s₂ ∧
      WF s₂ ∧ ∀ j, (s₂.buf j).refcnt = 0 := by
  have hne : bget s dev blockno ≠ none := by
    intro hn
    obtain ⟨_, hbusy⟩ := (bget_eq_none_iff s dev blockno).1 hn
    obtain ⟨i, hi, hmem⟩ := hwf.2.2.1 0 (by decide)
    exact hbusy i hi 0 hmem (hfree 0)
  obtain ⟨⟨s₀, b⟩, hg⟩ := Option.ne_none_iff_exists'.1 hne
  obtain ⟨s₁, hb⟩ := bread_of_bget disk hg
  obtain ⟨hwf₁, hlt, _⟩ := bread_WF hwf hb
  obtain ⟨hagree, _, _, hbn, hc⟩ := bread_cases disk s s₁ dev blockno b hb
  have hone : (s₁.buf b).refcnt = 1 := by
    rcases hc with ⟨_, hr, _⟩ | ⟨_, hr, _⟩ | ⟨_, hr, _⟩
    · rw [hr, hfree b]; rfl
    · exact hr
    · exact hr
  refine ⟨s₁, b, { decref s₁ b with
      hashbucket := linkHead (unlink (decref s₁ b).hashbucket b)
        (CalcHash (s₁.buf b).blockno) b }, hb, ?_, ?_, ?_⟩
  · simp [brelse, decref, hone]
  · exact WF_move hwf₁ hlt (CalcHash_lt _) rfl
  · intro j
    by_cases hj : j = b
    · subst hj
      simp [decref, hone]
    · simp only [decref, Function.update_noteq hj]
      rw [hagree j hj]
      exact hfree j

theorem cycles_ok (disk : Nat → Nat → Nat) (dev : Nat) (blocks : List Nat) :
    ∀ s, WF s → (∀ j, (s.buf j).refcnt = 0) →
      ∃ s', cycles disk dev blocks s = some s' ∧ WF s' ∧ ∀ j, (s'.buf j).refcnt = 0 := by
  induction blocks with
  | nil => intro s hwf hfree; exact ⟨s, rfl, hwf, hfree⟩
  | cons blockno rest ih =>
    intro s hwf hfree
    obtain ⟨s₁, b, s₂, hb, hr, hwf₂, hfree₂⟩ := cycle_step disk s dev blockno hwf hfree
    obtain ⟨s', hs', h'⟩ := ih s₂ hwf₂ hfree₂
    exact ⟨s', by simp [cycles, hb, hr, hs'], h'⟩

theorem binit_WF : WF (binit bcacheZero) := by decide

theorem binit_buf (j : Nat) : (binit bcacheZero).buf j = bcacheZero.buf j := by
  have h : ∀ (l : List Nat) (t : Bcache),
      (l.foldl (fun t b =>
        { t with hashbucket := linkHead t.hashbucket (b % NBUCKETS) b }) t).buf = t.buf := by
    intro l
    induction l with
    | nil => intro t; rfl
    | cons x xs ih => intro t; rw [List.foldl_cons, ih]
  unfold binit
  rw [h]

/-- C4. In a well-formed cache state `bget` panics exactly when bucket `CalcHash blockno`
holds no buffer with the key and every buffer of every bucket has `refcnt != 0`; hence
it returns a buffer whenever some buffer has `refcnt = 0`.  In particular, after `binit`
any run of `bread`-then-`brelse` cycles on device 1 (30 cycles on distinct blocks are one
such run) goes through without a panic, and so does a `bget` of any further block. -/
theorem bget_panic_iff (disk : Nat → Nat → Nat) (s : Bcache) (dev blockno : Nat)
    (hwf : WF s) :
    (bget s dev blockno = none ↔
      (∀ a ∈ s.hashbucket (CalcHash blockno),
        ¬ ((s.buf a).dev = dev ∧ (s.buf a).blockno = blockno)) ∧
      ∀ i, i < NBUCKETS → ∀ a ∈ s.hashbucket i, (s.buf a).refcnt ≠ 0) ∧
    ((∃ j, j < NBUF ∧ (s.buf j).refcnt = 0) →
      ∃ s' b, bget s dev blockno = some (s', b)) ∧
    (∀ (blocks : List Nat) (blockno' : Nat),
      ∃ s₁, cycles disk 1 blocks (binit bcacheZero) = some s₁ ∧
        ∃ s₂ b, bget s₁ 1 blockno' = some (s₂, b)) := by
  have key : ∀ (t : Bcache) (d n : Nat), WF t → (∃ j, j < NBUF ∧ (t.buf j).refcnt = 0) →
      ∃ s' b, bget t d n = some (s', b) := by
    intro t d n hwft ⟨j, hj, h0⟩
    have hne : bget t d n ≠ none := by
      intro hn
      obtain ⟨_, hbusy⟩ := (bget_eq_none_iff t d n).1 hn
      obtain ⟨i, hi, hmem⟩ := hwft.2.2.1 j hj
      exact hbusy i hi j hmem h0
    obtain ⟨⟨s', b⟩, hg⟩ := Option.ne_none_iff_exists'.1 hne
    exact ⟨s', b, hg⟩
  refine ⟨bget_eq_none_iff s dev blockno, key s dev blockno hwf, ?_⟩
  intro blocks blockno'
  obtain ⟨s₁, hs₁, hwf₁, hfree₁⟩ := cycles_ok disk 1 blocks (binit bcacheZero) binit_WF
    (fun j => by rw [binit_buf]; rfl)
  exact ⟨s₁, hs₁, key s₁ 1 blockno' hwf₁ ⟨0, by decide, hfree₁ 0⟩⟩

/-- C2. In a well-formed cache state, when `bget` returns buffer `b` in the new state
`s'`: if the key was not in bucket `CalcHash blockno` (so that `b` is overwritten), `b`
had `refcnt = 0`; every buffer whose `dev`, `blockno` or `valid` differs in `s'` had
`refcnt = 0`; and every buffer with `refcnt != 0` (in particular `refcnt > 0`) keeps
`dev`, `blockno`, `valid` and is linked in the same bucket as before. -/
theorem bget_keeps_referenced (s s' : Bcache) (dev blockno b : Nat) (hwf : WF s)
    (h : bget s dev blockno = some (s', b)) :
    ((∀ a ∈ s.hashbucket (CalcHash blockno),
        ¬ ((s.buf a).dev = dev ∧ (s.buf a).blockno = blockno)) → (s.buf b).refcnt = 0) ∧
    (∀ j, ((s'.buf j).dev ≠ (s.buf j).dev ∨ (s'.buf j).blockno ≠ (s.buf j).blockno ∨
        (s'.buf j).valid ≠ (s.buf j).valid) → (s.buf j).refcnt = 0) ∧
    (∀ j, (s.buf j).refcnt ≠ 0 →
      (s'.buf j).dev = (s.buf j).dev ∧ (s'.buf j).blockno = (s.buf j).blockno ∧
      (s'.buf j).valid = (s.buf j).valid ∧
      ∀ k, k < NBUCKETS → (j ∈ s'.hashbucket k ↔ j ∈ s.hashbucket k)) := by
  rcases bget_cases s dev blockno with ⟨b', hl, hg⟩ | ⟨hl, b', hf, hg⟩ |
    ⟨hl, _, i, b', hi, hih, hf, hg⟩ | ⟨_, _, hg⟩
  · rw [hg] at h
    simp only [Option.some.injEq, Prod.mk.injEq] at h
    obtain ⟨rfl, rfl⟩ := h
    obtain ⟨hmem, hkey⟩ := lookup_some hl
    have hsame : ∀ j, ((incref s b').buf j).dev = (s.buf j).dev ∧
        ((incref s b').buf j).blockno = (s.buf j).blockno ∧
        ((incref s b').buf j).valid = (s.buf j).valid := by
      intro j
      by_cases hj : j = b'
      · subst hj; simp [incref]
      · simp [incref, Function.update_noteq hj]
    refine ⟨fun hmiss => absurd hkey (hmiss b' hmem), ?_, ?_⟩
    · intro j hd
      obtain ⟨h1, h2, h3⟩ := hsame j
      rcases hd with hd | hd | hd
      · exact absurd h1 hd
      · exact absurd h2 hd
      · exact absurd h3 hd
    · intro j _
      obtain ⟨h1, h2, h3⟩ := hsame j
      exact ⟨h1, h2, h3, fun k _ => Iff.rfl⟩
  · rw [hg] at h
    simp only [Option.some.injEq, Prod.mk.injEq] at h
    obtain ⟨rfl, rfl⟩ := h
    obtain ⟨hmem, h0⟩ := lruFree_some hf
    have hsame : ∀ j, j ≠ b' → (recycle s b' dev blockno).buf j = s.buf j := by
      intro j hj
      simp [recycle, Function.update_noteq hj]
    refine ⟨fun _ => h0, ?_, ?_⟩
    · intro j hd
      by_cases hj : j = b'
      · rw [hj]; exact h0
      · rw [hsame j hj] at hd
        simp at hd
    · intro j hj0
      have hj : j ≠ b' := fun e => hj0 (e ▸ h0)
      rw [hsame j hj]
      exact ⟨rfl, rfl, rfl, fun k _ => Iff.rfl⟩
  · rw [hg] at h
    simp only [Option.some.injEq, Prod.mk.injEq] at h
    obtain ⟨rfl, rfl⟩ := h
    obtain ⟨hmem, h0⟩ := lruFree_some hf
    have hsame : ∀ j, j ≠ b' →
        (recycle (relink s (CalcHash blockno) b') b' dev blockno).buf j = s.buf j := by
      intro j hj
      simp [recycle, relink, Function.update_noteq hj]
    refine ⟨fun _ => h0, ?_, ?_⟩
    · intro j hd
      by_cases hj : j = b'
      · rw [hj]; exact h0
      · rw [hsame j hj] at hd
        simp at hd
    · intro j hj0
      have hj : j ≠ b' := fun e => hj0 (e ▸ h0)
      rw [hsame j hj]
      refine ⟨rfl, rfl, rfl, fun k hk => ?_⟩
      have : (recycle (relink s (CalcHash blockno) b') b' dev blockno).hashbucket =
          linkHead (unlink s.hashbucket b') (CalcHash blockno) b' := rfl
      rw [this, mem_move (hwf.1 k hk)]
      constructor
      · rintro (⟨e, _⟩ | ⟨_, hm⟩)
        · exact absurd e hj
        · exact hm
      · intro hm
        exact Or.inr ⟨hj, hm⟩
  · rw [hg] at h; cases h

/-! ## The invariant of the reachable states -/

theorem Ordered_congr {s s' : Bcache} {a c : Nat}
    (ha : (s'.buf a).dev = (s.buf a).dev ∧ (s'.buf a).blockno = (s.buf a).blockno)
    (hc : (s'.buf c).dev = (s.buf c).dev ∧ (s'.buf c).blockno = (s.buf c).blockno ∧
      (s'.buf c).valid = (s.buf c).valid)
    (h : Ordered s a c) : Ordered s' a c := by
  unfold Ordered SameKey at *
  rw [ha.1, ha.2, hc.1, hc.2.1, hc.2.2]
  exact h

theorem pairwise_of_agree {s s' : Bcache} {l : List Nat} {b : Nat}
    (hagree : ∀ j, j ≠ b → s'.buf j = s.buf j) (hb : b ∉ l)
    (hp : l.Pairwise (Ordered s)) : l.Pairwise (Ordered s') := by
  refine hp.imp_of_mem ?_
  intro a c ha hc h
  have hab : a ≠ b := fun e => hb (e ▸ ha)
  have hcb : c ≠ b := fun e => hb (e ▸ hc)
  exact Ordered_congr (by rw [hagree a hab]; exact ⟨rfl, rfl⟩)
    (by rw [hagree c hcb]; exact ⟨rfl, rfl, rfl⟩) h

theorem pairwise_split {s s' : Bcache} {l pre post : List Nat} {b : Nat}
    (hagree : ∀ j, j ≠ b → s'.buf j = s.buf j) (hnd : l.Nodup)
    (he : l = pre ++ b :: post) (hp : l.Pairwise (Ordered s))
    (hpre : ∀ a ∈ pre, Ordered s' a b) (hpost : ∀ c ∈ post, Ordered s' b c) :
    l.Pairwise (Ordered s') := by
  subst he
  have hnd' := List.nodup_append.1 hnd
  have hbpre : b ∉ pre := fun hm => hnd'.2.2 hm (List.mem_cons_self _ _)
  have hbpost : b ∉ post := (List.nodup_cons.1 hnd'.2.1).1
  obtain ⟨h1, h2, h3⟩ := List.pairwise_append.1 hp
  obtain ⟨_, h4⟩ := List.pairwise_cons.1 h2
  refine List.pairwise_append.2 ⟨pairwise_of_agree hagree hbpre h1,
    List.pairwise_cons.2 ⟨hpost, pairwise_of_agree hagree hbpost h4⟩, ?_⟩
  intro a ha c hc
  have hab : a ≠ b := fun e => hbpre (e ▸ ha)
  rcases List.mem_cons.1 hc with rfl | hc'
  · exact hpre a ha
  · have hcb : c ≠ b := fun e => hbpost (e ▸ hc')
    exact Ordered_congr (by rw [hagree a hab]; exact ⟨rfl, rfl⟩)
      (by rw [hagree c hcb]; exact ⟨rfl, rfl, rfl⟩) (h3 a ha c hc)

theorem pairwise_or {R : Nat → Nat → Prop} {l : List Nat} (hp : l.Pairwise R)
    {a c : Nat} (ha : a ∈ l) (hc : c ∈ l) (hne : a ≠ c) : R a c ∨ R c a := by
  induction l with
  | nil => cases ha
  | cons x xs ih =>
    obtain ⟨hx, hxs⟩ := List.pairwise_cons.1 hp
    rcases List.mem_cons.1 ha with rfl | ha'
    · rcases List.mem_cons.1 hc with rfl | hc'
      · exact absurd rfl hne
      · exact Or.inl (hx c hc')
    · rcases List.mem_cons.1 hc with rfl | hc'
      · exact Or.inr (hx a ha')
      · exact ih hxs ha' hc'

theorem pairwise_move {s s' : Bcache} {b h k : Nat}
    (hagree : ∀ j, j ≠ b → s'.buf j = s.buf j)
    (hnd : (s.hashbucket k).Nodup) (hp : (s.hashbucket k).Pairwise (Ordered s))
    (hhead : ∀ c ∈ s.hashbucket h, c ≠ b → Ordered s' b c) :
    (linkHead (unlink s.hashbucket b) h b k).Pairwise (Ordered s') := by
  have hsub : ((s.hashbucket k).erase b).Pairwise (Ordered s') :=
    pairwise_of_agree hagree hnd.not_mem_erase (hp.sublist (List.erase_sublist _ _))
  unfold linkHead unlink
  by_cases hk : k = h
  · subst hk
    simp only [Function.update_same]
    refine List.pairwise_cons.2 ⟨?_, hsub⟩
    intro c hc
    obtain ⟨hcb, hcm⟩ := hnd.mem_erase_iff.1 hc
    exact hhead c hcm hcb
  · rw [Function.update_noteq hk]
    exact hsub

theorem Inv_init : Inv { cache := binit bcacheZero, held := [] } := by
  refine ⟨binit_WF, ?_, ?_, ?_⟩
  · intro j hj
    rw [binit_buf] at hj
    cases hj
  · intro j hj
    cases hj
  · intro i _
    refine List.Pairwise.imp_of_mem ?_ (List.pairwise_of_forall (R := fun _ _ => True)
      (l := (binit bcacheZero).hashbucket i) (fun _ _ => trivial))
    intro a c _ _ _ _
    rw [binit_buf]
    rfl

theorem Inv_bread {disk : Nat → Nat → Nat} {t : Sys} {s' : Bcache} {dev blockno b : Nat}
    (hinv : Inv t) (h : bread disk t.cache dev blockno = some (s', b)) :
    Inv { cache := s', held := b :: t.held } := by
  obtain ⟨hwf, hcanon, hheld, hord⟩ := hinv
  obtain ⟨hwf', hlt, hbmem⟩ := bread_WF hwf h
  obtain ⟨hagree, hvalid, hdev, hblk, hc⟩ := bread_cases disk t.cache s' dev blockno b h
  have hh := CalcHash_lt blockno
  have hmemiff : ∀ j, j ≠ b → ∀ k, k < NBUCKETS →
      (j ∈ s'.hashbucket k ↔ j ∈ t.cache.hashbucket k) := by
    intro j hj k hk
    rcases hc with ⟨hs, _⟩ | ⟨hs, _⟩ | ⟨hs, _⟩
    · rw [hs]
    · rw [hs]
    · rw [hs, mem_move (hwf.1 k hk)]
      constructor
      · rintro (⟨e, _⟩ | ⟨_, hm⟩)
        · exact absurd e hj
        · exact hm
      · intro hm
        exact Or.inr ⟨hj, hm⟩
  have hmissOrd : (∀ a ∈ t.cache.hashbucket (CalcHash blockno),
      ¬ ((t.cache.buf a).dev = dev ∧ (t.cache.buf a).blockno = blockno)) →
      ∀ c ∈ t.cache.hashbucket (CalcHash blockno), c ≠ b →
        Ordered s' b c ∧ Ordered s' c b := by
    intro hmiss c hc hcb
    have hne : ¬ SameKey s' b c := by
      intro hk
      apply hmiss c hc
      rw [← hagree c hcb, ← hk.1, ← hk.2]
      exact ⟨hdev, hblk⟩
    exact ⟨fun hk => absurd hk hne, fun hk => absurd ⟨hk.1.symm, hk.2.symm⟩ hne⟩
  refine ⟨hwf', ?_, ?_, ?_⟩
  · intro j hj
    by_cases hjb : j = b
    · subst hjb
      show j ∈ s'.hashbucket (CalcHash (s'.buf j).blockno)
      rw [hblk]
      exact hbmem
    · show j ∈ s'.hashbucket (CalcHash (s'.buf j).blockno)
      have hv : (t.cache.buf j).valid = true := by rw [← hagree j hjb]; exact hj
      rw [hmemiff j hjb _ (CalcHash_lt _), hagree j hjb]
      exact hcanon j hv
  · intro j hj
    show (s'.buf j).valid = true
    rcases List.mem_cons.1 hj with rfl | hj'
    · exact hvalid
    · by_cases hjb : j = b
      · rw [hjb]; exact hvalid
      · rw [hagree j hjb]
        exact hheld j hj'
  · intro k hk
    show (s'.hashbucket k).Pairwise (Ordered s')
    rcases hc with ⟨hs, _, hkey, pre, post, he, hpre⟩ | ⟨hs, _, _, hmem, hmiss⟩ |
      ⟨hs, _, _, ⟨i, hi, hih, hmem⟩, hmiss⟩
    · rw [hs]
      by_cases hkh : k = CalcHash blockno
      · subst hkh
        have hp := hord _ hk
        refine pairwise_split hagree (hwf.1 _ hk) he hp ?_ ?_
        · intro a ha hsk
          exfalso
          have hab : a ≠ b := by
            intro e
            have hnd := hwf.1 _ hk
            rw [he] at hnd
            exact (List.nodup_append.1 hnd).2.2 ha (by rw [e]; exact List.mem_cons_self _ _)
          apply hpre a ha
          rw [← hagree a hab, hsk.1, hsk.2]
          exact ⟨hdev, hblk⟩
        · intro c hc hsk
          have hcb : c ≠ b := by
            intro e
            have hnd := hwf.1 _ hk
            rw [he] at hnd
            exact (List.nodup_cons.1 (List.nodup_append.1 hnd).2.1).1 (e ▸ hc)
          rw [hagree c hcb]
          rw [he] at hp
          have hbc : Ordered t.cache b c :=
            (List.pairwise_cons.1 (List.pairwise_append.1 hp).2.1).1 c hc
          apply hbc
          refine ⟨?_, ?_⟩
          · rw [hkey.1, ← hdev, hsk.1, hagree c hcb]
          · rw [hkey.2, ← hblk, hsk.2, hagree c hcb]
      · have hbk : b ∉ t.cache.hashbucket k := by
          intro hm
          have hbh : b ∈ t.cache.hashbucket (CalcHash blockno) := by rw [he]; simp
          exact hkh (hwf.2.2.2 k hk _ hh b hm hbh)
        exact pairwise_of_agree hagree hbk (hord k hk)
    · rw [hs]
      by_cases hkh : k = CalcHash blockno
      · subst hkh
        obtain ⟨pre, post, he⟩ := List.append_of_mem hmem
        have hnd := hwf.1 _ hk
        refine pairwise_split hagree hnd he (hord _ hk) ?_ ?_
        · intro a ha
          have hab : a ≠ b := by
            intro e
            rw [he] at hnd
            exact (List.nodup_append.1 hnd).2.2 ha (by rw [e]; exact List.mem_cons_self _ _)
          exact (hmissOrd hmiss a (by rw [he]; simp [ha]) hab).2
        · intro c hc
          have hcb : c ≠ b := by
            intro e
            rw [he] at hnd
            exact (List.nodup_cons.1 (List.nodup_append.1 hnd).2.1).1 (e ▸ hc)
          exact (hmissOrd hmiss c (by rw [he]; simp [hc]) hcb).1
      · have hbk : b ∉ t.cache.hashbucket k := by
          intro hm
          exact hkh (hwf.2.2.2 k hk _ hh b hm hmem)
        exact pairwise_of_agree hagree hbk (hord k hk)
    · rw [hs]
      exact pairwise_move hagree (hwf.1 k hk) (hord k hk)
        (fun c hc hcb => (hmissOrd hmiss c hc hcb).1)

theorem decref_fields (s : Bcache) (b j : Nat) :
    ((decref s b).buf j).dev = (s.buf j).dev ∧
    ((decref s b).buf j).blockno = (s.buf j).blockno ∧
    ((decref s b).buf j).valid = (s.buf j).valid := by
  by_cases hj : j = b
  · subst hj; simp [decref]
  · simp [decref, Function.update_noteq hj]

theorem incref_fields (s : Bcache) (b j : Nat) :
    ((incref s b).buf j).dev = (s.buf j).dev ∧
    ((incref s b).buf j).blockno = (s.buf j).blockno ∧
    ((incref s b).buf j).valid = (s.buf j).valid := by
  by_cases hj : j = b
  · subst hj; simp [incref]
  · simp [incref, Function.update_noteq hj]

theorem brelse_cases {s s' : Bcache} {b : Nat} (h : brelse true s b = some s') :
    s'.buf = (decref s b).buf ∧
    (s'.hashbucket = s.hashbucket ∨
      s'.hashbucket = linkHead (unlink s.hashbucket b) (CalcHash (s.buf b).blockno) b) := by
  simp only [brelse, Bool.not_true, Bool.false_eq_true, ↓reduceIte] at h
  split at h <;> simp only [Option.some.injEq] at h <;> subst h
  · exact ⟨rfl, Or.inr rfl⟩
  · exact ⟨rfl, Or.inl rfl⟩

theorem Inv_fields {t : Sys} {s' : Bcache} (hinv : Inv t)
    (hb : s'.hashbucket = t.cache.hashbucket)
    (hf : ∀ j, (s'.buf j).dev = (t.cache.buf j).dev ∧
      (s'.buf j).blockno = (t.cache.buf j).blockno ∧
      (s'.buf j).valid = (t.cache.buf j).valid) :
    Inv { cache := s', held := t.held } := by
  obtain ⟨hwf, hcanon, hheld, hord⟩ := hinv
  refine ⟨WF_of_hashbucket_eq hb hwf, ?_, ?_, ?_⟩
  · intro j hj
    show j ∈ s'.hashbucket (CalcHash (s'.buf j).blockno)
    rw [hb, (hf j).2.1]
    exact hcanon j (by rw [← (hf j).2.2]; exact hj)
  · intro j hj
    show (s'.buf j).valid = true
    rw [(hf j).2.2]
    exact hheld j hj
  · intro k hk
    show (s'.hashbucket k).Pairwise (Ordered s')
    rw [hb]
    refine (hord k hk).imp_of_mem ?_
    intro a c _ _ h
    exact Ordered_congr ⟨(hf a).1, (hf a).2.1⟩ (hf c) h

theorem Inv_held_sublist {s : Bcache} {l l' : List Nat}
    (hinv : Inv { cache := s, held := l }) (hsub : ∀ j ∈ l', j ∈ l) :
    Inv { cache := s, held := l' } :=
  ⟨hinv.1, hinv.2.1, fun j hj => hinv.2.2.1 j (hsub j hj), hinv.2.2.2⟩

theorem Inv_brelse {t : Sys} {s' : Bcache} {b : Nat} (hinv : Inv t) (hb : b ∈ t.held)
    (h : brelse true t.cache b = some s') :
    Inv { cache := s', held := t.held.erase b } := by
  obtain ⟨hbuf, hc⟩ := brelse_cases h
  have hf : ∀ j, (s'.buf j).dev = (t.cache.buf j).dev ∧
      (s'.buf j).blockno = (t.cache.buf j).blockno ∧
      (s'.buf j).valid = (t.cache.buf j).valid := by
    intro j
    rw [hbuf]
    exact decref_fields t.cache b j
  apply Inv_held_sublist (l := t.held) _ (fun j hj => List.mem_of_mem_erase hj)
  rcases hc with hs | hs
  · exact Inv_fields hinv hs hf
  · obtain ⟨hwf, hcanon, hheld, hord⟩ := hinv
    have hv : (t.cache.buf b).valid = true := hheld b hb
    have hbmem := hcanon b hv
    have hh := CalcHash_lt (t.cache.buf b).blockno
    have hlt : b < NBUF := hwf.2.1 _ hh b hbmem
    have hordEq : ∀ a c, Ordered t.cache a c → Ordered s' a c :=
      fun a c hac => Ordered_congr ⟨(hf a).1, (hf a).2.1⟩ (hf c) hac
    refine ⟨WF_move hwf hlt hh hs, ?_, ?_, ?_⟩
    · intro j hj
      show j ∈ s'.hashbucket (CalcHash (s'.buf j).blockno)
      have hvj : (t.cache.buf j).valid = true := by rw [← (hf j).2.2]; exact hj
      rw [hs, (hf j).2.1, mem_move (hwf.1 _ (CalcHash_lt _))]
      by_cases hjb : j = b
      · subst hjb
        exact Or.inl ⟨rfl, rfl⟩
      · exact Or.inr ⟨hjb, hcanon j hvj⟩
    · intro j hj
      show (s'.buf j).valid = true
      rw [(hf j).2.2]
      exact hheld j hj
    · intro k hk
      show (s'.hashbucket k).Pairwise (Ordered s')
      rw [hs]
      have hp : (t.cache.hashbucket k).Pairwise (Ordered s') :=
        (hord k hk).imp_of_mem (fun _ _ hac => hordEq _ _ hac)
      have hnd := hwf.1 k hk
      have hsub : ((t.cache.hashbucket k).erase b).Pairwise (Ordered s') :=
        hp.sublist (List.erase_sublist _ _)
      unfold linkHead unlink
      by_cases hkh : k = CalcHash (t.cache.buf b).blockno
      · subst hkh
        simp only [Function.update_same]
        refine List.pairwise_cons.2 ⟨?_, hsub⟩
        intro c hc
        obtain ⟨hcb, hcm⟩ := hnd.mem_erase_iff.1 hc
        rcases pairwise_or (hord _ hk) hbmem hcm (Ne.symm hcb) with hbc | hcb'
        · exact hordEq _ _ hbc
        · intro hsk
          exfalso
          have hsk' : SameKey t.cache c b := by
            unfold SameKey at *
            rw [← (hf c).1, ← (hf c).2.1, ← (hf b).1, ← (hf b).2.1]
            exact ⟨hsk.1.symm, hsk.2.symm⟩
          have := hcb' hsk'
          rw [hv] at this
          cases this
      · rw [Function.update_noteq hkh]
        exact hsub

theorem Inv_step {disk : Nat → Nat → Nat} {t u : Sys} (hinv : Inv t)
    (h : Step disk t u) : Inv u := by
  cases h with
  | callBread dev blockno s b hb => exact Inv_bread hinv hb
  | callBrelse b s hmem hb =>
    have hd : decide (b ∈ t.held) = true := decide_eq_true hmem
    rw [hd] at hb
    exact Inv_brelse hinv hmem hb
  | callBpin b _ _ => exact Inv_fields hinv rfl (incref_fields t.cache b)
  | callBunpin b _ _ => exact Inv_fields hinv rfl (decref_fields t.cache b)

theorem Inv_reachable {disk : Nat → Nat → Nat} {t : Sys} (h : Reachable disk t) :
    Inv t := by
  induction h with
  | init => exact Inv_init
  | step t u _ hstep ih => exact Inv_step ih hstep

/-- C1. In every cache state reached from `binit` by a sequence of `bread`, `brelse` (on
a buffer the caller holds), `bpin` and `bunpin` (on a buffer with `refcnt >= 1`) calls,
two distinct buffers that are both valid do not carry the same `(dev, blockno)`. -/
theorem valid_key_unique (disk : Nat → Nat → Nat) (t : Sys) (h : Reachable disk t)
    (j₁ j₂ : Nat) (hne : j₁ ≠ j₂)
    (h₁ : (t.cache.buf j₁).valid = true) (h₂ : (t.cache.buf j₂).valid = true) :
    ¬ ((t.cache.buf j₁).dev = (t.cache.buf j₂).dev ∧
       (t.cache.buf j₁).blockno = (t.cache.buf j₂).blockno) := by
  intro hk
  obtain ⟨_, hcanon, _, hord⟩ := Inv_reachable h
  have hm₁ := hcanon j₁ h₁
  have hm₂ := hcanon j₂ h₂
  rw [hk.2] at hm₁
  rcases pairwise_or (hord _ (CalcHash_lt _)) hm₁ hm₂ hne with h12 | h21
  · have := h12 hk
    rw [h₂] at this
    cases this
  · have := h21 ⟨hk.1.symm, hk.2.symm⟩
    rw [h₁] at this
    cases this

/-! ## The theorems at sample states -/

theorem valid_key_unique_witness :
    Reachable exDisk { cache := exS2, held := [18, 5] } ∧
    (exS2.buf 5).valid = true ∧ (exS2.buf 18).valid = true ∧
    ¬ ((exS2.buf 5).dev = (exS2.buf 18).dev ∧
       (exS2.buf 5).blockno = (exS2.buf 18).blockno) :=
  have hr : Reachable exDisk { cache := exS2, held := [18, 5] } :=
    Reachable.step _ _
      (Reachable.step _ _ Reachable.init (Step.callBread _ 1 5 exS1 5 rfl))
      (Step.callBread _ 1 18 exS2 18 rfl)
  ⟨hr, by decide, by decide,
    valid_key_unique exDisk _ hr 5 18 (by decide) (by decide) (by decide)⟩

theorem bget_keeps_referenced_witness :
    WF exS2 ∧ bget exS2 1 31 = some (exS3, 0) ∧ (exS2.buf 0).refcnt = 0 ∧
    (exS3.buf 18).dev = (exS2.buf 18).dev ∧
    (exS3.buf 18).blockno = (exS2.buf 18).blockno ∧
    (exS3.buf 18).valid = (exS2.buf 18).valid ∧
    (18 ∈ exS3.hashbucket 5 ↔ 18 ∈ exS2.hashbucket 5) :=
  have h := bget_keeps_referenced exS2 exS3 1 31 0 (by decide) rfl
  have h18 := h.2.2 18 (by decide)
  ⟨by decide, rfl, h.1 (by decide), h18.1, h18.2.1, h18.2.2.1, h18.2.2.2 5 (by decide)⟩

theorem bget_panic_iff_witness :
    (WF exS2 ∧ ∃ s' b, bget exS2 1 31 = some (s', b)) ∧
    (WF exFull ∧ bget exFull 1 5 = none) :=
  ⟨⟨by decide, (bget_panic_iff exDisk exS2 1 31 (by decide)).2.1 ⟨0, by decide, by decide⟩⟩,
   ⟨by decide, (bget_panic_iff exDisk exFull 1 5 (by decide)).1.2 ⟨by decide, by decide⟩⟩⟩

theorem bget_hit_witness :
    (∃ a ∈ exS2.hashbucket (CalcHash 5), (exS2.buf a).dev = 1 ∧ (exS2.buf a).blockno = 5) ∧
    ∃ pre b post, exS2.hashbucket (CalcHash 5) = pre ++ b :: post ∧
      ((exS2.buf b).dev = 1 ∧ (exS2.buf b).blockno = 5) ∧
      (∀ a ∈ pre, ¬ ((exS2.buf a).dev = 1 ∧ (exS2.buf a).blockno = 5)) ∧
      bget exS2 1 5 =
        some ({ buf := Function.update exS2.buf b
                  { valid := (exS2.buf b).valid, dev := (exS2.buf b).dev,
                    blockno := (exS2.buf b).blockno, refcnt := (exS2.buf b).refcnt + 1,
                    data := (exS2.buf b).data },
                hashbucket := exS2.hashbucket }, b) :=
  ⟨by decide, bget_hit exS2 1 5 (by decide)⟩

theorem bget_recycle_local_witness :
    ((∀ a ∈ (binit bcacheZero).hashbucket (CalcHash 13),
        ¬ (((binit bcacheZero).buf a).dev = 1 ∧ ((binit bcacheZero).buf a).blockno = 13)) ∧
      ∃ a ∈ (binit bcacheZero).hashbucket (CalcHash 13),
        ((binit bcacheZero).buf a).refcnt = 0) ∧
    ∃ pre b post, (binit bcacheZero).hashbucket (CalcHash 13) = pre ++ b :: post ∧
      ((binit bcacheZero).buf b).refcnt = 0 ∧
      (∀ a ∈ post, ((binit bcacheZero).buf a).refcnt ≠ 0) ∧
      bget (binit bcacheZero) 1 13 =
        some ({ buf := Function.update (binit bcacheZero).buf b
                  { valid := false, dev := 1, blockno := 13, refcnt := 1,
                    data := ((binit bcacheZero).buf b).data },
                hashbucket := (binit bcacheZero).hashbucket }, b) :=
  ⟨⟨by decide, by decide⟩,
    bget_recycle_local (binit bcacheZero) 1 13 (by decide) (by decide)⟩

theorem bget_steal_witness :
    (WF exS2 ∧
      (∀ a ∈ exS2.hashbucket (CalcHash 31),
        ¬ ((exS2.buf a).dev = 1 ∧ (exS2.buf a).blockno = 31)) ∧
      (∀ a ∈ exS2.hashbucket (CalcHash 31), (exS2.buf a).refcnt ≠ 0) ∧
      ∃ i, i < NBUCKETS ∧ i ≠ CalcHash 31 ∧ ∃ a ∈ exS2.hashbucket i, (exS2.buf a).refcnt = 0) ∧
    ∃ i pre b post s', i < NBUCKETS ∧ i ≠ CalcHash 31 ∧
      (∀ k, k < i → k ≠ CalcHash 31 → ∀ a ∈ exS2.hashbucket k, (exS2.buf a).refcnt ≠ 0) ∧
      exS2.hashbucket i = pre ++ b :: post ∧
      (exS2.buf b).refcnt = 0 ∧ (∀ a ∈ post, (exS2.buf a).refcnt ≠ 0) ∧
      bget exS2 1 31 = some (s', b) ∧
      s'.buf = Function.update exS2.buf b
        { valid := false, dev := 1, blockno := 31, refcnt := 1,
          data := (exS2.buf b).data } ∧
      s'.hashbucket i = pre ++ post ∧
      s'.hashbucket (CalcHash 31) = b :: exS2.hashbucket (CalcHash 31) ∧
      (∀ k, k < NBUCKETS → k ≠ i → k ≠ CalcHash 31 →
        s'.hashbucket k = exS2.hashbucket k) :=
  ⟨⟨by decide, by decide, by decide, by decide⟩,
    bget_steal exS2 1 31 (by decide) (by decide) (by decide) (by decide)⟩

theorem brelse_spec_witness :
    (WF exS2 ∧ 1 ≤ (exS2.buf 5).refcnt ∧
      5 ∈ exS2.hashbucket (CalcHash (exS2.buf 5).blockno)) ∧
    ∃ s', brelse true exS2 5 = some s' ∧
      s'.buf = Function.update exS2.buf 5
        { valid := (exS2.buf 5).valid, dev := (exS2.buf 5).dev,
          blockno := (exS2.buf 5).blockno,
          refcnt := (exS2.buf 5).refcnt - 1, data := (exS2.buf 5).data } ∧
      ((exS2.buf 5).refcnt - 1 = 0 →
        ∀ pre post, exS2.hashbucket (CalcHash (exS2.buf 5).blockno) = pre ++ 5 :: post →
          s'.hashbucket (CalcHash (exS2.buf 5).blockno) = 5 :: (pre ++ post)) ∧
      ((exS2.buf 5).refcnt - 1 ≠ 0 →
        s'.hashbucket (CalcHash (exS2.buf 5).blockno) =
          exS2.hashbucket (CalcHash (exS2.buf 5).blockno)) ∧
      (∀ k, k < NBUCKETS → k ≠ CalcHash (exS2.buf 5).blockno →
        s'.hashbucket k = exS2.hashbucket k) :=
  ⟨⟨by decide, by decide, by decide⟩,
    brelse_spec exS2 5 (by decide) (by decide) (by decide)⟩

/-! ## Sequences of calls -/

theorem Inv_call {disk : Nat → Nat → Nat} {t u : Sys} {op : Op} (hinv : Inv t)
    (h : call disk t op = some u) : Inv u := by
  cases op with
  | bread dev blockno =>
    simp only [call] at h
    cases hb : bread disk t.cache dev blockno with
    | none => rw [hb] at h; cases h
    | some r =>
      obtain ⟨s, b⟩ := r
      rw [hb] at h
      simp only [Option.some.injEq] at h
      subst h
      exact Inv_bread hinv hb
  | brelse b =>
    simp only [call] at h
    cases hb : brelse (decide (b ∈ t.held)) t.cache b with
    | none => rw [hb] at h; cases h
    | some s =>
      rw [hb] at h
      simp only [Option.some.injEq] at h
      subst h
      by_cases hmem : b ∈ t.held
      · rw [decide_eq_true hmem] at hb
        exact Inv_brelse hinv hmem hb
      · rw [decide_eq_false hmem] at hb
        simp [brelse] at hb
  | bpin b =>
    simp only [call, Option.some.injEq] at h
    subst h
    exact Inv_fields hinv rfl (incref_fields t.cache b)
  | bunpin b =>
    simp only [call, Option.some.injEq] at h
    subst h
    exact Inv_fields hinv rfl (decref_fields t.cache b)

theorem Inv_calls {disk : Nat → Nat → Nat} (ops : List Op) :
    ∀ {t u : Sys}, Inv t → calls disk ops t = some u → Inv u := by
  induction ops with
  | nil =>
    intro t u hinv h
    simp only [calls, Option.some.injEq] at h
    subst h
    exact hinv
  | cons op rest ih =>
    intro t u hinv h
    simp only [calls] at h
    cases hc : call disk t op with
    | none => rw [hc] at h; cases h
    | some v =>
      rw [hc] at h
      exact ih (Inv_call hinv hc) h

theorem Inv_sysInit : Inv sysInit := Inv_init

theorem calls_append {disk : Nat → Nat → Nat} (ops : List Op) (op : Op) :
    ∀ {t u v : Sys}, calls disk ops t = some u → call disk u op = some v →
      calls disk (ops ++ [op]) t = some v := by
  induction ops with
  | nil =>
    intro t u v h hc
    simp only [calls, Option.some.injEq] at h
    subst h
    simp [calls, hc]
  | cons o rest ih =>
    intro t u v h hc
    simp only [calls] at h
    cases ho : call disk t o with
    | none => rw [ho] at h; cases h
    | some w =>
      rw [ho] at h
      simp only [List.cons_append, calls, ho]
      exact ih h hc

theorem call_of_Step {disk : Nat → Nat → Nat} {t u : Sys} (h : Step disk t u) :
    ∃ op, call disk t op = some u := by
  cases h with
  | callBread dev blockno s b hb => exact ⟨Op.bread dev blockno, by simp [call, hb]⟩
  | callBrelse b s hmem hb => exact ⟨Op.brelse b, by simp [call, hb]⟩
  | callBpin b _ _ => exact ⟨Op.bpin b, rfl⟩
  | callBunpin b _ _ => exact ⟨Op.bunpin b, rfl⟩

theorem calls_of_Reachable {disk : Nat → Nat → Nat} {t : Sys} (h : Reachable disk t) :
    ∃ ops, calls disk ops sysInit = some t := by
  induction h with
  | init => exact ⟨[], rfl⟩
  | step t u _ hstep ih =>
    obtain ⟨ops, hops⟩ := ih
    obtain ⟨op, hop⟩ := call_of_Step hstep
    exact ⟨ops ++ [op], calls_append ops op hops hop⟩

/-! ## Reading a block again -/

theorem bget_of_bread {disk : Nat → Nat → Nat} {s s' : Bcache} {dev blockno b : Nat}
    (h : bread disk s dev blockno = some (s', b)) :
    ∃ s₁, bget s dev blockno = some (s₁, b) := by
  rw [bread_eq] at h
  cases hg : bget s dev blockno with
  | none => rw [hg] at h; cases h
  | some r =>
    obtain ⟨s₁, b₁⟩ := r
    rw [hg] at h
    simp only at h
    split at h <;> simp only [Option.some.injEq, Prod.mk.injEq] at h <;>
      exact ⟨s₁, by rw [h.2]⟩

theorem bget_key {s s' : Bcache} {dev blockno b : Nat}
    (h : bget s dev blockno = some (s', b)) :
    (s'.buf b).dev = dev ∧ (s'.buf b).blockno = blockno := by
  rcases bget_cases s dev blockno with ⟨b', hl, hg⟩ | ⟨_, b', _, hg⟩ |
    ⟨_, _, i, b', _, _, _, hg⟩ | ⟨_, _, hg⟩
  · rw [hg] at h
    simp only [Option.some.injEq, Prod.mk.injEq] at h
    obtain ⟨rfl, rfl⟩ := h
    obtain ⟨_, hd, hn⟩ := lookup_some hl
    rw [(incref_fields s b' b').1, (incref_fields s b' b').2.1]
    exact ⟨hd, hn⟩
  · rw [hg] at h
    simp only [Option.some.injEq, Prod.mk.injEq] at h
    obtain ⟨rfl, rfl⟩ := h
    simp [recycle]
  · rw [hg] at h
    simp only [Option.some.injEq, Prod.mk.injEq] at h
    obtain ⟨rfl, rfl⟩ := h
    simp [recycle]
  · rw [hg] at h; cases h

theorem bread_hit_valid (disk : Nat → Nat → Nat) {s : Bcache} {dev blockno b : Nat}
    (hl : lookup s (CalcHash blockno) dev blockno = some b)
    (hv : (s.buf b).valid = true) :
    breadTraced disk s dev blockno = some ((incref s b, b), []) := by
  have hg : bget s dev blockno = some (incref s b, b) := by simp [bget, hl]
  have hv' : ((incref s b).buf b).valid = true := by
    rw [(incref_fields s b b).2.2]; exact hv
  simp [breadTraced, hg, hv']

theorem lookup_of_Inv {t : Sys} {dev blockno b : Nat} (hinv : Inv t)
    (hv : (t.cache.buf b).valid = true)
    (hd : (t.cache.buf b).dev = dev) (hn : (t.cache.buf b).blockno = blockno) :
    lookup t.cache (CalcHash blockno) dev blockno = some b := by
  obtain ⟨_, hcanon, _, hord⟩ := hinv
  have hmem : b ∈ t.cache.hashbucket (CalcHash blockno) := by
    have := hcanon b hv
    rw [hn] at this
    exact this
  have hex : ∃ a ∈ t.cache.hashbucket (CalcHash blockno),
      isKey t.cache dev blockno a = true := ⟨b, hmem, by simp [isKey, hd, hn]⟩
  obtain ⟨pre, b', post, he, hb', hpre, hf⟩ := find?_first _ _ hex
  have hkey' : (t.cache.buf b').dev = dev ∧ (t.cache.buf b').blockno = blockno := by
    simpa [isKey] using hb'
  have hbb : b' = b := by
    by_contra hne
    rw [he] at hmem
    rcases List.mem_append.1 hmem with hm | hm
    · have := hpre b hm
      simp [isKey, hd, hn] at this
    · rcases List.mem_cons.1 hm with e | hm'
      · exact hne e.symm
      · have hp := hord _ (CalcHash_lt blockno)
        rw [he] at hp
        have hbc : Ordered t.cache b' b :=
          (List.pairwise_cons.1 (List.pairwise_append.1 hp).2.1).1 b hm'
        have := hbc ⟨by rw [hkey'.1, hd], by rw [hkey'.2, hn]⟩
        rw [hv] at this
        cases this
  rw [← hbb]
  exact hf

theorem decref_data (s : Bcache) (b j : Nat) :
    ((decref s b).buf j).data = (s.buf j).data := by
  by_cases hj : j = b
  · subst hj; simp [decref]
  · simp [decref, Function.update_noteq hj]

theorem incref_data (s : Bcache) (b j : Nat) :
    ((incref s b).buf j).data = (s.buf j).data := by
  by_cases hj : j = b
  · subst hj; simp [incref]
  · simp [incref, Function.update_noteq hj]

theorem kept_call {disk : Nat → Nat → Nat} {t u : Sys} {op : Op} {b dev blockno d : Nat}
    (hc : call disk t op = some u) (hk : KeepsOp t.cache b op)
    (hv : (t.cache.buf b).valid = true) (hd : (t.cache.buf b).dev = dev)
    (hn : (t.cache.buf b).blockno = blockno) (hdata : (t.cache.buf b).data = d) :
    (u.cache.buf b).valid = true ∧ (u.cache.buf b).dev = dev ∧
    (u.cache.buf b).blockno = blockno ∧ (u.cache.buf b).data = d := by
  cases op with
  | bread dev' blockno' =>
    simp only [call] at hc
    cases hb : bread disk t.cache dev' blockno' with
    | none => rw [hb] at hc; cases hc
    | some r =>
      obtain ⟨s, b'⟩ := r
      rw [hb] at hc
      simp only [Option.some.injEq] at hc
      subst hc
      by_cases hbb : b = b'
      · subst hbb
        obtain ⟨s₁, hg⟩ := bget_of_bread hb
        have hl : lookup t.cache (CalcHash blockno') dev' blockno' ≠ none :=
          fun hnone => hk ⟨hnone, by rw [hg]; rfl⟩
        obtain ⟨b'', hl'⟩ := Option.ne_none_iff_exists'.1 hl
        have hg' : bget t.cache dev' blockno' = some (incref t.cache b'', b'') := by
          simp [bget, hl']
        rw [hg] at hg'
        simp only [Option.some.injEq, Prod.mk.injEq] at hg'
        obtain ⟨_, hbe⟩ := hg'
        subst hbe
        have : bread disk t.cache dev' blockno' = some (incref t.cache b, b) := by
          simp [bread, bread_hit_valid disk hl' hv]
        rw [hb] at this
        simp only [Option.some.injEq, Prod.mk.injEq] at this
        obtain ⟨hs, _⟩ := this
        show (s.buf b).valid = true ∧ _
        rw [hs]
        obtain ⟨h1, h2, h3⟩ := incref_fields t.cache b b
        exact ⟨by rw [h3, hv], by rw [h1, hd], by rw [h2, hn],
          by rw [incref_data, hdata]⟩
      · obtain ⟨hagree, _⟩ := bread_cases disk t.cache s dev' blockno' b' hb
        show (s.buf b).valid = true ∧ _
        rw [hagree b hbb]
        exact ⟨hv, hd, hn, hdata⟩
  | brelse b' =>
    simp only [call] at hc
    cases hb : brelse (decide (b' ∈ t.held)) t.cache b' with
    | none => rw [hb] at hc; cases hc
    | some s =>
      rw [hb] at hc
      simp only [Option.some.injEq] at hc
      subst hc
      have hdec : decide (b' ∈ t.held) = true := by
        by_contra hne
        simp only [Bool.not_eq_true] at hne
        rw [hne] at hb
        simp [brelse] at hb
      rw [hdec] at hb
      obtain ⟨hbuf, _⟩ := brelse_cases hb
      show (s.buf b).valid = true ∧ _
      rw [hbuf]
      obtain ⟨h1, h2, h3⟩ := decref_fields t.cache b' b
      exact ⟨by rw [h3, hv], by rw [h1, hd], by rw [h2, hn], by rw [decref_data, hdata]⟩
  | bpin b' =>
    simp only [call, Option.some.injEq] at hc
    subst hc
    obtain ⟨h1, h2, h3⟩ := incref_fields t.cache b' b
    exact ⟨by show ((incref t.cache b').buf b).valid = true; rw [h3, hv],
      by show ((incref t.cache b').buf b).dev = dev; rw [h1, hd],
      by show ((incref t.cache b').buf b).blockno = blockno; rw [h2, hn],
      by show ((incref t.cache b').buf b).data = d; rw [incref_data, hdata]⟩
  | bunpin b' =>
    simp only [call, Option.some.injEq] at hc
    subst hc
    obtain ⟨h1, h2, h3⟩ := decref_fields t.cache b' b
    exact ⟨by show ((decref t.cache b').buf b).valid = true; rw [h3, hv],
      by show ((decref t.cache b').buf b).dev = dev; rw [h1, hd],
      by show ((decref t.cache b').buf b).blockno = blockno; rw [h2, hn],
      by show ((decref t.cache b').buf b).data = d; rw [decref_data, hdata]⟩

theorem kept_calls {disk : Nat → Nat → Nat} {b dev blockno d : Nat} (ops : List Op) :
    ∀ {t u : Sys}, Inv t → calls disk ops t = some u → Keeps disk b ops t →
      (t.cache.buf b).valid = true → (t.cache.buf b).dev = dev →
      (t.cache.buf b).blockno = blockno → (t.cache.buf b).data = d →
      Inv u ∧ (u.cache.buf b).valid = true ∧ (u.cache.buf b).dev = dev ∧
      (u.cache.buf b).blockno = blockno ∧ (u.cache.buf b).data = d := by
  induction ops with
  | nil =>
    intro t u hinv h _ hv hd hn hdata
    simp only [calls, Option.some.injEq] at h
    subst h
    exact ⟨hinv, hv, hd, hn, hdata⟩
  | cons op rest ih =>
    intro t u hinv h hk hv hd hn hdata
    simp only [calls] at h
    cases hc : call disk t op with
    | none => rw [hc] at h; cases h
    | some v =>
      rw [hc] at h
      obtain ⟨hk1, hk2⟩ := hk
      rw [hc] at hk2
      obtain ⟨hv', hd', hn', hdata'⟩ := kept_call hc hk1 hv hd hn hdata
      exact ih (Inv_call hinv hc) h hk2 hv' hd' hn' hdata'

/-- C11. `bread` returns a buffer with `valid = 1` and calls `virtio_disk_rw(b, 0)` exactly
when the buffer that `bget` returned had `valid = 0`: in that case its one request to the
device is for block `(dev, blockno)`, and the cache it returns is the one `bget` returned
with the data of that buffer replaced by what the device holds for the block and with
`valid = 1`; when the buffer had `valid = 1` it makes no request and returns the cache
of `bget` as it is.  And in a state reached from `binit` by calls of the interface: when
`bread(dev, blockno)` has returned buffer `b` and any calls follow (among them the
`brelse` of `b`) none of which is a `bread` whose `bget` recycles `b`, a further
`bread(dev, blockno)` returns the same buffer `b`, with the data it had after the first
`bread`, and calls `virtio_disk_rw` on nothing: it only adds a reference to `b`, whatever
the device holds. -/
theorem bread_again (disk : Nat → Nat → Nat) (ops₀ ops : List Op) (t₀ u : Sys)
    (s₁ : Bcache) (dev blockno b : Nat)
    (h₀ : calls disk ops₀ sysInit = some t₀)
    (h₁ : bread disk t₀.cache dev blockno = some (s₁, b))
    (h₂ : calls disk ops { cache := s₁, held := b :: t₀.held } = some u)
    (hk : Keeps disk b ops { cache := s₁, held := b :: t₀.held }) :
    (∀ (s s' : Bcache) (dev' blockno' b' : Nat), bget s dev' blockno' = some (s', b') →
      ∃ s'', bread disk s dev' blockno' = some (s'', b') ∧ (s''.buf b').valid = true ∧
        (breadReads disk s dev' blockno' ≠ [] ↔ (s'.buf b').valid = false) ∧
        ((s'.buf b').valid = false →
          breadReads disk s dev' blockno' = [(dev', blockno')] ∧
          (s''.buf b').data = disk dev' blockno' ∧
          s'' = { s' with buf := (Function.update s'.buf b'
                    { (s'.buf b') with data := disk dev' blockno', valid := true }) }) ∧
        ((s'.buf b').valid = true → breadReads disk s dev' blockno' = [] ∧ s'' = s')) ∧
    ∃ s', bread disk u.cache dev blockno = some (s', b) ∧ (s'.buf b).valid = true ∧
      (s'.buf b).data = (s₁.buf b).data ∧ breadReads disk u.cache dev blockno = [] ∧
      s' = incref u.cache b ∧
      ∀ disk' : Nat → Nat → Nat, bread disk' u.cache dev blockno = some (s', b) := by
  constructor
  · intro s s' dev' blockno' b' hg
    obtain ⟨hd, hn⟩ := bget_key hg
    cases hv : (s'.buf b').valid with
    | true =>
      refine ⟨s', by rw [bread_eq]; simp [hg, hv], hv,
        by simp [breadReads, breadTraced, hg, hv], fun hf => Bool.noConfusion hf,
        fun _ => ⟨by simp [breadReads, breadTraced, hg, hv], rfl⟩⟩
    | false =>
      refine ⟨{ s' with buf := (Function.update s'.buf b'
                  { (s'.buf b') with data := disk dev' blockno', valid := true }) },
        ?_, by simp, by simp [breadReads, breadTraced, hg, hv],
        fun _ => ⟨by simp [breadReads, breadTraced, hg, hv, hd, hn], by simp, rfl⟩,
        fun hf => Bool.noConfusion hf⟩
      rw [bread_eq]
      simp [hg, hv, virtio_disk_read, hd, hn]
  · have hinv₀ : Inv t₀ := Inv_calls ops₀ Inv_sysInit h₀
    have hinv₁ : Inv { cache := s₁, held := b :: t₀.held } := Inv_bread hinv₀ h₁
    obtain ⟨_, hvalid, hdev, hblk, _⟩ := bread_cases disk t₀.cache s₁ dev blockno b h₁
    obtain ⟨hinvu, hv, hd, hn, hdata⟩ :=
      kept_calls ops hinv₁ h₂ hk hvalid hdev hblk rfl
    have hl := lookup_of_Inv hinvu hv hd hn
    have hio := fun disk' : Nat → Nat → Nat => bread_hit_valid disk' hl hv
    refine ⟨incref u.cache b, by simp [bread, hio disk], ?_, ?_,
      by simp [breadReads, hio disk], rfl, fun disk' => by simp [bread, hio disk']⟩
    · rw [(incref_fields u.cache b b).2.2]; exact hv
    · rw [incref_data]; exact hdata

theorem bread_again_witness :
    (calls exDisk [] sysInit = some sysInit ∧
      bread exDisk sysInit.cache 1 5 = some (exS1, 5) ∧
      calls exDisk exOps { cache := exS1, held := [5] } = some exU ∧
      Keeps exDisk 5 exOps { cache := exS1, held := [5] }) ∧
    (breadReads exDisk sysInit.cache 1 5 = [(1, 5)] ∧ (exS1.buf 5).data = 105) ∧
    ∃ s', bread exDisk exU.cache 1 5 = some (s', 5) ∧ (s'.buf 5).valid = true ∧
      (s'.buf 5).data = (exS1.buf 5).data ∧ breadReads exDisk exU.cache 1 5 = [] ∧
      s' = incref exU.cache 5 ∧
      ∀ disk' : Nat → Nat → Nat, bread disk' exU.cache 1 5 = some (s', 5) :=
  ⟨⟨rfl, rfl, rfl, by decide⟩, ⟨rfl, rfl⟩,
    (bread_again exDisk [] exOps sysInit exU exS1 1 5 5 rfl rfl rfl (by decide)).2⟩

/-! ## Every buffer is linked once -/

theorem binit_hashbucket (s : Bcache) :
    (binit s).hashbucket = (binit bcacheZero).hashbucket := by
  have h : ∀ (l : List Nat) (t t' : Bcache), t.hashbucket = t'.hashbucket →
      (l.foldl (fun t b =>
        { t with hashbucket := linkHead t.hashbucket (b % NBUCKETS) b }) t).hashbucket =
      (l.foldl (fun t b =>
        { t with hashbucket := linkHead t.hashbucket (b % NBUCKETS) b }) t').hashbucket := by
    intro l
    induction l with
    | nil => intro t t' h; exact h
    | cons x xs ih =>
      intro t t' h
      rw [List.foldl_cons, List.foldl_cons]
      apply ih
      show linkHead t.hashbucket (x % NBUCKETS) x = linkHead t'.hashbucket (x % NBUCKETS) x
      rw [h]
  unfold binit
  exact h _ _ _ rfl

theorem WF_linkedCount {s : Bcache} (hwf : WF s) : linkedCount s = NBUF := by
  obtain ⟨hnd, hlt, hall, hdisj⟩ := hwf
  have hL : ((List.range NBUCKETS).flatMap s.hashbucket).Nodup := by
    refine List.nodup_flatMap.2 ⟨fun i hi => hnd i (List.mem_range.1 hi), ?_⟩
    refine (List.nodup_range NBUCKETS).imp_of_mem ?_
    intro i₁ i₂ h₁ h₂ hne j hj₁ hj₂
    exact hne (hdisj i₁ (List.mem_range.1 h₁) i₂ (List.mem_range.1 h₂) j hj₁ hj₂)
  have hperm : ((List.range NBUCKETS).flatMap s.hashbucket).Perm (List.range NBUF) := by
    refine (List.perm_ext_iff_of_nodup hL (List.nodup_range NBUF)).2 ?_
    intro j
    rw [List.mem_flatMap, List.mem_range]
    constructor
    · rintro ⟨i, hi, hj⟩
      exact hlt i (List.mem_range.1 hi) j hj
    · intro hj
      obtain ⟨i, hi, hji⟩ := hall j hj
      exact ⟨i, List.mem_range.2 hi, hji⟩
  have hlen := hperm.length_eq
  rw [List.length_flatMap, List.length_range] at hlen
  exact hlen

/-- C14. `binit` puts buffer `k` (for `k < NBUF`) in bucket `k % 13`; and in every state
reached from `binit` by a sequence of `bread`, `brelse`, `bpin` and `bunpin` calls each of
the `NBUF` buffers is linked exactly once, in exactly one of the 13 bucket lists, and
the lengths of the lists sum to `NBUF`. -/
theorem buffers_linked_once (disk : Nat → Nat → Nat) (s : Bcache) (ops : List Op)
    (t : Sys) (h : calls disk ops sysInit = some t) :
    (∀ k, k < NBUF → k ∈ (binit s).hashbucket (k % NBUCKETS)) ∧
    WF t.cache ∧ linkedCount t.cache = NBUF := by
  have hwf : WF t.cache := (Inv_calls ops Inv_sysInit h).1
  refine ⟨?_, hwf, WF_linkedCount hwf⟩
  rw [binit_hashbucket]
  decide

theorem buffers_linked_once_witness :
    calls exDisk exOps { cache := exS1, held := [5] } = some exU ∧
    calls exDisk (Op.bread 1 5 :: exOps) sysInit = some exU ∧
    WF exU.cache ∧ linkedCount exU.cache = NBUF :=
  ⟨rfl, rfl,
    (buffers_linked_once exDisk bcacheZero (Op.bread 1 5 :: exOps) exU rfl).2⟩

/-! ## Referenced buffers sit in the bucket of their block number -/

theorem referenced_valid {disk : Nat → Nat → Nat} {t : Sys} (h : Reachable disk t) :
    ∀ j, (t.cache.buf j).refcnt ≠ 0 → (t.cache.buf j).valid = true := by
  induction h with
  | init =>
    intro j hj
    exfalso
    apply hj
    show ((binit bcacheZero).buf j).refcnt = 0
    rw [binit_buf]
    rfl
  | step t u hreach hstep ih =>
    have hinv := Inv_reachable hreach
    cases hstep with
    | callBread dev blockno s b hb =>
      obtain ⟨hagree, hvalid, _⟩ := bread_cases disk t.cache s dev blockno b hb
      intro j hj
      show (s.buf j).valid = true
      by_cases hjb : j = b
      · rw [hjb]; exact hvalid
      · rw [hagree j hjb]
        apply ih j
        have : (s.buf j).refcnt ≠ 0 := hj
        rw [hagree j hjb] at this
        exact this
    | callBrelse b s hmem hb =>
      rw [decide_eq_true hmem] at hb
      obtain ⟨hbuf, _⟩ := brelse_cases hb
      intro j hj
      show (s.buf j).valid = true
      rw [hbuf, (decref_fields t.cache b j).2.2]
      by_cases hjb : j = b
      · rw [hjb]; exact hinv.2.2.1 b hmem
      · apply ih j
        have : (s.buf j).refcnt ≠ 0 := hj
        rw [hbuf] at this
        simpa [decref, Function.update_noteq hjb] using this
    | callBpin b _ href =>
      intro j hj
      show ((incref t.cache b).buf j).valid = true
      rw [(incref_fields t.cache b j).2.2]
      by_cases hjb : j = b
      · rw [hjb]; exact ih b (by omega)
      · apply ih j
        have : ((incref t.cache b).buf j).refcnt ≠ 0 := hj
        simpa [incref, Function.update_noteq hjb] using this
    | callBunpin b _ href =>
      intro j hj
      show ((decref t.cache b).buf j).valid = true
      rw [(decref_fields t.cache b j).2.2]
      by_cases hjb : j = b
      · rw [hjb]; exact ih b (by omega)
      · apply ih j
        have : ((decref t.cache b).buf j).refcnt ≠ 0 := hj
        simpa [decref, Function.update_noteq hjb] using this

/-- C18, amended. In every cache state reached from `binit` by `bread`, `brelse` (on a
buffer the caller holds), `bpin` and `bunpin` (on a buffer with `refcnt >= 1`) calls,
every buffer with `refcnt != 0` (in particular `refcnt > 0`) and every buffer held is
linked in bucket `CalcHash(blockno)` of its own block number, the bucket that `brelse`,
`bpin` and `bunpin` lock and relink in; a buffer with `refcnt = 0` may sit in another
bucket, as buffer 1 does right after `binit`. -/
theorem referenced_in_own_bucket (disk : Nat → Nat → Nat) (t : Sys)
    (h : Reachable disk t) :
    (∀ j, (t.cache.buf j).refcnt ≠ 0 →
      j ∈ t.cache.hashbucket (CalcHash (t.cache.buf j).blockno)) ∧
    (∀ j ∈ t.held, j ∈ t.cache.hashbucket (CalcHash (t.cache.buf j).blockno)) ∧
    (1 ∈ (binit bcacheZero).hashbucket 1 ∧
      CalcHash ((binit bcacheZero).buf 1).blockno = 0) := by
  have hinv := Inv_reachable h
  refine ⟨fun j hj => hinv.2.1 j (referenced_valid h j hj),
    fun j hj => hinv.2.1 j (hinv.2.2.1 j hj), by decide, by decide⟩

theorem referenced_in_own_bucket_witness :
    Reachable exDisk { cache := exS2, held := [18, 5] } ∧
    (exS2.buf 18).refcnt ≠ 0 ∧
    18 ∈ exS2.hashbucket (CalcHash (exS2.buf 18).blockno) :=
  have hr : Reachable exDisk { cache := exS2, held := [18, 5] } :=
    Reachable.step _ _
      (Reachable.step _ _ Reachable.init (Step.callBread _ 1 5 exS1 5 rfl))
      (Step.callBread _ 1 18 exS2 18 rfl)
  ⟨hr, by decide, (referenced_in_own_bucket exDisk _ hr).1 18 (by decide)⟩

/-- C18, as stated, fails: after `binit`, `bpin` on buffer 1 leaves it with `refcnt = 1`
in bucket 1, while `CalcHash` of its block number 0 is bucket 0. -/
theorem bpin_outside_own_bucket :
    calls exDisk [Op.bpin 1] sysInit = some exPinned ∧
    0 < (exPinned.cache.buf 1).refcnt ∧
    1 ∈ exPinned.cache.hashbucket 1 ∧
    1 ∉ exPinned.cache.hashbucket (CalcHash (exPinned.cache.buf 1).blockno) :=
  ⟨rfl, by decide, by decide, by decide⟩

/-! ## The lock calls of `bget` -/

theorem bgetStealLocks_skip (s : Bcache) (h : Nat) (l₁ l₂ : List Nat)
    (hskip : ∀ i ∈ l₁, i = h ∨ lruFree s i = none) :
    ∃ pre, bgetStealLocks s h (l₁ ++ l₂) = pre ++ bgetStealLocks s h l₂ ∧
      ∀ held, locksHeld held pre = held := by
  induction l₁ with
  | nil => exact ⟨[], rfl, fun _ => rfl⟩
  | cons i rest ih =>
    obtain ⟨pre, hpre, hheld⟩ := ih (fun k hk => hskip k (List.mem_cons_of_mem _ hk))
    by_cases hih : i = h
    · exact ⟨pre, by simp [bgetStealLocks, hih, hpre], hheld⟩
    · have hi : lruFree s i = none := by
        rcases hskip i (List.mem_cons_self _ _) with h1 | h1
        · exact absurd h1 hih
        · exact h1
      refine ⟨LockEvent.acquire (Lock.bucket i) :: LockEvent.release (Lock.bucket i) :: pre,
        by simp [bgetStealLocks, hih, hi, hpre], ?_⟩
      intro held
      simp [locksHeld, hheld]

theorem locksHeld_append (held : List Lock) (l₁ l₂ : List LockEvent) :
    locksHeld held (l₁ ++ l₂) = locksHeld (locksHeld held l₁) l₂ := by
  induction l₁ generalizing held with
  | nil => rfl
  | cons e rest ih =>
    cases e with
    | acquire l => simp [locksHeld, ih]
    | release l => simp [locksHeld, ih]

/-- C17, amended. On the cross-bucket path of `bget` (the key is not in bucket
`h = CalcHash blockno`, that bucket has no buffer with `refcnt = 0`, and bucket `i` is
the lowest-numbered other bucket with one), the lock calls end with: acquire the lock of
the source bucket `i`, acquire the lock of the target bucket `h`, release the lock of
bucket `i`, release the lock of bucket `h`, release the eviction lock, then
`acquiresleep` on the buffer returned; before them exactly the eviction lock is held.
So the order of acquisition is eviction lock, source, target, and the order of release
is source, target, eviction lock. -/
theorem bget_steal_locks (s : Bcache) (dev blockno : Nat)
    (hmiss : ∀ a ∈ s.hashbucket (CalcHash blockno),
      ¬ ((s.buf a).dev = dev ∧ (s.buf a).blockno = blockno))
    (hbusy : ∀ a ∈ s.hashbucket (CalcHash blockno), (s.buf a).refcnt ≠ 0)
    (hother : ∃ i, i < NBUCKETS ∧ i ≠ CalcHash blockno ∧
      ∃ a ∈ s.hashbucket i, (s.buf a).refcnt = 0) :
    ∃ i b s' pre, i < NBUCKETS ∧ i ≠ CalcHash blockno ∧
      (∀ k, k < i → k ≠ CalcHash blockno → ∀ a ∈ s.hashbucket k, (s.buf a).refcnt ≠ 0) ∧
      b ∈ s.hashbucket i ∧ bget s dev blockno = some (s', b) ∧
      bgetLocks s dev blockno = pre ++
        [LockEvent.acquire (Lock.bucket i),
         LockEvent.acquire (Lock.bucket (CalcHash blockno)),
         LockEvent.release (Lock.bucket i),
         LockEvent.release (Lock.bucket (CalcHash blockno)),
         LockEvent.release Lock.eviction, LockEvent.acquire (Lock.sleep b)] ∧
      locksHeld [] pre = [Lock.eviction] := by
  classical
  let i := Nat.find hother
  have hi : i < NBUCKETS ∧ i ≠ CalcHash blockno ∧
      ∃ a ∈ s.hashbucket i, (s.buf a).refcnt = 0 := Nat.find_spec hother
  have hmin : ∀ k, k < i → k ≠ CalcHash blockno →
      ∀ a ∈ s.hashbucket k, (s.buf a).refcnt ≠ 0 := by
    intro k hk hkh a ha h0
    exact Nat.find_min hother hk ⟨lt_trans hk hi.1, hkh, a, ha, h0⟩
  have hfree : ∃ a ∈ s.hashbucket i, isFree s a = true := by
    obtain ⟨a, ha, hk⟩ := hi.2.2
    exact ⟨a, ha, by simp [isFree, hk]⟩
  obtain ⟨_, b, _, _, _, _, hf⟩ := find?_last _ _ hfree
  have hfi : lruFree s i = some b := hf
  obtain ⟨rest, hr⟩ := range_split NBUCKETS i hi.1
  have hskip : ∀ k ∈ List.range i, k = CalcHash blockno ∨ lruFree s k = none := by
    intro k hk
    by_cases hkh : k = CalcHash blockno
    · exact Or.inl hkh
    · exact Or.inr (lruFree_eq_none.2 (hmin k (List.mem_range.1 hk) hkh))
  have hl : lookup s (CalcHash blockno) dev blockno = none := lookup_eq_none.2 hmiss
  have hl2 : lruFree s (CalcHash blockno) = none := lruFree_eq_none.2 hbusy
  obtain ⟨pre, hpre, hheld⟩ :=
    bgetStealLocks_skip s (CalcHash blockno) (List.range i) (i :: rest) hskip
  refine ⟨i, b, recycle (relink s (CalcHash blockno) b) b dev blockno,
    [LockEvent.acquire (Lock.bucket (CalcHash blockno)),
     LockEvent.release (Lock.bucket (CalcHash blockno)),
     LockEvent.acquire Lock.eviction,
     LockEvent.acquire (Lock.bucket (CalcHash blockno)),
     LockEvent.release (Lock.bucket (CalcHash blockno))] ++ pre,
    hi.1, hi.2.1, hmin, (lruFree_some hfi).1, ?_, ?_, ?_⟩
  · simp only [bget, hl, hl2]
    rw [hr, bgetSteal_skip _ _ _ _ _ _ hskip]
    simp [bgetSteal, hi.2.1, hfi]
  · simp only [bgetLocks, hl, hl2]
    rw [hr, hpre]
    simp [bgetStealLocks, hi.2.1, hfi]
  · rw [locksHeld_append, hheld]
    simp [locksHeld]

theorem bget_steal_locks_witness :
    ((∀ a ∈ exS2.hashbucket (CalcHash 31),
        ¬ ((exS2.buf a).dev = 1 ∧ (exS2.buf a).blockno = 31)) ∧
      (∀ a ∈ exS2.hashbucket (CalcHash 31), (exS2.buf a).refcnt ≠ 0) ∧
      ∃ i, i < NBUCKETS ∧ i ≠ CalcHash 31 ∧ ∃ a ∈ exS2.hashbucket i, (exS2.buf a).refcnt = 0) ∧
    ∃ i b s' pre, i < NBUCKETS ∧ i ≠ CalcHash 31 ∧
      (∀ k, k < i → k ≠ CalcHash 31 → ∀ a ∈ exS2.hashbucket k, (exS2.buf a).refcnt ≠ 0) ∧
      b ∈ exS2.hashbucket i ∧ bget exS2 1 31 = some (s', b) ∧
      bgetLocks exS2 1 31 = pre ++
        [LockEvent.acquire (Lock.bucket i),
         LockEvent.acquire (Lock.bucket (CalcHash 31)),
         LockEvent.release (Lock.bucket i),
         LockEvent.release (Lock.bucket (CalcHash 31)),
         LockEvent.release Lock.eviction, LockEvent.acquire (Lock.sleep b)] ∧
      locksHeld [] pre = [Lock.eviction] :=
  ⟨⟨by decide, by decide, by decide⟩,
    bget_steal_locks exS2 1 31 (by decide) (by decide) (by decide)⟩

/-- C17, as stated, fails: on the cross-bucket path of `bget(1, 31)` in the sample state
(source bucket 0, target bucket 5) the lock of the source bucket is released before the
lock of the target bucket, so the releases are not in the reverse order of the
acquisitions `eviction, source, target`. -/
theorem bget_steal_release_order :
    bgetLocks exS2 1 31 =
      [LockEvent.acquire (Lock.bucket 5), LockEvent.release (Lock.bucket 5),
       LockEvent.acquire Lock.eviction,
       LockEvent.acquire (Lock.bucket 5), LockEvent.release (Lock.bucket 5),
       LockEvent.acquire (Lock.bucket 0), LockEvent.acquire (Lock.bucket 5),
       LockEvent.release (Lock.bucket 0), LockEvent.release (Lock.bucket 5),
       LockEvent.release Lock.eviction, LockEvent.acquire (Lock.sleep 0)] ∧
    ¬ ([LockEvent.release (Lock.bucket 5), LockEvent.release (Lock.bucket 0),
        LockEvent.release Lock.eviction] <:+: bgetLocks exS2 1 31) :=
  ⟨by decide, by decide⟩

end Bio

namespace Kalloc

/-! ## Chains of `next` pointers -/

theorem IsList_unique {next : Nat → Nat} {l₁ : List Nat} :
    ∀ {l₂ : List Nat} {p : Nat}, IsList next p l₁ → IsList next p l₂ → l₁ = l₂ := by
  induction l₁ with
  | nil =>
    intro l₂ p h₁ h₂
    cases l₂ with
    | nil => rfl
    | cons r t =>
      simp only [IsList] at h₁ h₂
      exact absurd (h₂.1 ▸ h₁) h₂.2.1
  | cons r t ih =>
    intro l₂ p h₁ h₂
    cases l₂ with
    | nil =>
      simp only [IsList] at h₁ h₂
      exact absurd (h₁.1 ▸ h₂) h₁.2.1
    | cons r' t' =>
      simp only [IsList] at h₁ h₂
      have hr : r = r' := h₁.1.symm.trans h₂.1
      subst hr
      rw [ih h₁.2.2 h₂.2.2]

theorem IsList_nil_iff {next : Nat → Nat} {p : Nat} {l : List Nat} (h : IsList next p l) :
    l = [] ↔ p = 0 := by
  cases l with
  | nil => simp only [IsList] at h; simp [h]
  | cons r t =>
    simp only [IsList] at h
    simp only [reduceCtorEq, false_iff]
    rw [h.1]
    exact h.2.1

theorem IsList_nonzero {next : Nat → Nat} {l : List Nat} :
    ∀ {p : Nat}, IsList next p l → 0 ∉ l := by
  induction l with
  | nil => intro p _; simp
  | cons r t ih =>
    intro p h
    simp only [IsList] at h
    intro hm
    rcases List.mem_cons.1 hm with h0 | h0
    · exact h.2.1 h0.symm
    · exact ih h.2.2 h0

theorem IsList_update {next : Nat → Nat} {l : List Nat} (a v : Nat) :
    ∀ {p : Nat}, IsList next p l → a ∉ l → IsList (Function.update next a v) p l := by
  induction l with
  | nil => intro p h _; simpa only [IsList] using h
  | cons r t ih =>
    intro p h ha
    simp only [IsList] at h ⊢
    have hra : r ≠ a := fun e => ha (by rw [e]; exact List.mem_cons_self _ _)
    rw [Function.update_noteq hra]
    exact ⟨h.1, h.2.1, ih h.2.2 (fun hm => ha (List.mem_cons_of_mem _ hm))⟩

/-- A free list is the sequence read off by the walk along `next`, given enough fuel. -/
theorem freeList_of_Repr {NCPU : Nat} {m : Kmems} {s : FreeLists} (hrep : Repr NCPU m s)
    {i : Nat} (hi : i < NCPU) (fuel : Nat) (hfuel : (s i).length ≤ fuel) :
    freeList m i fuel = s i := by
  have key : ∀ (l : List Nat) (fuel p : Nat), IsList m.next p l → l.length ≤ fuel →
      walkNext m.next fuel p = l := by
    intro l
    induction l with
    | nil =>
      intro fuel p h _
      simp only [IsList] at h
      cases fuel with
      | zero => rfl
      | succ f => simp [walkNext, h]
    | cons r t ih =>
      intro fuel p h hl
      simp only [IsList] at h
      cases fuel with
      | zero => simp at hl
      | succ f =>
        have hp : p ≠ 0 := by rw [h.1]; exact h.2.1
        simp only [walkNext, hp, ↓reduceIte]
        rw [h.1, ih f (m.next r) h.2.2 (by simpa using hl)]
  exact key (s i) fuel (m.freelist i) (hrep i hi) hfuel

/-- The sequences that represent the free lists of a state are determined by it. -/
theorem Repr_unique {NCPU : Nat} {m : Kmems} {s₁ s₂ : FreeLists}
    (h₁ : Repr NCPU m s₁) (h₂ : Repr NCPU m s₂) : ∀ i, i < NCPU → s₁ i = s₂ i :=
  fun i hi => IsList_unique (h₁ i hi) (h₂ i hi)

theorem Repr_empty_iff {NCPU : Nat} {m : Kmems} {s : FreeLists} (h : Repr NCPU m s)
    {i : Nat} (hi : i < NCPU) : s i = [] ↔ m.freelist i = 0 :=
  IsList_nil_iff (h i hi)

theorem Repr_head {NCPU : Nat} {m : Kmems} {s : FreeLists} (h : Repr NCPU m s)
    {i : Nat} (hi : i < NCPU) (h0 : m.freelist i ≠ 0) :
    ∃ tail, s i = m.freelist i :: tail := by
  have hrep := h i hi
  cases hsi : s i with
  | nil => exact absurd ((Repr_empty_iff h hi).1 hsi) h0
  | cons r tail =>
    rw [hsi] at hrep
    simp only [IsList] at hrep
    exact ⟨tail, by rw [hrep.1]⟩

/-- Putting a page that is on no free list at the head of the list of core `c`. -/
theorem Repr_push {NCPU : Nat} {m : Kmems} {s : FreeLists} {pa c : Nat}
    (hrep : Repr NCPU m s) (hc : c < NCPU) (h0 : pa ≠ 0)
    (hfresh : ∀ i, i < NCPU → pa ∉ s i) :
    Repr NCPU { freelist := Function.update m.freelist c pa,
                next := Function.update m.next pa (m.freelist c) }
      (Function.update s c (pa :: s c)) := by
  intro i hi
  by_cases hic : i = c
  · subst hic
    simp only [Function.update_same, IsList]
    exact ⟨trivial, h0, IsList_update _ _ (hrep i hi) (hfresh i hi)⟩
  · simp only [Function.update_noteq hic]
    exact IsList_update _ _ (hrep i hi) (hfresh i hi)

/-- Taking the head page off the list of core `i`, when no page is twice on the lists. -/
theorem Repr_pop {NCPU : Nat} {m : Kmems} {s : FreeLists} {i r : Nat} {tail : List Nat}
    (hrep : Repr NCPU m s) (hdis : Distinct NCPU s) (hi : i < NCPU)
    (hsi : s i = r :: tail) :
    m.freelist i = r ∧ Repr NCPU (kallocPop m i) (Function.update s i tail) := by
  have hri := hrep i hi
  rw [hsi] at hri
  simp only [IsList] at hri
  obtain ⟨hhead, _, htail⟩ := hri
  have hnd : (r :: tail).Nodup := hsi ▸ hdis.1 i hi
  have hrt : r ∉ tail := (List.nodup_cons.1 hnd).1
  refine ⟨hhead, ?_⟩
  intro k hk
  by_cases hki : k = i
  · subst hki
    simp only [kallocPop, Function.update_same, hhead]
    exact IsList_update _ _ htail hrt
  · simp only [kallocPop, Function.update_noteq hki, hhead]
    refine IsList_update _ _ (hrep k hk) ?_
    intro hm
    have hrm : r ∈ s i := by rw [hsi]; exact List.mem_cons_self _ _
    exact hki (hdis.2 k hk i hi r hm hrm)

theorem Distinct_pop {NCPU : Nat} {s : FreeLists} {i r : Nat} {tail : List Nat}
    (hdis : Distinct NCPU s) (hsi : s i = r :: tail) :
    Distinct NCPU (Function.update s i tail) := by
  have hsub : ∀ k a, a ∈ Function.update s i tail k → a ∈ s k := by
    intro k a ha
    by_cases hki : k = i
    · subst hki
      rw [Function.update_same] at ha
      rw [hsi]
      exact List.mem_cons_of_mem _ ha
    · rwa [Function.update_noteq hki] at ha
  refine ⟨?_, ?_⟩
  · intro k hk
    by_cases hki : k = i
    · subst hki
      rw [Function.update_same]
      have := hdis.1 k hk
      rw [hsi] at this
      exact (List.nodup_cons.1 this).2
    · rw [Function.update_noteq hki]
      exact hdis.1 k hk
  · intro k hk j hj a hak haj
    exact hdis.2 k hk j hj a (hsub k a hak) (hsub j a haj)

theorem Distinct_push {NCPU : Nat} {s : FreeLists} {pa c : Nat}
    (hdis : Distinct NCPU s) (hfresh : ∀ i, i < NCPU → pa ∉ s i) :
    Distinct NCPU (Function.update s c (pa :: s c)) := by
  have hcase : ∀ k, k < NCPU → ∀ a, a ∈ Function.update s c (pa :: s c) k →
      (a = pa ∧ k = c) ∨ (a ≠ pa ∧ a ∈ s k) := by
    intro k hk a ha
    by_cases hkc : k = c
    · subst hkc
      rw [Function.update_same] at ha
      rcases List.mem_cons.1 ha with h | h
      · exact Or.inl ⟨h, rfl⟩
      · exact Or.inr ⟨fun e => hfresh k hk (e ▸ h), h⟩
    · rw [Function.update_noteq hkc] at ha
      exact Or.inr ⟨fun e => hfresh k hk (e ▸ ha), ha⟩
  refine ⟨?_, ?_⟩
  · intro k hk
    by_cases hkc : k = c
    · subst hkc
      rw [Function.update_same]
      exact List.nodup_cons.2 ⟨hfresh k hk, hdis.1 k hk⟩
    · rw [Function.update_noteq hkc]
      exact hdis.1 k hk
  · intro k hk j hj a hak haj
    rcases hcase k hk a hak with ⟨_, h1⟩ | ⟨hne, h1⟩
    · rcases hcase j hj a haj with ⟨_, h2⟩ | ⟨hne, _⟩
      · rw [h1, h2]
      · exact absurd (by assumption) hne
    · rcases hcase j hj a haj with ⟨he, _⟩ | ⟨_, h2⟩
      · exact absurd he hne
      · exact hdis.2 k hk j hj a h1 h2

/-! ## The search of `kalloc` -/

theorem kallocSteal_cases (m : Kmems) (c : Nat) (l : List Nat) :
    ((∀ i ∈ l, i = c ∨ m.freelist i = 0) ∧ kallocSteal m c l = (m, 0) ∧
      kallocStealReads m c l = l.filter (fun i => decide (i ≠ c))) ∨
    (∃ pre i post, l = pre ++ i :: post ∧ i ≠ c ∧ m.freelist i ≠ 0 ∧
      (∀ k ∈ pre, k = c ∨ m.freelist k = 0) ∧
      kallocSteal m c l = (kallocPop m i, m.freelist i)) := by
  induction l with
  | nil => left; simp [kallocSteal, kallocStealReads]
  | cons x xs ih =>
    by_cases hx : x = c
    · rcases ih with ⟨hall, hres, hreads⟩ | ⟨pre, i, post, he, hic, hsi, hpre, hres⟩
      · left
        refine ⟨?_, by simp [kallocSteal, hx, hres], by simp [kallocStealReads, hx, hreads]⟩
        intro i hi
        rcases List.mem_cons.1 hi with rfl | hi
        · exact Or.inl hx
        · exact hall i hi
      · right
        refine ⟨x :: pre, i, post, by simp [he], hic, hsi, ?_,
          by simp [kallocSteal, hx, hres]⟩
        intro k hk
        rcases List.mem_cons.1 hk with rfl | hk
        · exact Or.inl hx
        · exact hpre k hk
    · by_cases hsx : m.freelist x = 0
      · rcases ih with ⟨hall, hres, hreads⟩ | ⟨pre, i, post, he, hic, hsi, hpre, hres⟩
        · left
          refine ⟨?_, by simp [kallocSteal, hx, hsx, hres],
            by simp [kallocStealReads, hx, hsx, hreads]⟩
          intro i hi
          rcases List.mem_cons.1 hi with rfl | hi
          · exact Or.inr hsx
          · exact hall i hi
        · right
          refine ⟨x :: pre, i, post, by simp [he], hic, hsi, ?_,
            by simp [kallocSteal, hx, hsx, hres]⟩
          intro k hk
          rcases List.mem_cons.1 hk with rfl | hk
          · exact Or.inr hsx
          · exact hpre k hk
      · right
        exact ⟨[], x, xs, rfl, hx, hsx, by simp, by simp [kallocSteal, hx, hsx]⟩

theorem range_prefix {n i : Nat} {pre post : List Nat}
    (he : List.range n = pre ++ i :: post) : i < n ∧ ∀ k, k < i → k ∈ pre := by
  have hi : i ∈ List.range n := by rw [he]; simp
  refine ⟨List.mem_range.1 hi, ?_⟩
  intro k hk
  have hsorted : (List.range n).Pairwise (· < ·) := List.pairwise_lt_range n
  rw [he] at hsorted
  have hkn : k ∈ List.range n := List.mem_range.2 (lt_trans hk (List.mem_range.1 hi))
  rw [he] at hkn
  rcases List.mem_append.1 hkn with h | h
  · exact h
  · exfalso
    obtain ⟨_, h2, _⟩ := List.pairwise_append.1 hsorted
    rcases List.mem_cons.1 h with rfl | h'
    · exact lt_irrefl _ hk
    · have := (List.pairwise_cons.1 h2).1 k h'
      omega

/-- The ways through `kalloc`: the head page of the own list, the head page of the first
other core with a page, or nothing. -/
theorem kalloc_cases (NCPU : Nat) (m : Kmems) (c : Nat) :
    (m.freelist c ≠ 0 ∧ kalloc NCPU m c = (kallocPop m c, m.freelist c)) ∨
    (m.freelist c = 0 ∧ ∃ i, i < NCPU ∧ i ≠ c ∧ m.freelist i ≠ 0 ∧
      (∀ k, k < i → k ≠ c → m.freelist k = 0) ∧
      kalloc NCPU m c = (kallocPop m i, m.freelist i)) ∨
    (m.freelist c = 0 ∧ (∀ i, i < NCPU → i ≠ c → m.freelist i = 0) ∧
      kalloc NCPU m c = (m, 0) ∧
      kallocReads NCPU m c = c :: (List.range NCPU).filter (fun i => decide (i ≠ c))) := by
  by_cases hc : m.freelist c = 0
  · right
    rcases kallocSteal_cases m c (List.range NCPU) with ⟨hall, hres, hreads⟩ |
      ⟨pre, i, post, he, hic, hsi, hpre, hres⟩
    · right
      refine ⟨hc, ?_, by simp [kalloc, hc, hres], by simp [kallocReads, hc, hreads]⟩
      intro i hi hic
      rcases hall i (List.mem_range.2 hi) with h | h
      · exact absurd h hic
      · exact h
    · left
      obtain ⟨hi, hlt⟩ := range_prefix he
      refine ⟨hc, i, hi, hic, hsi, ?_, by simp [kalloc, hc, hres]⟩
      intro k hk hkc
      rcases hpre k (hlt k hk) with h | h
      · exact absurd h hkc
      · exact h
  · left
    exact ⟨hc, by simp [kalloc, hc]⟩

/-- C5. For a calling core `c < NCPU`, in every state, `kalloc` returns 0 exactly when
the pointers `freelist` of all `NCPU` cores are null, that is when the free lists of all
cores are empty; in that case it has read the list of `c` and then of every other core
once each, and it leaves the state as it was.  (`kalloc` is a total function with no
panic outcome.) -/
theorem kalloc_fail_iff (NCPU : Nat) (m : Kmems) (c : Nat) (hc : c < NCPU) :
    ((kalloc NCPU m c).2 = 0 ↔ ∀ i, i < NCPU → m.freelist i = 0) ∧
    (∀ s : FreeLists, Repr NCPU m s →
      ((kalloc NCPU m c).2 = 0 ↔ ∀ i, i < NCPU → s i = [])) ∧
    ((∀ i, i < NCPU → m.freelist i = 0) →
      (kalloc NCPU m c).1 = m ∧
      kallocReads NCPU m c = c :: (List.range NCPU).filter (fun i => decide (i ≠ c)) ∧
      (kallocReads NCPU m c).Nodup ∧ (kallocReads NCPU m c).length = NCPU ∧
      ∀ i ∈ kallocReads NCPU m c, i < NCPU) := by
  have hreads : ∀ l : List Nat, l = c :: (List.range NCPU).filter (fun i => decide (i ≠ c)) →
      l.Nodup ∧ l.length = NCPU ∧ ∀ i ∈ l, i < NCPU := by
    intro l hl
    subst hl
    have hperm : (c :: (List.range NCPU).filter (fun i => decide (i ≠ c))).Perm
        (List.range NCPU) := by
      have h1 : (c :: (List.range NCPU).erase c).Perm (List.range NCPU) :=
        (List.perm_cons_erase (List.mem_range.2 hc)).symm
      have h2 : (List.range NCPU).erase c =
          (List.range NCPU).filter (fun i => decide (i ≠ c)) := by
        rw [(List.nodup_range NCPU).erase_eq_filter]
        apply List.filter_congr
        intro x _
        by_cases hxc : x = c <;> simp [hxc]
      rw [← h2]
      exact h1
    refine ⟨hperm.nodup_iff.2 (List.nodup_range NCPU), ?_, ?_⟩
    · rw [hperm.length_eq, List.length_range]
    · intro i hi
      exact List.mem_range.1 (hperm.mem_iff.1 hi)
  have hiff : (kalloc NCPU m c).2 = 0 ↔ ∀ i, i < NCPU → m.freelist i = 0 := by
    rcases kalloc_cases NCPU m c with ⟨h0, hres⟩ | ⟨_, i, hi, _, h0, _, hres⟩ |
      ⟨hsc, hall, hres, _⟩
    · rw [hres]
      exact ⟨fun h => absurd h h0, fun h => absurd (h c hc) h0⟩
    · rw [hres]
      exact ⟨fun h => absurd h h0, fun h => absurd (h i hi) h0⟩
    · rw [hres]
      refine ⟨fun _ i hi => ?_, fun _ => rfl⟩
      by_cases hic : i = c
      · rw [hic]; exact hsc
      · exact hall i hi hic
  refine ⟨hiff, ?_, ?_⟩
  · intro s hrep
    rw [hiff]
    constructor
    · intro h i hi
      exact (Repr_empty_iff hrep hi).2 (h i hi)
    · intro h i hi
      exact (Repr_empty_iff hrep hi).1 (h i hi)
  · intro hnull
    rcases kalloc_cases NCPU m c with ⟨h0, _⟩ | ⟨_, i, hi, _, h0, _, _⟩ |
      ⟨_, _, hres, hrd⟩
    · exact absurd (hnull c hc) h0
    · exact absurd (hnull i hi) h0
    · obtain ⟨h1, h2, h3⟩ := hreads _ hrd
      exact ⟨by rw [hres], hrd, h1, h2, h3⟩

theorem freePages_succ (n : Nat) (s : FreeLists) :
    freePages (n + 1) s = freePages n s + (s n).length := by
  simp [freePages, List.range_succ]

theorem freePages_update_ge (n : Nat) (s : FreeLists) (i : Nat) (l : List Nat) (h : n ≤ i) :
    freePages n (Function.update s i l) = freePages n s := by
  induction n with
  | zero => rfl
  | succ n ih =>
    have hne : n ≠ i := by omega
    rw [freePages_succ, freePages_succ, ih (by omega), Function.update_noteq hne]

theorem freePages_update (n : Nat) (s : FreeLists) (i : Nat) (l : List Nat) (h : i < n) :
    freePages n (Function.update s i l) + (s i).length = freePages n s + l.length := by
  induction n with
  | zero => omega
  | succ n ih =>
    rw [freePages_succ, freePages_succ]
    rcases Nat.lt_succ_iff_lt_or_eq.1 h with hlt | rfl
    · have hne : n ≠ i := by omega
      rw [Function.update_noteq hne]
      have := ih hlt
      omega
    · rw [freePages_update_ge _ _ _ _ (le_refl _), Function.update_same]
      omega

theorem freePages_congr (n : Nat) (s₁ s₂ : FreeLists) (h : ∀ i, i < n → s₁ i = s₂ i) :
    freePages n s₁ = freePages n s₂ := by
  induction n with
  | zero => rfl
  | succ n ih =>
    rw [freePages_succ, freePages_succ, ih (fun i hi => h i (by omega)), h n (by omega)]

theorem kfree_bycpu_some {kend PHYSTOP : Nat} {m m' : Kmems} {pa cpu_id : Nat}
    (h : kfree_bycpu kend PHYSTOP m pa cpu_id = some m') :
    m' = { freelist := Function.update m.freelist cpu_id pa,
           next := Function.update m.next pa (m.freelist cpu_id) } ∧
      pa % PGSIZE = 0 ∧ kend ≤ pa ∧ pa < PHYSTOP := by
  unfold kfree_bycpu at h
  split at h
  · cases h
  · rename_i hc
    simp only [Option.some.injEq] at h
    refine ⟨h.symm, ?_⟩
    omega

theorem conserved_step {NCPU kend PHYSTOP n : Nat} {t u : Sys} {s : FreeLists}
    (hinv : Conserved NCPU n t s) (h : Step NCPU kend PHYSTOP t u) :
    ∃ s', Conserved NCPU n u s' := by
  obtain ⟨hrep, hdis, hnd, hna, hfa, hsum⟩ := hinv
  cases h with
  | callKalloc c hc =>
    have key : ∀ i, i < NCPU → t.kmems.freelist i ≠ 0 →
        kalloc NCPU t.kmems c = (kallocPop t.kmems i, t.kmems.freelist i) →
        ∃ s', Conserved NCPU n
          { kmems := (kalloc NCPU t.kmems c).1,
            allocated := if (kalloc NCPU t.kmems c).2 = 0 then t.allocated
                         else (kalloc NCPU t.kmems c).2 :: t.allocated } s' := by
      intro i hi h0 hres
      obtain ⟨tail, hsi⟩ := Repr_head hrep hi h0
      obtain ⟨_, hpop⟩ := Repr_pop hrep hdis hi hsi
      have hmem : t.kmems.freelist i ∈ s i := by rw [hsi]; exact List.mem_cons_self _ _
      have hrt : t.kmems.freelist i ∉ tail := by
        have := hdis.1 i hi
        rw [hsi] at this
        exact (List.nodup_cons.1 this).1
      refine ⟨Function.update s i tail, ?_⟩
      unfold Conserved
      rw [hres]
      simp only [h0, ↓reduceIte, List.length_cons]
      refine ⟨hpop, Distinct_pop hdis hsi, List.nodup_cons.2 ⟨hfa i hi _ hmem, hnd⟩,
        ?_, ?_, ?_⟩
      · intro hm
        rcases List.mem_cons.1 hm with h | h
        · exact h0 h.symm
        · exact hna h
      · intro k hk a ha hm
        by_cases hki : k = i
        · subst hki
          rw [Function.update_same] at ha
          rcases List.mem_cons.1 hm with h | h
          · exact hrt (h ▸ ha)
          · exact hfa k hk a (by rw [hsi]; exact List.mem_cons_of_mem _ ha) h
        · rw [Function.update_noteq hki] at ha
          rcases List.mem_cons.1 hm with h | h
          · exact hki (hdis.2 k hk i hi a ha (h ▸ hmem))
          · exact hfa k hk a ha h
      · have := freePages_update NCPU s i tail hi
        rw [hsi, List.length_cons] at this
        omega
    rcases kalloc_cases NCPU t.kmems c with ⟨h0, hres⟩ | ⟨_, i, hi, _, h0, _, hres⟩ |
      ⟨_, _, hres, _⟩
    · exact key c hc h0 hres
    · exact key i hi h0 hres
    · refine ⟨s, ?_⟩
      unfold Conserved
      rw [hres]
      exact ⟨hrep, hdis, by simpa using hnd, by simpa using hna, by simpa using hfa,
        by simpa using hsum⟩
  | callKfree pa c m hc hpa hfree =>
    obtain ⟨hm, _, _, _⟩ := kfree_bycpu_some hfree
    have hpa0 : pa ≠ 0 := fun h0 => hna (h0 ▸ hpa)
    have hfresh : ∀ i, i < NCPU → pa ∉ s i := fun i hi hm' => hfa i hi pa hm' hpa
    refine ⟨Function.update s c (pa :: s c), ?_⟩
    unfold Conserved
    subst hm
    refine ⟨Repr_push hrep hc hpa0 hfresh, Distinct_push hdis hfresh, hnd.erase pa,
      fun hm' => hna (List.mem_of_mem_erase hm'), ?_, ?_⟩
    · intro k hk a ha hm'
      by_cases hkc : k = c
      · subst hkc
        rw [Function.update_same] at ha
        rcases List.mem_cons.1 ha with h | h
        · subst h
          exact (List.Nodup.not_mem_erase hnd) hm'
        · exact hfa k hk a h (List.mem_of_mem_erase hm')
      · rw [Function.update_noteq hkc] at ha
        exact hfa k hk a ha (List.mem_of_mem_erase hm')
    · have h1 := freePages_update NCPU s c (pa :: s c) hc
      have h2 := List.length_erase_of_mem hpa
      have h3 : 0 < t.allocated.length := List.length_pos_of_mem hpa
      rw [List.length_cons] at h1
      show freePages NCPU (Function.update s c (pa :: s c)) +
        (t.allocated.erase pa).length = n
      omega

  | store a v s₁ hrep₁ hfresh₁ =>
    refine ⟨s, ?_, hdis, hnd, hna, hfa, hsum⟩
    intro i hi
    refine IsList_update a v (hrep i hi) ?_
    rw [Repr_unique hrep hrep₁ i hi]
    exact hfresh₁ i hi

theorem conserved_reachable {NCPU kend PHYSTOP : Nat} {m0 : Kmems} {s0 : FreeLists} {t : Sys}
    (hrep : Repr NCPU m0 s0) (hdis : Distinct NCPU s0)
    (h : Reachable NCPU kend PHYSTOP m0 t) :
    ∃ s, Conserved NCPU (freePages NCPU s0) t s := by
  induction h with
  | init =>
    exact ⟨s0, hrep, hdis, List.nodup_nil, by simp, by simp, by simp⟩
  | step t u _ hstep ih =>
    obtain ⟨s, hs⟩ := ih
    exact conserved_step hs hstep

/-! ## The free lists that `freerange` builds -/

theorem freerangePages_lists {NCPU kend PHYSTOP c : Nat} (hend : 0 < kend) (hc : c < NCPU)
    (n : Nat) :
    ∀ (m : Kmems) (s : FreeLists) (p P : Nat) (st : Kmems × Nat),
      Repr NCPU m s → Distinct NCPU s → (∀ i, i < NCPU → ∀ a ∈ s i, a < P) →
      P ≤ 2 ^ 64 → p = P % 2 ^ 64 →
      freerangePages kend PHYSTOP c n (m, p) = some st →
      ∃ (s' : FreeLists) (P' : Nat), Repr NCPU st.1 s' ∧ Distinct NCPU s' ∧
        (∀ i, i < NCPU → ∀ a ∈ s' i, a < P') ∧ P' ≤ 2 ^ 64 ∧ st.2 = P' % 2 ^ 64 ∧
        ∀ i, (s' i).length = (s i).length + if i = c then n else 0 := by
  have hG : PGSIZE = 4096 := rfl
  have hM : (2 : Nat) ^ 64 = 18446744073709551616 := by norm_num
  induction n with
  | zero =>
    intro m s p P st hrep hdis hb hP hp h
    simp only [freerangePages, Option.some.injEq] at h
    subst h
    exact ⟨s, P, hrep, hdis, hb, hP, hp, fun i => by simp⟩
  | succ n ih =>
    intro m s p P st hrep hdis hb hP hp h
    simp only [freerangePages] at h
    cases hf : kfree_bycpu kend PHYSTOP m p c with
    | none => rw [hf] at h; cases h
    | some m' =>
      rw [hf] at h
      obtain ⟨hm', hal, hge, _⟩ := kfree_bycpu_some hf
      have hPlt : P < 2 ^ 64 := by
        rcases Nat.lt_or_ge P (2 ^ 64) with hlt | hge'
        · exact hlt
        · exfalso
          have hPe : P = 2 ^ 64 := le_antisymm hP hge'
          rw [hPe, Nat.mod_self] at hp
          omega
      have hpP : p = P := by rw [hp]; exact Nat.mod_eq_of_lt hPlt
      subst hpP
      have hfresh : ∀ i, i < NCPU → p ∉ s i := fun i hi hm => lt_irrefl _ (hb i hi p hm)
      have hrep' : Repr NCPU m' (Function.update s c (p :: s c)) := by
        rw [hm']
        exact Repr_push hrep hc (by omega) hfresh
      have hb' : ∀ i, i < NCPU → ∀ a ∈ Function.update s c (p :: s c) i,
          a < p + PGSIZE := by
        intro i hi a ha
        by_cases hic : i = c
        · subst hic
          rw [Function.update_same] at ha
          rcases List.mem_cons.1 ha with h1 | h1
          · rw [h1, hG]; omega
          · have := hb i hi a h1
            omega
        · rw [Function.update_noteq hic] at ha
          have := hb i hi a ha
          omega
      have hP' : p + PGSIZE ≤ 2 ^ 64 := by
        rw [hG, hM] at *
        omega
      obtain ⟨s', P', h1, h2, h3, h4, h5, h6⟩ :=
        ih m' (Function.update s c (p :: s c)) ((p + PGSIZE) % 2 ^ 64) (p + PGSIZE) st
          hrep' (Distinct_push hdis hfresh) hb' hP' rfl h
      refine ⟨s', P', h1, h2, h3, h4, h5, ?_⟩
      intro i
      rw [h6 i]
      by_cases hic : i = c
      · subst hic
        simp only [Function.update_same, List.length_cons, ↓reduceIte]
        omega
      · simp [Function.update_noteq hic, hic]

theorem freerangeCores_lists {NCPU kend PHYSTOP single : Nat} (hend : 0 < kend)
    (cnt : Nat) :
    ∀ (k e : Nat) (m : Kmems) (s : FreeLists) (p P : Nat) (st : Kmems × Nat),
      k + cnt ≤ NCPU →
      Repr NCPU m s → Distinct NCPU s → (∀ i, i < NCPU → ∀ a ∈ s i, a < P) →
      P ≤ 2 ^ 64 → p = P % 2 ^ 64 →
      freerangeCores kend PHYSTOP single (List.range' k cnt) e (m, p) = some st →
      ∃ (s' : FreeLists) (P' : Nat), Repr NCPU st.1 s' ∧ Distinct NCPU s' ∧
        (∀ i, i < NCPU → ∀ a ∈ s' i, a < P') ∧ P' ≤ 2 ^ 64 ∧ st.2 = P' % 2 ^ 64 ∧
        ∀ i, (s' i).length = (s i).length +
          if k ≤ i ∧ i < k + cnt then single + (if i - k < e then 1 else 0) else 0 := by
  induction cnt with
  | zero =>
    intro k e m s p P st _ hrep hdis hb hP hp h
    simp only [List.range'_zero, freerangeCores, Option.some.injEq] at h
    subst h
    exact ⟨s, P, hrep, hdis, hb, hP, hp, fun i => by simp⟩
  | succ cnt ih =>
    intro k e m s p P st hk hrep hdis hb hP hp h
    rw [List.range'_succ] at h
    simp only [freerangeCores] at h
    cases hf : freerangePages kend PHYSTOP k (if e > 0 then single + 1 else single)
        (m, p) with
    | none => rw [hf] at h; cases h
    | some st₁ =>
      rw [hf] at h
      obtain ⟨s₁, P₁, h1, h2, h3, h4, h5, h6⟩ :=
        freerangePages_lists hend (by omega : k < NCPU) _ m s p P st₁ hrep hdis hb hP hp hf
      obtain ⟨s', P', g1, g2, g3, g4, g5, g6⟩ :=
        ih (k + 1) _ st₁.1 s₁ st₁.2 P₁ st (by omega) h1 h2 h3 h4 h5 h
      refine ⟨s', P', g1, g2, g3, g4, g5, ?_⟩
      intro i
      rw [g6 i, h6 i]
      by_cases he : e > 0
      · simp only [he, ↓reduceIte]
        split_ifs <;> omega
      · simp only [he, ↓reduceIte]
        split_ifs <;> omega

theorem PGROUNDUP_lt (sz : Nat) : PGROUNDUP sz < 2 ^ 64 := by
  unfold PGROUNDUP
  have h1 : (sz + PGSIZE - 1) % 2 ^ 64 < 2 ^ 64 := Nat.mod_lt _ (Nat.two_pow_pos 64)
  have h2 := Nat.div_mul_le_self ((sz + PGSIZE - 1) % 2 ^ 64) PGSIZE
  omega

/-- From null `freelist` pointers (and with `end` above address 0, so that no page is the
null pointer) `freerange` builds free lists on which no page is twice, with the lengths
of its page counts. -/
theorem freerange_lists {NCPU kend PHYSTOP pa_start pa_end : Nat} {m m' : Kmems}
    (hend : 0 < kend) (hempty : ∀ i, i < NCPU → m.freelist i = 0)
    (h : freerange NCPU kend PHYSTOP m pa_start pa_end = some m') :
    ∃ s : FreeLists, Repr NCPU m' s ∧ Distinct NCPU s ∧
      ∀ i, i < NCPU → (s i).length =
        (pa_end + 2 ^ 64 - pa_start) % 2 ^ 64 / PGSIZE / NCPU +
          if i < (pa_end + 2 ^ 64 - pa_start) % 2 ^ 64 / PGSIZE % NCPU then 1 else 0 := by
  simp only [freerange, Option.map_eq_some'] at h
  obtain ⟨st, hst, rfl⟩ := h
  rw [List.range_eq_range'] at hst
  have hrep0 : Repr NCPU m (fun _ => []) := by
    intro i hi
    simp only [IsList]
    exact hempty i hi
  have hdis0 : Distinct NCPU (fun _ => []) :=
    ⟨fun _ _ => List.nodup_nil, fun _ _ _ _ a ha => by simp at ha⟩
  obtain ⟨s, P, h1, h2, _, _, _, h6⟩ :=
    freerangeCores_lists hend NCPU 0 _ m (fun _ => []) (PGROUNDUP pa_start)
      (PGROUNDUP pa_start) st (by omega) hrep0 hdis0 (fun _ _ a ha => by simp at ha)
      (le_of_lt (PGROUNDUP_lt _)) (Nat.mod_eq_of_lt (PGROUNDUP_lt _)).symm hst
  refine ⟨s, h1, h2, ?_⟩
  intro i hi
  rw [h6 i]
  simp [hi]

theorem kinit_lists {NCPU kend PHYSTOP : Nat} {mem : Nat → Nat} {m0 : Kmems}
    (hend : 0 < kend) (h : kinit NCPU kend PHYSTOP mem = some m0) :
    ∃ s0 : FreeLists, Repr NCPU m0 s0 ∧ Distinct NCPU s0 := by
  obtain ⟨s0, h1, h2, _⟩ := freerange_lists hend (fun _ _ => rfl) h
  exact ⟨s0, h1, h2⟩

/-- C3, amended. After `kinit` (with the kernel image ending above address 0) has
returned, and after any sequence of `kalloc` calls and of `kfree` calls each on a page
that `kalloc` returned and that was not freed since (with any stores of the callers to
memory outside the free pages in between), the free lists of the state are sequences of
pages whose lengths over the `NCPU` cores, added to the number of pages returned by
`kalloc` and not yet freed, give the number of pages that `kinit` put on the free
lists. -/
theorem pages_conserved (NCPU kend PHYSTOP : Nat) (mem : Nat → Nat) (m0 : Kmems) (t : Sys)
    (hend : 0 < kend) (hinit : kinit NCPU kend PHYSTOP mem = some m0)
    (h : Reachable NCPU kend PHYSTOP m0 t) :
    ∃ s0 s : FreeLists, Repr NCPU m0 s0 ∧ Repr NCPU t.kmems s ∧
      freePages NCPU s + t.allocated.length = freePages NCPU s0 := by
  obtain ⟨s0, hrep, hdis⟩ := kinit_lists hend hinit
  obtain ⟨s, hs⟩ := conserved_reachable hrep hdis h
  exact ⟨s0, s, hrep, hs.1, hs.2.2.2.2.2⟩

theorem pages_conserved_witness :
    (0 < 4096 ∧ kinit 2 4096 24576 (fun _ => 0) = some exK0 ∧
      Reachable 2 4096 24576 exK0 exT2) ∧
    (∃ s0 s : FreeLists, Repr 2 exK0 s0 ∧ Repr 2 exT2.kmems s ∧
      freePages 2 s + exT2.allocated.length = freePages 2 s0) ∧
    Repr 2 exK0 exL0 ∧ Repr 2 exT2.kmems exLT2 ∧
    freePages 2 exLT2 + exT2.allocated.length = 5 ∧ freePages 2 exL0 = 5 :=
  have hr : Reachable 2 4096 24576 exK0 exT2 :=
    Reachable.step _ _
      (Reachable.step _ exT1 Reachable.init (Step.callKalloc _ 1 (by decide)))
      (Step.callKfree exT1 20480 0 _ (by decide) (by decide) rfl)
  ⟨⟨by decide, rfl, hr⟩,
    pages_conserved 2 4096 24576 (fun _ => 0) exK0 exT2 (by decide) rfl hr,
    by decide, by decide, by decide, by decide⟩

/-- C3, as stated, fails: `kfree` accepts a page that is not allocated.  After `kinit`
with 2 cores and 5 pages (3 on the list of core 0, 2 on the list of core 1) and no
`kalloc`, the call `kfree(4096)` on core 1 passes the check and links page 4096, the
last of the list of core 0, in front of the list of core 1: the list of core 0 now runs
on through the list of core 1, the lengths of the two lists are 5 and 3, and their sum 8,
with no page allocated, is not the 5 pages of the initialization. -/
theorem kfree_free_page_count :
    kinit 2 4096 24576 (fun _ => 0) = some exK0 ∧ Repr 2 exK0 exL0 ∧
    freePages 2 exL0 = 5 ∧
    kfree 4096 24576 exK0 4096 1 = some exK0free ∧ Repr 2 exK0free exL0free ∧
    (exL0free 0).length = 5 ∧ (exL0free 1).length = 3 ∧ freePages 2 exL0free = 8 ∧
    ¬ (freePages 2 exL0free + ([] : List Nat).length = freePages 2 exL0) :=
  ⟨rfl, by decide, by decide, rfl, by decide, by decide, by decide, by decide, by decide⟩

/-! ## The theorems at sample states -/

theorem kalloc_fail_iff_witness :
    (0 < 2 ∧ (kalloc 2 kmemZero 0).2 = 0 ∧ (kalloc 2 kmemZero 0).1 = kmemZero) ∧
    (1 < 2 ∧ Repr 2 exK0 exL0) ∧ ¬ (kalloc 2 exK0 1).2 = 0 :=
  ⟨⟨by decide, (kalloc_fail_iff 2 kmemZero 0 (by decide)).1.2 (fun _ _ => rfl),
      ((kalloc_fail_iff 2 kmemZero 0 (by decide)).2.2 (fun _ _ => rfl)).1⟩,
    ⟨by decide, by decide⟩,
    fun h => absurd
      (((kalloc_fail_iff 2 exK0 1 (by decide)).2.1 exL0 (by decide)).1 h 1 (by decide))
      (by decide)⟩

/-- C12. `kfree_bycpu(pa, c)`, and so `kfree(pa)` on core `c`, panics exactly when `pa` is
not a multiple of `PGSIZE`, or `pa` is below `end`, or `pa >= PHYSTOP`; when it panics the
state of the free lists is the one it was called with, and when it returns it is the
state it returns. -/
theorem kfree_panic_iff (kend PHYSTOP : Nat) (m : Kmems) (pa c : Nat) :
    (kfree_bycpu kend PHYSTOP m pa c = none ↔
      (pa % PGSIZE ≠ 0 ∨ pa < kend ∨ PHYSTOP ≤ pa)) ∧
    (kfree kend PHYSTOP m pa c = none ↔
      (pa % PGSIZE ≠ 0 ∨ pa < kend ∨ PHYSTOP ≤ pa)) ∧
    (kfree_bycpu kend PHYSTOP m pa c = none →
      kfree_bycpu_lists kend PHYSTOP m pa c = m) ∧
    (∀ m', kfree_bycpu kend PHYSTOP m pa c = some m' →
      kfree_bycpu_lists kend PHYSTOP m pa c = m') := by
  have h1 : kfree_bycpu kend PHYSTOP m pa c = none ↔
      (pa % PGSIZE ≠ 0 ∨ pa < kend ∨ PHYSTOP ≤ pa) := by
    unfold kfree_bycpu
    split
    · rename_i h
      exact ⟨fun _ => h, fun _ => rfl⟩
    · rename_i h
      exact ⟨fun hn => Option.noConfusion hn, fun hc => absurd hc h⟩
  refine ⟨h1, h1, ?_, ?_⟩
  · intro hn
    have hc := h1.1 hn
    unfold kfree_bycpu_lists
    rw [if_pos hc]
  · intro m' hs
    obtain ⟨hs', h2, h3, h4⟩ := kfree_bycpu_some hs
    unfold kfree_bycpu_lists
    rw [if_neg (by omega), hs']

/-- C20, amended. For a core `c < NCPU` and an address `pa` that passes the check of
`kfree_bycpu` (with the kernel image ending above address 0, so that `pa` is not the
null pointer) and that is on no free list: `kfree_bycpu(pa, c)` makes `pa` the head of
the free list of `c` with the former list as its tail and leaves the lists of the other
cores unchanged; a `kalloc` on core `c` right after it returns `pa` and gives back
exactly the free lists from before the free - every pointer `freelist` is as before and
the only word of memory that differs is the junk in the page `pa` itself. -/
theorem kfree_kalloc_roundtrip (NCPU kend PHYSTOP : Nat) (m m' : Kmems) (s : FreeLists)
    (pa c : Nat) (hc : c < NCPU) (hend : 0 < kend) (hrep : Repr NCPU m s)
    (hfresh : ∀ i, i < NCPU → pa ∉ s i)
    (h : kfree_bycpu kend PHYSTOP m pa c = some m') :
    pa ≠ 0 ∧ Repr NCPU m' (Function.update s c (pa :: s c)) ∧
    (∀ i, i ≠ c → Function.update s c (pa :: s c) i = s i) ∧
    (kalloc NCPU m' c).2 = pa ∧ Repr NCPU (kalloc NCPU m' c).1 s ∧
    kalloc NCPU m' c =
      ({ freelist := m.freelist, next := Function.update m.next pa JUNK }, pa) := by
  obtain ⟨hm', _, hge, _⟩ := kfree_bycpu_some h
  have hpa : pa ≠ 0 := by omega
  have hres : kalloc NCPU m' c =
      ({ freelist := m.freelist, next := Function.update m.next pa JUNK }, pa) := by
    subst hm'
    have e1 : Function.update m.freelist c pa c = pa := Function.update_same c pa m.freelist
    have e2 : Function.update m.next pa (m.freelist c) pa = m.freelist c :=
      Function.update_same pa (m.freelist c) m.next
    simp only [kalloc, kallocPop, e1, ne_eq, hpa, not_false_eq_true, ↓reduceIte]
    rw [e1, e2]
    simp only [Function.update_idem, Function.update_eq_self]
  refine ⟨hpa, ?_, fun i hi => Function.update_noteq hi _ _, ?_, ?_, hres⟩
  · rw [hm']
    exact Repr_push hrep hc hpa hfresh
  · rw [hres]
  · rw [hres]
    intro i hi
    exact IsList_update _ _ (hrep i hi) (hfresh i hi)

theorem kfree_kalloc_roundtrip_witness :
    (0 < 2 ∧ 0 < 4096 ∧ Repr 2 exT1.kmems exLT1 ∧ (∀ i, i < 2 → 20480 ∉ exLT1 i) ∧
      kfree_bycpu 4096 24576 exT1.kmems 20480 0 = some exT2.kmems) ∧
    20480 ≠ 0 ∧ Repr 2 exT2.kmems (Function.update exLT1 0 (20480 :: exLT1 0)) ∧
    (∀ i, i ≠ 0 → Function.update exLT1 0 (20480 :: exLT1 0) i = exLT1 i) ∧
    (kalloc 2 exT2.kmems 0).2 = 20480 ∧ Repr 2 (kalloc 2 exT2.kmems 0).1 exLT1 ∧
    kalloc 2 exT2.kmems 0 =
      ({ freelist := exT1.kmems.freelist,
         next := Function.update exT1.kmems.next 20480 JUNK }, 20480) :=
  ⟨⟨by decide, by decide, by decide, by decide, rfl⟩,
    kfree_kalloc_roundtrip 2 4096 24576 exT1.kmems exT2.kmems exLT1 20480 0 (by decide)
      (by decide) (by decide) (by decide) rfl⟩

/-- C20, as stated, fails for a page that is on a free list.  With page 4096 on the list
of core 0 and pages 12288, 8192 on the list of core 1, `kfree_bycpu(12288, 0)` passes the
check and writes the `next` word of page 12288, which is a node of the list of core 1:
the list of core 1 becomes 12288, 4096 (page 8192 is lost to both lists) instead of
staying unchanged.  The `kalloc` on core 0 that follows returns 12288 but does not
restore the lists: the list of core 1 still starts at page 12288, now allocated and
filled with junk. -/
theorem kfree_listed_page :
    Repr 2 exK2 exL2 ∧ Distinct 2 exL2 ∧
    kfree_bycpu 4096 16384 exK2 12288 0 = some exK2free ∧
    Repr 2 exK2free exL2free ∧ exL2 1 = [12288, 8192] ∧ exL2free 1 = [12288, 4096] ∧
    ¬ Repr 2 exK2free (Function.update exL2 0 (12288 :: exL2 0)) ∧
    (kalloc 2 exK2free 0).2 = 12288 ∧
    ¬ Repr 2 (kalloc 2 exK2free 0).1 exL2 ∧
    (kalloc 2 exK2free 0).1.freelist 1 = 12288 ∧
    (kalloc 2 exK2free 0).1.next 12288 = JUNK :=
  ⟨by decide, by decide, rfl, by decide, rfl, rfl, by decide, by decide, by decide,
    by decide, by decide⟩

/-! ## The lock calls of `kalloc` -/

/-- C16 does not hold of the code.  On 2 cores with both free lists empty, `kalloc` on
core 0 calls `acquire` on the lock of core 0, then `acquire` on the lock of core 1, and
releases the lock of core 0 last: after its second lock call it holds the locks of core
1 and of core 0 at once.  `kalloc` on core 1 takes the same two locks in the opposite
order. -/
theorem kalloc_holds_two_locks :
    kallocLocks 2 kmemZero 0 =
      [LockEvent.acquire 0, LockEvent.acquire 1, LockEvent.release 1,
        LockEvent.release 0] ∧
    locksHeld [] ((kallocLocks 2 kmemZero 0).take 2) = [1, 0] ∧
    kallocLocks 2 kmemZero 1 =
      [LockEvent.acquire 1, LockEvent.acquire 0, LockEvent.release 0,
        LockEvent.release 1] ∧
    locksHeld [] ((kallocLocks 2 kmemZero 1).take 2) = [0, 1] :=
  ⟨by decide, by decide, by decide, by decide⟩

/-! ## The distribution of `freerange` -/

theorem freePages_of_lengths (q r : Nat) (s : FreeLists) (n : Nat)
    (h : ∀ i, i < n → (s i).length = q + if i < r then 1 else 0) :
    freePages n s = n * q + min n r := by
  induction n with
  | zero => simp [freePages]
  | succ n ih =>
    rw [freePages_succ, ih (fun i hi => h i (by omega)), h n (by omega)]
    rw [Nat.succ_mul]
    split_ifs <;> omega

/-- C13. Starting from empty free lists (null pointers `freelist`), with `end` above
address 0, when `freerange(pa_start, pa_end)` returns (every page passes the check of
`kfree_bycpu`), with `total = (pa_end - pa_start) / PGSIZE`: the free lists are sequences
of pages, no page twice, and the free list of core `i < NCPU` holds exactly
`total / NCPU` pages, plus one when `i < total % NCPU`; the lengths sum to `total`, and
two cores differ by at most one page. -/
theorem freerange_even (NCPU kend PHYSTOP pa_start pa_end : Nat) (m m' : Kmems)
    (hN : 0 < NCPU) (hle : pa_start ≤ pa_end) (hlt : pa_end < 2 ^ 64) (hend : 0 < kend)
    (hempty : ∀ i, i < NCPU → m.freelist i = 0)
    (h : freerange NCPU kend PHYSTOP m pa_start pa_end = some m') :
    ∃ s : FreeLists, Repr NCPU m' s ∧ Distinct NCPU s ∧
      (∀ i, i < NCPU → (s i).length = (pa_end - pa_start) / PGSIZE / NCPU +
        if i < (pa_end - pa_start) / PGSIZE % NCPU then 1 else 0) ∧
      freePages NCPU s = (pa_end - pa_start) / PGSIZE ∧
      (∀ i j, i < NCPU → j < NCPU → (s i).length ≤ (s j).length + 1) := by
  have hsize : (pa_end + 2 ^ 64 - pa_start) % 2 ^ 64 = pa_end - pa_start := by
    have : pa_end + 2 ^ 64 - pa_start = (pa_end - pa_start) + 2 ^ 64 := by omega
    rw [this, Nat.add_mod_right, Nat.mod_eq_of_lt (by omega)]
  obtain ⟨s, hrep, hdis, hlens⟩ := freerange_lists hend hempty h
  rw [hsize] at hlens
  refine ⟨s, hrep, hdis, hlens, ?_, ?_⟩
  · rw [freePages_of_lengths _ _ _ _ hlens]
    have hmod : (pa_end - pa_start) / PGSIZE % NCPU < NCPU := Nat.mod_lt _ hN
    rw [Nat.min_eq_right (le_of_lt hmod)]
    exact Nat.div_add_mod _ _
  · intro i j hi hj
    rw [hlens i hi, hlens j hj]
    split_ifs <;> omega

theorem freerange_even_witness :
    (0 < 4 ∧ 4096 ≤ 413696 ∧ 413696 < 2 ^ 64 ∧ 0 < 4096 ∧
      (∀ i, i < 4 → kmemZero.freelist i = 0) ∧
      freerange 4 4096 413696 kmemZero 4096 413696 = some exK100) ∧
    ∃ s : FreeLists, Repr 4 exK100 s ∧ Distinct 4 s ∧
      (s 0).length = 25 ∧ (s 1).length = 25 ∧ (s 2).length = 25 ∧ (s 3).length = 25 ∧
      freePages 4 s = 100 :=
  ⟨⟨by decide, by decide, by decide, by decide, fun _ _ => rfl, rfl⟩,
    Exists.elim
      (freerange_even 4 4096 413696 4096 413696 kmemZero exK100 (by decide) (by decide)
        (by decide) (by decide) (fun _ _ => rfl) rfl)
      (fun s h => ⟨s, h.1, h.2.1, h.2.2.1 0 (by decide), h.2.2.1 1 (by decide),
        h.2.2.1 2 (by decide), h.2.2.1 3 (by decide), h.2.2.2.1⟩)⟩

/-! ## The pages `freerange` frees -/

theorem freerangePagesArgs_spec (c : Nat) (n : Nat) :
    ∀ p, p < 2 ^ 64 →
      (freerangePagesArgs c n p).1.map Prod.fst =
        (List.range n).map (fun k => (p + k * PGSIZE) % 2 ^ 64) ∧
      (freerangePagesArgs c n p).2 = (p + n * PGSIZE) % 2 ^ 64 := by
  induction n with
  | zero =>
    intro p hp
    refine ⟨rfl, ?_⟩
    show p = (p + 0 * PGSIZE) % 2 ^ 64
    rw [Nat.zero_mul, Nat.add_zero, Nat.mod_eq_of_lt hp]
  | succ n ih =>
    intro p hp
    obtain ⟨h1, h2⟩ := ih ((p + PGSIZE) % 2 ^ 64) (Nat.mod_lt _ (Nat.two_pow_pos 64))
    have hstep : ∀ k, ((p + PGSIZE) % 2 ^ 64 + k * PGSIZE) % 2 ^ 64 =
        (p + (k + 1) * PGSIZE) % 2 ^ 64 := by
      intro k
      have harith : p + PGSIZE + k * PGSIZE = p + (k + 1) * PGSIZE := by ring
      rw [Nat.mod_add_mod, harith]
    constructor
    · show ((p, c) :: (freerangePagesArgs c n ((p + PGSIZE) % 2 ^ 64)).1).map Prod.fst = _
      rw [List.map_cons, h1, List.range_succ_eq_map, List.map_cons, List.map_map]
      refine congrArg₂ List.cons ?_ ?_
      · show p = (p + 0 * PGSIZE) % 2 ^ 64
        rw [Nat.zero_mul, Nat.add_zero, Nat.mod_eq_of_lt hp]
      · apply List.map_congr_left
        intro k _
        exact hstep k
    · show (freerangePagesArgs c n ((p + PGSIZE) % 2 ^ 64)).2 = _
      rw [h2]
      exact hstep n

theorem freerangeCoresArgs_spec (single : Nat) (l : List Nat) :
    ∀ e p, p < 2 ^ 64 →
      (freerangeCoresArgs single l e p).map Prod.fst =
        (List.range (l.length * single + min l.length e)).map
          (fun k => (p + k * PGSIZE) % 2 ^ 64) := by
  induction l with
  | nil =>
    intro e p _
    simp [freerangeCoresArgs]
  | cons i rest ih =>
    intro e p hp
    have key : ∀ real e', real + (rest.length * single + min rest.length e') =
        (rest.length + 1) * single + min (rest.length + 1) e →
        ((freerangePagesArgs i real p).1 ++
          freerangeCoresArgs single rest e' (freerangePagesArgs i real p).2).map Prod.fst =
        (List.range ((rest.length + 1) * single + min (rest.length + 1) e)).map
          (fun k => (p + k * PGSIZE) % 2 ^ 64) := by
      intro real e' hcount
      obtain ⟨h1, h2⟩ := freerangePagesArgs_spec i real p hp
      rw [← hcount, List.range_add real, List.map_append, List.map_append, List.map_map,
        h1, h2, ih e' _ (Nat.mod_lt _ (Nat.two_pow_pos 64))]
      refine congrArg₂ HAppend.hAppend rfl ?_
      apply List.map_congr_left
      intro k _
      show ((p + real * PGSIZE) % 2 ^ 64 + k * PGSIZE) % 2 ^ 64 =
        (p + (real + k) * PGSIZE) % 2 ^ 64
      have harith : p + real * PGSIZE + k * PGSIZE = p + (real + k) * PGSIZE := by ring
      rw [Nat.mod_add_mod, harith]
    by_cases he : e > 0
    · simp only [freerangeCoresArgs, he, ↓reduceIte, List.length_cons]
      apply key
      rw [Nat.succ_mul]
      omega
    · simp only [freerangeCoresArgs, he, ↓reduceIte, List.length_cons]
      apply key
      rw [Nat.succ_mul]
      omega

theorem freerangeArgs_spec (NCPU pa_start pa_end : Nat) (hN : 0 < NCPU)
    (hle : pa_start ≤ pa_end) (hlt : pa_end < 2 ^ 64) :
    (freerangeArgs NCPU pa_start pa_end).map Prod.fst =
      (List.range ((pa_end - pa_start) / PGSIZE)).map
        (fun k => (PGROUNDUP pa_start + k * PGSIZE) % 2 ^ 64) := by
  have hsize : (pa_end + 2 ^ 64 - pa_start) % 2 ^ 64 = pa_end - pa_start := by
    have : pa_end + 2 ^ 64 - pa_start = (pa_end - pa_start) + 2 ^ 64 := by omega
    rw [this, Nat.add_mod_right, Nat.mod_eq_of_lt (by omega)]
  have hp : PGROUNDUP pa_start < 2 ^ 64 := by
    unfold PGROUNDUP
    have h1 : (pa_start + PGSIZE - 1) % 2 ^ 64 < 2 ^ 64 := Nat.mod_lt _ (Nat.two_pow_pos 64)
    have h2 := Nat.div_mul_le_self ((pa_start + PGSIZE - 1) % 2 ^ 64) PGSIZE
    omega
  simp only [freerangeArgs, hsize]
  rw [freerangeCoresArgs_spec _ _ _ _ hp, List.length_range]
  have hmod : (pa_end - pa_start) / PGSIZE % NCPU < NCPU := Nat.mod_lt _ hN
  rw [Nat.min_eq_right (le_of_lt hmod), Nat.div_add_mod]

theorem freerangePages_eq_calls (kend PHYSTOP c : Nat) (n : Nat) :
    ∀ (m : Kmems) (p : Nat),
      freerangePages kend PHYSTOP c n (m, p) =
        ((freerangePagesArgs c n p).1.foldlM
          (fun m x => kfree_bycpu kend PHYSTOP m x.1 x.2) m).map
          (fun m' => (m', (freerangePagesArgs c n p).2)) := by
  induction n with
  | zero => intro m p; rfl
  | succ n ih =>
    intro m p
    show (match kfree_bycpu kend PHYSTOP m p c with
      | none => none
      | some m' => freerangePages kend PHYSTOP c n (m', (p + PGSIZE) % 2 ^ 64)) =
      (((p, c) :: (freerangePagesArgs c n ((p + PGSIZE) % 2 ^ 64)).1).foldlM
        (fun m x => kfree_bycpu kend PHYSTOP m x.1 x.2) m).map
        (fun m' => (m', (freerangePagesArgs c n ((p + PGSIZE) % 2 ^ 64)).2))
    rw [List.foldlM_cons]
    cases hf : kfree_bycpu kend PHYSTOP m p c with
    | none => rfl
    | some m' => exact ih m' _

theorem freerangeCores_eq_calls (kend PHYSTOP single : Nat) (l : List Nat) :
    ∀ (e : Nat) (m : Kmems) (p : Nat),
      (freerangeCores kend PHYSTOP single l e (m, p)).map Prod.fst =
        (freerangeCoresArgs single l e p).foldlM
          (fun m x => kfree_bycpu kend PHYSTOP m x.1 x.2) m := by
  induction l with
  | nil => intro e m p; rfl
  | cons i rest ih =>
    intro e m p
    simp only [freerangeCores, freerangeCoresArgs, List.foldlM_append]
    rw [freerangePages_eq_calls]
    cases hf : (freerangePagesArgs i (if e > 0 then single + 1 else single) p).1.foldlM
        (fun m x => kfree_bycpu kend PHYSTOP m x.1 x.2) m with
    | none => rfl
    | some m' => exact ih _ m' _

/-- C19, amended. For `pa_start <= pa_end` the calls of `kfree_bycpu` that `freerange` makes
are the ones listed by `freerangeArgs`; their addresses are `PGROUNDUP(pa_start)`,
`PGROUNDUP(pa_start) + PGSIZE`, ... (`(pa_end - pa_start) / PGSIZE` of them): pairwise
distinct multiples of `PGSIZE`, each at or above `pa_start` and below `pa_end`; and when
`pa_end` is a multiple of `PGSIZE` every page `[p, p + PGSIZE)` lies inside
`[pa_start, pa_end)`. -/
theorem freerange_pages (NCPU kend PHYSTOP pa_start pa_end : Nat) (m : Kmems)
    (hN : 0 < NCPU) (hle : pa_start ≤ pa_end) (hlt : pa_end < 2 ^ 64) :
    freerange NCPU kend PHYSTOP m pa_start pa_end =
      (freerangeArgs NCPU pa_start pa_end).foldlM
        (fun m x => kfree_bycpu kend PHYSTOP m x.1 x.2) m ∧
    (freerangeArgs NCPU pa_start pa_end).map Prod.fst =
      (List.range ((pa_end - pa_start) / PGSIZE)).map
        (fun k => PGROUNDUP pa_start + k * PGSIZE) ∧
    ((freerangeArgs NCPU pa_start pa_end).map Prod.fst).Nodup ∧
    (∀ p ∈ (freerangeArgs NCPU pa_start pa_end).map Prod.fst,
      p % PGSIZE = 0 ∧ pa_start ≤ p ∧ p < pa_end ∧
      (pa_end % PGSIZE = 0 → p + PGSIZE ≤ pa_end)) := by
  have hP : PGSIZE = 4096 := rfl
  have hM : (2 : Nat) ^ 64 = 18446744073709551616 := by norm_num
  have hR : PGROUNDUP pa_start =
      (pa_start + 4096 - 1) % 18446744073709551616 / 4096 * 4096 := by
    unfold PGROUNDUP
    rw [hP, hM]
  have hbound : ∀ k, k < (pa_end - pa_start) / PGSIZE →
      PGROUNDUP pa_start + k * PGSIZE < 2 ^ 64 ∧
      (PGROUNDUP pa_start + k * PGSIZE) % PGSIZE = 0 ∧
      pa_start ≤ PGROUNDUP pa_start + k * PGSIZE ∧
      PGROUNDUP pa_start + k * PGSIZE < pa_end ∧
      (pa_end % PGSIZE = 0 → PGROUNDUP pa_start + k * PGSIZE + PGSIZE ≤ pa_end) := by
    intro k hk
    rw [hR, hP, hM] at *
    refine ⟨?_, ?_, ?_, ?_, ?_⟩ <;> omega
  have hlist : (freerangeArgs NCPU pa_start pa_end).map Prod.fst =
      (List.range ((pa_end - pa_start) / PGSIZE)).map
        (fun k => PGROUNDUP pa_start + k * PGSIZE) := by
    rw [freerangeArgs_spec NCPU pa_start pa_end hN hle hlt]
    apply List.map_congr_left
    intro k hk
    exact Nat.mod_eq_of_lt (hbound k (List.mem_range.1 hk)).1
  refine ⟨?_, hlist, ?_, ?_⟩
  · simp only [freerange, freerangeArgs]
    exact freerangeCores_eq_calls _ _ _ _ _ _ _
  · rw [hlist]
    refine (List.nodup_range _).map ?_
    intro a b hab
    simp only [hP] at hab
    omega
  · intro p hp
    rw [hlist] at hp
    obtain ⟨k, hk, rfl⟩ := List.mem_map.1 hp
    obtain ⟨_, h2, h3, h4, h5⟩ := hbound k (List.mem_range.1 hk)
    exact ⟨h2, h3, h4, h5⟩

theorem freerange_pages_witness :
    (0 < 4 ∧ 4000 ≤ 413696 ∧ 413696 < 2 ^ 64) ∧
    (freerangeArgs 4 4000 413696).map Prod.fst =
      (List.range ((413696 - 4000) / PGSIZE)).map (fun k => PGROUNDUP 4000 + k * PGSIZE) ∧
    (freerangeArgs 4 4000 413696).length = 100 ∧
    (∀ p ∈ (freerangeArgs 4 4000 413696).map Prod.fst, p + PGSIZE ≤ 413696) :=
  have h := freerange_pages 4 4096 413696 4000 413696 kmemZero (by decide)
    (by decide) (by decide)
  ⟨⟨by decide, by decide, by decide⟩, h.2.1, by decide,
    fun p hp => (h.2.2.2 p hp).2.2.2 (by decide)⟩

/-- C19, as stated, fails: `freerange(1, 4097)` counts one page, starts at
`PGROUNDUP(1) = 4096` and passes 4096 to `kfree_bycpu`, which accepts it (with `end = 1`,
`PHYSTOP = 4097`) and makes it the free list of core 0; the page `[4096, 8192)` extends
past `pa_end = 4097`. -/
theorem freerange_page_past_end :
    1 ≤ 4097 ∧ freerangeArgs 2 1 4097 = [(4096, 0)] ∧
    (∃ m, freerange 2 1 4097 kmemZero 1 4097 = some m ∧
      Repr 2 m (fun i => if i = 0 then [4096] else [])) ∧
    ¬ (4096 + PGSIZE ≤ 4097) :=
  ⟨by decide, by decide,
    ⟨(freerange 2 1 4097 kmemZero 1 4097).getD kmemZero, rfl, by decide⟩, by decide⟩

end Kalloc
